import Mathlib

/-!
Verification of the Sudoku engine of this repository
(src/sudoku-generator/src/sudoku/{cell,board,solver,generator}.py).

The embedding is shallow: each Python class becomes a Lean structure and
each method a pure function.  Mutation is modelled by explicit state
passing (a method that mutates its receiver becomes a function returning
the new board).  Python exceptions become an Except value; the error
taxonomy of the spec (OutOfBounds for IndexError, InvalidValue /
InvalidArgument for ValueError) names the constructors.  Python sets of
ints become Finset Nat.  Internal algorithm code (count_solutions,
solver, generator) always calls set_value / get_value with in-bounds
indices and legal values, so there those calls are embedded by the
unchecked core of the checked wrapper; the checked wrapper itself is the
entry point the error-handling claims are about.
-/

namespace Sudoku

/-- Error taxonomy: IndexError is outOfBounds, the two ValueError shapes
are invalidValue (bad cell value) and invalidArgument (bad method
argument), following the spec names. -/
inductive Err where
  | outOfBounds
  | invalidValue
  | invalidArgument
deriving DecidableEq

/-- Cell (cell.py): an optional value and the candidate set
possible_values.  The source also stores the (row, col) position of the
cell; that field only feeds get_position / repr and is redundant with
the cell's index in the board grid, so it is not duplicated here. -/
structure Cell where
  value : Option Nat
  possibleValues : Finset Nat
deriving DecidableEq

/-- Cell.set_value: assign the new value; a non-None value collapses
possible_values to the singleton, None leaves possible_values untouched. -/
def Cell.setValue (cl : Cell) (v : Option Nat) : Cell :=
  match v with
  | some x => { value := some x, possibleValues := {x} }
  | none => { cl with value := none }

/-- set(range(1, size + 1)): the full candidate set of a board of the
given size. -/
def allValues (n : Nat) : Finset Nat := (Finset.range n).image (· + 1)

/-- Board (board.py): size, subgrid_size and the N x N grid of cells,
stored row-major (cell (r, c) at index r * size + c). -/
structure Board where
  size : Nat
  subgridSize : Nat
  cells : List Cell
deriving DecidableEq

/-- int(math.sqrt(n)): the floor square root, written so that it
evaluates by structural reduction (the largest k with k * k ≤ n). -/
def intSqrt (n : Nat) : Nat :=
  ((List.range (n + 1)).filter (fun k => k * k ≤ n)).foldl max 0

/-- Board.__init__ for a perfect-square size: subgrid_size = sqrt(size),
every cell empty with the full candidate set.  (The constructor's
perfect-square validation is the InvalidSize error of the spec; boards
built by mkBoard always satisfy Board.WF below.) -/
def mkBoard (n : Nat) : Board :=
  { size := n, subgridSize := intSqrt n,
    cells := List.replicate (n * n) ⟨none, allValues n⟩ }

/-- Structural well-formedness guaranteed by the Board constructor:
subgrid_size squared is size and the grid holds size * size cells. -/
def Board.WF (b : Board) : Prop :=
  b.subgridSize * b.subgridSize = b.size ∧ b.cells.length = b.size * b.size

instance (b : Board) : Decidable b.WF := by
  unfold Board.WF; infer_instance

/-- Row-major index of position (r, c). -/
def Board.idx (b : Board) (r c : Nat) : Nat := r * b.size + c

/-- Board.get_cell without the bounds check (in-bounds callers). -/
def Board.getCell (b : Board) (r c : Nat) : Cell :=
  b.cells.getD (b.idx r c) ⟨none, ∅⟩

/-- The value of cell (r, c): the bounds-free core of Board.get_value. -/
def Board.val (b : Board) (r c : Nat) : Option Nat := (b.getCell r c).value

/-- The bounds-free core of Board.set_value: replace cell (r, c) by the
cell updated via Cell.set_value. -/
def Board.place (b : Board) (r c : Nat) (v : Option Nat) : Board :=
  { b with cells := b.cells.set (b.idx r c) ((b.getCell r c).setValue v) }

/-- Replace only the possible_values of cell (r, c) (direct attribute
assignment cell.possible_values = s in the source). -/
def Board.setPoss (b : Board) (r c : Nat) (s : Finset Nat) : Board :=
  { b with cells := b.cells.set (b.idx r c) ⟨(b.getCell r c).value, s⟩ }

/-- Board.set_value: IndexError when (r, c) is out of bounds, ValueError
when the value is neither None nor in [1, size], else update the cell. -/
def Board.setValue (b : Board) (r c : Nat) (v : Option Nat) : Except Err Board :=
  if r < b.size ∧ c < b.size then
    match v with
    | none => .ok (b.place r c none)
    | some x =>
      if 1 ≤ x ∧ x ≤ b.size then .ok (b.place r c (some x))
      else .error .invalidValue
  else .error .outOfBounds

/-- Board.get_value: IndexError when out of bounds, else the cell value. -/
def Board.getValue (b : Board) (r c : Nat) : Except Err (Option Nat) :=
  if r < b.size ∧ c < b.size then .ok (b.val r c) else .error .outOfBounds

/-- Board.is_empty (bounds-free core): the cell holds None. -/
def Board.isEmptyAt (b : Board) (r c : Nat) : Bool := (b.val r c).isNone

/-- All positions of the board in row-major order. -/
def Board.positionsList (b : Board) : List (Nat × Nat) :=
  (List.range b.size).flatMap (fun r => (List.range b.size).map (fun c => (r, c)))

/-- Board.get_empty_positions: row-major empty positions. -/
def Board.emptyPositions (b : Board) : List (Nat × Nat) :=
  b.positionsList.filter (fun p => b.isEmptyAt p.1 p.2)

/-- The filled positions in row-major order (the loops of remove_clues
and _remove_clues_optimized collect exactly this list). -/
def Board.filledPositions (b : Board) : List (Nat × Nat) :=
  b.positionsList.filter (fun p => !(b.isEmptyAt p.1 p.2))

/-- Number of filled cells. -/
def Board.filledCount (b : Board) : Nat := b.filledPositions.length

/-- The non-None values of row r in scan order. -/
def Board.rowVals (b : Board) (r : Nat) : List Nat :=
  (List.range b.size).filterMap (fun c => b.val r c)

/-- The non-None values of column c in scan order. -/
def Board.colVals (b : Board) (c : Nat) : List Nat :=
  (List.range b.size).filterMap (fun r => b.val r c)

/-- The positions of the subgrid whose top-left corner is (sr, sc). -/
def Board.subgridPositions (b : Board) (sr sc : Nat) : List (Nat × Nat) :=
  (List.range b.subgridSize).flatMap
    (fun i => (List.range b.subgridSize).map (fun j => (sr + i, sc + j)))

/-- The non-None values of the subgrid with top-left corner (sr, sc). -/
def Board.subgridValsAt (b : Board) (sr sc : Nat) : List Nat :=
  (b.subgridPositions sr sc).filterMap (fun p => b.val p.1 p.2)

/-- Top-left corner coordinate of the subgrid containing coordinate x:
(x // subgrid_size) * subgrid_size. -/
def Board.subTop (b : Board) (x : Nat) : Nat := x / b.subgridSize * b.subgridSize

/-- The non-None values of the subgrid containing cell (r, c). -/
def Board.subgridVals (b : Board) (r c : Nat) : List Nat :=
  b.subgridValsAt (b.subTop r) (b.subTop c)

/-- Board.is_safe, bounds-free core: the three scans of the source each
return False as soon as num is found in the row, the column, or the
subgrid of (r, c) -- the scans do not skip the cell (r, c) itself. -/
def Board.isSafeCore (b : Board) (r c num : Nat) : Bool :=
  decide (num ∉ b.rowVals r) && decide (num ∉ b.colVals c) &&
    decide (num ∉ b.subgridVals r c)

/-- Board.is_safe: IndexError on bad position, ValueError on num outside
[1, size], else the pure scan result.  No state is touched (the
embedding is a pure function of the board). -/
def Board.isSafe (b : Board) (r c num : Nat) : Except Err Bool :=
  if r < b.size ∧ c < b.size then
    if 1 ≤ num ∧ num ≤ b.size then .ok (b.isSafeCore r c num)
    else .error .invalidValue
  else .error .outOfBounds

/-- range(0, size, subgrid_size): the subgrid top-left coordinates
scanned by is_valid. -/
def Board.subgridStarts (b : Board) : List Nat :=
  (List.range b.size).filter (fun x => x % b.subgridSize == 0)

/-- Board.is_valid: every row, column and subgrid is free of duplicate
non-None values.  The source detects a duplicate with an incrementally
built seen-set; a unit has no such duplicate iff its non-None value list
is Nodup. -/
def Board.isValid (b : Board) : Bool :=
  ((List.range b.size).all fun r => decide (b.rowVals r).Nodup) &&
  ((List.range b.size).all fun c => decide (b.colVals c).Nodup) &&
  (b.subgridStarts.all fun sr =>
    b.subgridStarts.all fun sc => decide (b.subgridValsAt sr sc).Nodup)

/-- Board._get_restricted_values: the set of values held in the row,
column and subgrid of (r, c). -/
def Board.restrictedValues (b : Board) (r c : Nat) : Finset Nat :=
  (b.rowVals r).toFinset ∪ (b.colVals c).toFinset ∪ (b.subgridVals r c).toFinset

/-- The candidate set update_possible_values(r, c) computes for cell
(r, c): the singleton of its value when filled, else the full value set
minus the restricted values. -/
def Board.possCanon (b : Board) (r c : Nat) : Finset Nat :=
  match b.val r c with
  | some v => {v}
  | none => allValues b.size \ b.restrictedValues r c

/-- Board.update_possible_values(r, c, affected_only=False): recompute
the candidate set of exactly cell (r, c). -/
def Board.updateCellPoss (b : Board) (r c : Nat) : Board :=
  b.setPoss r c (b.possCanon r c)

/-- One step of _update_affected_cells: if the cell at p is empty,
discard v from its candidate set (the source tests membership before
removing; erase is the same operation). -/
def erasePossAt (v : Nat) (b : Board) (p : Nat × Nat) : Board :=
  if b.isEmptyAt p.1 p.2 then
    b.setPoss p.1 p.2 ((b.getCell p.1 p.2).possibleValues.erase v)
  else b

/-- Board._update_affected_cells(r, c): if the cell is now empty, just
recompute its own candidates; otherwise remove its value from the
candidate sets of its empty row, column and subgrid peers (three scans
in source order; revisiting a cell in the subgrid scan is harmless since
erase is idempotent). -/
def Board.updateAffectedCells (b : Board) (r c : Nat) : Board :=
  match b.val r c with
  | none => b.updateCellPoss r c
  | some v =>
    let rowPs := ((List.range b.size).filter (fun x => x != c)).map (fun x => (r, x))
    let colPs := ((List.range b.size).filter (fun x => x != r)).map (fun x => (x, c))
    let subPs := (b.subgridPositions (b.subTop r) (b.subTop c)).filter
      (fun p => p != (r, c))
    let b1 := rowPs.foldl (erasePossAt v) b
    let b2 := colPs.foldl (erasePossAt v) b1
    subPs.foldl (erasePossAt v) b2

/-- Board.update_possible_values() with row=None, col=None: recompute
every cell's candidate set, row-major (each single-cell recomputation
reads only cell values, which the pass never changes). -/
def Board.fullRefresh (b : Board) : Board :=
  b.positionsList.foldl (fun bb p => bb.updateCellPoss p.1 p.2) b

/-- Board.update_possible_values dispatcher: both indices, one index, or
none, plus the affected_only flag, with the source's input validation
(exactly one index given is a ValueError; affected_only is ignored when
no cell is given). -/
def Board.updatePossibleValues (b : Board) (row col : Option Nat)
    (affectedOnly : Bool) : Except Err Board :=
  match row, col with
  | some r, some c =>
    if r < b.size ∧ c < b.size then
      if affectedOnly then .ok (b.updateAffectedCells r c)
      else .ok (b.updateCellPoss r c)
    else .error .outOfBounds
  | none, none => .ok b.fullRefresh
  | _, _ => .error .invalidArgument

/-- Board.copy: a deep clone of size and every cell (value and candidate
set).  In the value semantics of the embedding the board value itself is
that clone. -/
def Board.copy (b : Board) : Board := b

/-- The loop of Board.get_mrv_cell: scan the given positions (row-major
when called on positionsList); skip filled cells; refresh the candidate
set of each empty cell before reading it; remember the first strict
minimum; return early when a newly improving cell has exactly one
candidate.  The accumulator carries the best position with its count
(None models the initial infinity).  The scanned board is threaded
because the refreshes mutate it in the source. -/
def mrvGo : List (Nat × Nat) → Board → Option ((Nat × Nat) × Nat) →
    Board × Option (Nat × Nat)
  | [], b, best => (b, best.map (fun q => q.1))
  | p :: ps, b, best =>
    if !(b.isEmptyAt p.1 p.2) then mrvGo ps b best
    else
      let b1 := b.updateCellPoss p.1 p.2
      let np := (b1.getCell p.1 p.2).possibleValues.card
      let better : Bool :=
        match best with
        | some q => decide (np < q.2)
        | none => true
      if better then
        if np = 1 then (b1, some p) else mrvGo ps b1 (some (p, np))
      else mrvGo ps b1 best

/-- Board.get_mrv_cell: the MRV scan over all positions.  Returns the
(refresh-mutated) board and the chosen empty position, or None when the
board has no empty cell. -/
def Board.getMrvCell (b : Board) : Board × Option (Nat × Nat) :=
  mrvGo b.positionsList b none

/-- Enumerate a finite set of naturals in ascending order.  This models
iterating a Python set: the iteration order is unspecified there, and
every result proved below about the loops that use it is independent of
the order.  (Finset.sort would be the same list, but insertion sort
evaluates by structural reduction while mergeSort does not.) -/
def possSorted (s : Finset Nat) : List Nat :=
  Quot.liftOn s.val (fun l => l.insertionSort (· ≤ ·)) (fun l1 l2 h => by
    exact List.eq_of_perm_of_sorted
      (((l1.perm_insertionSort (· ≤ ·)).trans h).trans
        (l2.perm_insertionSort (· ≤ ·)).symm)
      (l1.sorted_insertionSort (· ≤ ·)) (l2.sorted_insertionSort (· ≤ ·)))

/-- One candidate step of the backtrack() loop inside count_solutions:
place the value, keep it only through the is_valid check, refresh all
candidates, recurse (f is the recursive call at the smaller fuel),
then take the value back out.  When the cap is already reached the
source's remaining iterations only perform a place/unplace pair (and an
is_valid read) on the local working copy before returning, which is
value-neutral; the step skips them, which leaves the same cell values
and the same count. -/
def btStep (f : Board → Nat → Board × Nat) (maxC r c : Nat)
    (st : Board × Nat) (v : Nat) : Board × Nat :=
  if maxC ≤ st.2 then st
  else
    let b2 := st.1.place r c (some v)
    if b2.isValid then
      let res := f b2.fullRefresh st.2
      (res.1.place r c none, res.2)
    else (b2.place r c none, st.2)

/-- backtrack() of Board.count_solutions, with fuel for termination
(count_solutions always supplies more fuel than there are empty cells,
and each recursion fills one cell).  At entry: stop at the cap; find the
MRV cell; no cell means one more solution; otherwise iterate the saved
candidate set of the MRV cell (a Python set -- iterated here in
ascending order; the resulting count is order-independent) and finally
re-refresh the branching cell exactly when the loop was not cut short
by the cap. -/
def btAux : Nat → Nat → Board → Nat → Board × Nat
  | 0, _, b, k => (b, k)
  | fuel + 1, maxC, b, k =>
    if maxC ≤ k then (b, k)
    else
      match b.getMrvCell with
      | (b1, none) => (b1, k + 1)
      | (b1, some p) =>
        let cand := possSorted (b1.getCell p.1 p.2).possibleValues
        let st := cand.foldl
          (btStep (fun bb kk => btAux fuel maxC bb kk) maxC p.1 p.2) (b1, k)
        if maxC ≤ st.2 then st else (st.1.updateCellPoss p.1 p.2, st.2)

/-- Board.count_solutions(max_count): copy the board, refresh all
candidates, run the bounded backtracking counter from zero. -/
def Board.countSolutions (b : Board) (maxCount : Nat) : Nat :=
  (btAux (b.size * b.size + 1) maxCount b.copy.fullRefresh 0).2

/-- One candidate step of SudokuSolver._solve_backtracking: on earlier
success just propagate (the source returns out of the loop); otherwise
place the candidate, refresh all candidates, recurse; on failure take
the value out and refresh all candidates again. -/
def solveStep (f : Board → Bool × Board) (r c : Nat)
    (st : Bool × Board) (v : Nat) : Bool × Board :=
  if st.1 then st
  else
    let res := f ((st.2.place r c (some v)).fullRefresh)
    if res.1 then res
    else (false, (res.2.place r c none).fullRefresh)

/-- SudokuSolver._solve_backtracking with fuel (solve supplies more fuel
than empty cells; each recursion fills one cell).  No MRV cell means the
puzzle is solved; otherwise try each saved candidate of the MRV cell in
turn and fail when none succeeds.  The iteration counter, timing and
profiling bookkeeping of the source are observable only through
get_stats and are not modelled. -/
def solveBT : Nat → Board → Bool × Board
  | 0, b => (false, b)
  | fuel + 1, b =>
    match b.getMrvCell with
    | (b1, none) => (true, b1)
    | (b1, some p) =>
      let cand := possSorted (b1.getCell p.1 p.2).possibleValues
      cand.foldl (solveStep (fun bb => solveBT fuel bb) p.1 p.2) (false, b1)

/-- SudokuSolver.solve(board): set_board deep-copies the caller's board
(so the caller's board is never mutated), then the backtracking runs on
the solver's own working board.  Result: the success flag and the
solver's board afterwards. -/
def solverSolve (b : Board) : Bool × Board :=
  solveBT (b.size * b.size + 1) b.copy

/-- The removal loop of Board.remove_clues over the shuffled filled
positions.  State: the board being mutated in place (selfB), the working
copy, the list of removed positions, and -- as ghost instrumentation
that no branch reads -- the list of selfB states right after each
committed removal (used to state the intermediate-uniqueness claim).
Each iteration: stop when enough clues are removed; remember the value;
tentatively clear the cell on the copy and refresh all candidates; if
the copy still has exactly one solution, commit the removal to selfB
(refreshing just that cell there), else restore the copy (refreshing
just that cell). -/
def removeCluesGo (target : Nat) :
    List (Nat × Nat) → Board → Board → List (Nat × Nat) → List Board →
    Board × Board × List (Nat × Nat) × List Board
  | [], selfB, copyB, removed, trace => (selfB, copyB, removed, trace)
  | p :: ps, selfB, copyB, removed, trace =>
    if target ≤ removed.length then (selfB, copyB, removed, trace)
    else
      let v := copyB.val p.1 p.2
      let c1 := (copyB.place p.1 p.2 none).fullRefresh
      if c1.countSolutions 2 = 1 then
        let s1 := (selfB.place p.1 p.2 none).updateCellPoss p.1 p.2
        removeCluesGo target ps s1 c1 (removed ++ [p]) (trace ++ [s1])
      else
        removeCluesGo target ps selfB ((c1.place p.1 p.2 v).updateCellPoss p.1 p.2)
          removed trace

/-- Board.remove_clues(num_clues): ValueError on a non-positive or
over-large target; if the board already has at most num_clues filled
cells, succeed exactly when the count is already exact; otherwise run
the removal loop over the shuffled filled positions and succeed exactly
when the full quota was removed.  The shuffle outcome (random.shuffle of
the row-major filled positions) is the shuffled parameter. -/
def Board.removeClues (b : Board) (numClues : Nat)
    (shuffled : List (Nat × Nat)) : Except Err (Board × Bool) :=
  if numClues = 0 then .error .invalidArgument
  else if b.size * b.size < numClues then .error .invalidArgument
  else
    let fp := b.filledPositions
    if fp.length ≤ numClues then .ok (b, decide (fp.length = numClues))
    else
      let target := fp.length - numClues
      let res := removeCluesGo target shuffled b b.copy [] []
      .ok (res.1, decide (res.2.2.1.length = target))

/-- SudokuGenerator._score_removal_safety for one position: the number
of filled row, column and subgrid neighbours (subgrid neighbours that
are also row or column neighbours count twice, as in the source), plus
half the larger of the two trailing-run lengths (the source's
sequence loops reset on each empty cell, so they end holding the length
of the trailing filled run of the row and of the column). -/
def scoreRemovalSafety (b : Board) (p : Nat × Nat) : Nat :=
  let rowN := ((List.range b.size).filter
    (fun x => x != p.2 && !(b.isEmptyAt p.1 x))).length
  let colN := ((List.range b.size).filter
    (fun x => x != p.1 && !(b.isEmptyAt x p.2))).length
  let subN := ((b.subgridPositions (b.subTop p.1) (b.subTop p.2)).filter
    (fun q => q != p && !(b.isEmptyAt q.1 q.2))).length
  let rowSeq := (List.range b.size).foldl
    (fun s x => if !(b.isEmptyAt p.1 x) then s + 1 else 0) 0
  let colSeq := (List.range b.size).foldl
    (fun s x => if !(b.isEmptyAt x p.2) then s + 1 else 0) 0
  rowN + colN + subN + max rowSeq colSeq / 2

/-- Stable descending insertion for the safety sort: x goes in front of
the first strictly smaller key, i.e. after every earlier element with an
equal or larger key. -/
def insertByKeyDesc (key : (Nat × Nat) → Nat) (x : Nat × Nat) :
    List (Nat × Nat) → List (Nat × Nat)
  | [] => [x]
  | y :: ys => if key y < key x then x :: y :: ys else y :: insertByKeyDesc key x ys

/-- sorted(positions, key=score, reverse=True): Python's sort is stable,
so this is the stable descending sort by key. -/
def sortByKeyDesc (key : (Nat × Nat) → Nat) (l : List (Nat × Nat)) :
    List (Nat × Nat) :=
  l.foldl (fun acc x => insertByKeyDesc key x acc) []

/-- First phase of SudokuGenerator._remove_clues_optimized: walk the
safety-sorted positions, clearing cells (with the affected-cells
candidate update) and recording each removed position with its value,
until the quota is reached; no uniqueness check here.  Already-empty
positions are skipped (this never fires: the scanned positions are
distinct and initially filled). -/
def removePhaseGo (target : Nat) :
    List (Nat × Nat) → Board → List ((Nat × Nat) × Option Nat) →
    Board × List ((Nat × Nat) × Option Nat)
  | [], b, removed => (b, removed)
  | p :: ps, b, removed =>
    if target ≤ removed.length then (b, removed)
    else if b.isEmptyAt p.1 p.2 then removePhaseGo target ps b removed
    else
      let v := b.val p.1 p.2
      let b1 := (b.place p.1 p.2 none).updateAffectedCells p.1 p.2
      removePhaseGo target ps b1 (removed ++ [(p, v)])

/-- Recovery loop of _remove_clues_optimized: restore the removed clues
one at a time, last removed first, and succeed as soon as the board has
exactly one solution again; fail when even restoring everything never
reached uniqueness. -/
def recoverGo : List ((Nat × Nat) × Option Nat) → Board → Board × Bool
  | [], b => (b, false)
  | (p, v) :: rest, b =>
    let b1 := (b.place p.1 p.2 v).updateAffectedCells p.1 p.2
    if b1.countSolutions 2 = 1 then (b1, true) else recoverGo rest b1

/-- SudokuGenerator._remove_clues_optimized(board, num_clues): succeed
immediately when the board is already at or below the target; otherwise
remove the quota of clues in safety-score order without intermediate
uniqueness checks, verify uniqueness once at the end, and on failure run
the recovery loop.  (The source also solves a copy into a reference
solution_board before removing; that result is never read afterwards
-- dead code -- and is not modelled.  The sort key is computed on the
board before any removal, the board passed in by generate_puzzle, which
is completely filled there.) -/
def removeCluesOptimized (b : Board) (numClues : Nat) : Board × Bool :=
  let ps := b.filledPositions
  if ps.length ≤ numClues then (b, true)
  else
    let target := ps.length - numClues
    let sorted := sortByKeyDesc (fun p => scoreRemovalSafety b p) ps
    let res := removePhaseGo target sorted b []
    if res.1.countSolutions 2 = 1 then (res.1, true)
    else recoverGo res.2.reverse res.1

/-- One attempt of SudokuGenerator.generate_puzzle(num_clues) with the
"optimized" (default) algorithm, parametrised by the complete solution
board the attempt starts from (the outcome of generate_solution under
the attempt's random seed; generate_solution only returns boards that
are completely filled and valid): copy the solution, remove clues, and
accept exactly when removal reported success and the final verification
count_solutions(max_count=2) == 1 passes.  generate_puzzle returns the
puzzle of the first accepting attempt and raises GenerationFailed when
all max_attempts attempts return none. -/
def generatePuzzleAttempt (solution : Board) (numClues : Nat) : Option Board :=
  let puzzle := solution.copy
  let res := removeCluesOptimized puzzle numClues
  if res.2 && decide (res.1.countSolutions 2 = 1) then some res.1 else none

/-! ## Specification-side definitions (from the claims, not the code) -/

/-- Number of ways to fill the listed positions with values in
[1, size] so that the resulting board is a complete valid grid.  With
ps the empty positions of b this counts exactly the complete valid
fillings that agree with every currently filled cell of b: distinct
value choices give distinct grids, and a filling is counted iff the
filled board is valid and has no empty cell left. -/
def countAssign : List (Nat × Nat) → Board → Nat
  | [], b => if b.isValid && b.emptyPositions.isEmpty then 1 else 0
  | p :: ps, b =>
    (((List.range b.size).map (· + 1)).map
      (fun v => countAssign ps (b.place p.1 p.2 (some v)))).sum

/-- The number of distinct complete valid fillings of b that agree with
every currently filled cell of b. -/
def Board.countCompletions (b : Board) : Nat := countAssign b.emptyPositions b

/-- Two boards with the same dimensions and the same cell values
(candidate caches may differ).  Every value-level observable
(is_valid, count_solutions, ...) is invariant under vEq. -/
def vEq (a b : Board) : Prop :=
  a.size = b.size ∧ a.subgridSize = b.subgridSize ∧
    a.cells.map Cell.value = b.cells.map Cell.value

/-- s agrees with every filled cell of b (s extends the clues of b). -/
def Board.Extends (s b : Board) : Prop :=
  ∀ r c v, b.val r c = some v → s.val r c = some v

/-- Every candidate cache is canonical: the state of a board right after
a full update_possible_values() pass. -/
def Board.refreshed (b : Board) : Prop :=
  ∀ r, r < b.size → ∀ c, c < b.size →
    (b.getCell r c).possibleValues = b.possCanon r c

instance (b : Board) : Decidable b.refreshed := by
  unfold Board.refreshed; infer_instance

/-- (x, y) is a peer of (r, c): a different cell in the same row, the
same column, or the same subgrid. -/
def Board.isPeer (b : Board) (r c x y : Nat) : Prop :=
  (x = r ∨ y = c ∨ (x, y) ∈ b.subgridPositions (b.subTop r) (b.subTop c)) ∧
    (x, y) ≠ (r, c)

instance (b : Board) (r c x y : Nat) : Decidable (b.isPeer r c x y) := by
  unfold Board.isPeer; infer_instance

/-- Build a concrete board of size n from a row-major value list (each
listed value assigned with the cell-level set_value, as Board.set_value
does after its checks): the concrete test boards below. -/
def listToBoard (n : Nat) (l : List (Option Nat)) : Board :=
  (l.zip ((mkBoard n).positionsList)).foldl
    (fun b q => match q.1 with
      | some v => b.place q.2.1 q.2.2 (some v)
      | none => b)
    (mkBoard n)

/-- A complete valid 4 x 4 grid. -/
def classic4 : Board := listToBoard 4
  [some 1, some 2, some 3, some 4,
   some 3, some 4, some 1, some 2,
   some 2, some 1, some 4, some 3,
   some 4, some 3, some 2, some 1]

/-- classic4 with the top-left clue removed: a 15-clue puzzle with
exactly one completion. -/
def puzzle4 : Board := listToBoard 4
  [none, some 2, some 3, some 4,
   some 3, some 4, some 1, some 2,
   some 2, some 1, some 4, some 3,
   some 4, some 3, some 2, some 1]

/-- A 4 x 4 board whose only clue is a 1 at (0, 0). -/
def oneClue4 : Board := listToBoard 4
  [some 1, none, none, none,
   none, none, none, none,
   none, none, none, none,
   none, none, none, none]

/-- A full 4 x 4 board of all 1s: completely filled but invalid. -/
def allOnes4 : Board := listToBoard 4 (List.replicate 16 (some 1))

/-! ## Basic lemmas: indexing, frames of place and setPoss, vEq -/

theorem Cell.setValue_value (cl : Cell) (v : Option Nat) :
    (cl.setValue v).value = v := by
  cases v <;> rfl

theorem getD_set_self {a} (l : List a) (i : Nat) (x d : a) (h : i < l.length) :
    (l.set i x).getD i d = x := by
  simp [List.getD_eq_getElem?_getD, List.getElem?_set, h]

theorem getD_set_ne {a} (l : List a) (i j : Nat) (x d : a) (h : i ≠ j) :
    (l.set i x).getD j d = l.getD j d := by
  simp [List.getD_eq_getElem?_getD, List.getElem?_set, h]

theorem getD_set_oob {a} (l : List a) (i j : Nat) (x d : a)
    (h : ¬ i < l.length) : (l.set i x).getD j d = l.getD j d := by
  rw [List.set_eq_of_length_le (Nat.le_of_not_lt h)]

theorem set_getD_self {a} (l : List a) (i : Nat) (d : a) (h : i < l.length) :
    l.set i (l.getD i d) = l := by
  apply List.ext_getElem
  · simp
  · intro n h1 h2
    simp only [List.getElem_set]
    split
    · subst n
      rw [List.getD_eq_getElem?_getD, List.getElem?_eq_getElem h]
      rfl
    · rfl

theorem getD_map_value (l : List Cell) (i : Nat) :
    (l.map Cell.value).getD i none = (l.getD i ⟨none, ∅⟩).value := by
  rw [List.getD_eq_getElem?_getD, List.getD_eq_getElem?_getD, List.getElem?_map]
  cases hx : l[i]? <;> simp

theorem Board.val_eq_mapGetD (b : Board) (r c : Nat) :
    b.val r c = (b.cells.map Cell.value).getD (b.idx r c) none := by
  rw [getD_map_value]
  rfl

theorem Board.size_place (b : Board) (r c : Nat) (v : Option Nat) :
    (b.place r c v).size = b.size := rfl

theorem Board.subgridSize_place (b : Board) (r c : Nat) (v : Option Nat) :
    (b.place r c v).subgridSize = b.subgridSize := rfl

theorem Board.length_place (b : Board) (r c : Nat) (v : Option Nat) :
    (b.place r c v).cells.length = b.cells.length := by
  simp [Board.place]

theorem Board.size_setPoss (b : Board) (r c : Nat) (s : Finset Nat) :
    (b.setPoss r c s).size = b.size := rfl

theorem Board.subgridSize_setPoss (b : Board) (r c : Nat) (s : Finset Nat) :
    (b.setPoss r c s).subgridSize = b.subgridSize := rfl

theorem Board.length_setPoss (b : Board) (r c : Nat) (s : Finset Nat) :
    (b.setPoss r c s).cells.length = b.cells.length := by
  simp [Board.setPoss]

theorem Board.idx_place (b : Board) (r c : Nat) (v : Option Nat) (x y : Nat) :
    (b.place r c v).idx x y = b.idx x y := rfl

theorem Board.idx_setPoss (b : Board) (r c : Nat) (s : Finset Nat) (x y : Nat) :
    (b.setPoss r c s).idx x y = b.idx x y := rfl

/-- With an in-range column, the row-major index determines row and
column (division and remainder by size). -/
theorem Board.idx_inj (b : Board) {r c x y : Nat} (hc : c < b.size)
    (hy : y < b.size) (h : b.idx r c = b.idx x y) : r = x ∧ c = y := by
  have hs : 0 < b.size := Nat.lt_of_le_of_lt (Nat.zero_le _) hc
  have hr : (b.size * r + c) / b.size = r := by
    rw [Nat.mul_add_div hs, Nat.div_eq_of_lt hc, Nat.add_zero]
  have hxx : (b.size * x + y) / b.size = x := by
    rw [Nat.mul_add_div hs, Nat.div_eq_of_lt hy, Nat.add_zero]
  have hcc : (b.size * r + c) % b.size = c := by
    rw [Nat.mul_add_mod, Nat.mod_eq_of_lt hc]
  have hyy : (b.size * x + y) % b.size = y := by
    rw [Nat.mul_add_mod, Nat.mod_eq_of_lt hy]
  unfold Board.idx at h
  rw [Nat.mul_comm r b.size, Nat.mul_comm x b.size] at h
  constructor
  · rw [← hr, ← hxx, h]
  · rw [← hcc, ← hyy, h]

theorem Board.getCell_place_self (b : Board) (r c : Nat) (v : Option Nat)
    (h : b.idx r c < b.cells.length) :
    (b.place r c v).getCell r c = (b.getCell r c).setValue v := by
  unfold Board.getCell Board.place
  exact getD_set_self _ _ _ _ h

theorem Board.getCell_place_ne (b : Board) (r c : Nat) (v : Option Nat)
    (x y : Nat) (h : b.idx x y ≠ b.idx r c) :
    (b.place r c v).getCell x y = b.getCell x y := by
  unfold Board.getCell Board.place
  exact getD_set_ne _ _ _ _ _ (fun hh => h hh.symm)

theorem Board.val_place_self (b : Board) (r c : Nat) (v : Option Nat)
    (h : b.idx r c < b.cells.length) : (b.place r c v).val r c = v := by
  unfold Board.val
  rw [Board.getCell_place_self b r c v h, Cell.setValue_value]

theorem Board.val_place_ne (b : Board) (r c : Nat) (v : Option Nat)
    (x y : Nat) (h : b.idx x y ≠ b.idx r c) :
    (b.place r c v).val x y = b.val x y := by
  unfold Board.val
  rw [Board.getCell_place_ne b r c v x y h]

theorem Board.getCell_setPoss_self (b : Board) (r c : Nat) (s : Finset Nat)
    (h : b.idx r c < b.cells.length) :
    (b.setPoss r c s).getCell r c = ⟨(b.getCell r c).value, s⟩ := by
  unfold Board.getCell Board.setPoss
  exact getD_set_self _ _ _ _ h

theorem Board.getCell_setPoss_ne (b : Board) (r c : Nat) (s : Finset Nat)
    (x y : Nat) (h : b.idx x y ≠ b.idx r c) :
    (b.setPoss r c s).getCell x y = b.getCell x y := by
  unfold Board.getCell Board.setPoss
  exact getD_set_ne _ _ _ _ _ (fun hh => h hh.symm)

theorem vEq.refl (b : Board) : vEq b b := ⟨rfl, rfl, rfl⟩

theorem vEq.symm {a b : Board} (h : vEq a b) : vEq b a :=
  ⟨h.1.symm, h.2.1.symm, h.2.2.symm⟩

theorem vEq.trans {a b c : Board} (h1 : vEq a b) (h2 : vEq b c) : vEq a c :=
  ⟨h1.1.trans h2.1, h1.2.1.trans h2.2.1, h1.2.2.trans h2.2.2⟩

theorem vEq.length_eq {a b : Board} (h : vEq a b) :
    a.cells.length = b.cells.length := by
  have := congrArg List.length h.2.2
  simpa using this

theorem vEq.idx_eq {a b : Board} (h : vEq a b) (r c : Nat) :
    a.idx r c = b.idx r c := by
  unfold Board.idx
  rw [h.1]

/-- Cell values are a function of the value list: vEq boards agree. -/
theorem vEq.val_eq {a b : Board} (h : vEq a b) (r c : Nat) :
    a.val r c = b.val r c := by
  rw [Board.val_eq_mapGetD, Board.val_eq_mapGetD, h.2.2, h.idx_eq]

theorem vEq.place {a b : Board} (h : vEq a b) (r c : Nat) (v : Option Nat) :
    vEq (a.place r c v) (b.place r c v) := by
  refine ⟨h.1, h.2.1, ?_⟩
  unfold Board.place
  simp only
  rw [List.map_set, List.map_set, Cell.setValue_value, Cell.setValue_value,
    h.2.2, h.idx_eq]

theorem vEq.setPoss_left (b : Board) (r c : Nat) (s : Finset Nat) :
    vEq (b.setPoss r c s) b := by
  refine ⟨rfl, rfl, ?_⟩
  unfold Board.setPoss
  simp only
  rw [List.map_set]
  by_cases hlen : b.idx r c < b.cells.length
  · have : (⟨(b.getCell r c).value, s⟩ : Cell).value =
        (b.cells.map Cell.value).getD (b.idx r c) none := by
      rw [getD_map_value]
      rfl
    rw [this, set_getD_self]
    simpa using hlen
  · rw [List.set_eq_of_length_le]
    simpa using Nat.le_of_not_lt hlen

theorem Board.val_setPoss (b : Board) (r c : Nat) (s : Finset Nat) (x y : Nat) :
    (b.setPoss r c s).val x y = b.val x y :=
  (vEq.setPoss_left b r c s).val_eq x y

/-- Clearing an already-empty cell does not change the value list. -/
theorem vEq.place_left_none (b : Board) (r c : Nat) (h : b.val r c = none) :
    vEq (b.place r c none) b := by
  refine ⟨rfl, rfl, ?_⟩
  unfold Board.place
  simp only
  rw [List.map_set, Cell.setValue_value]
  by_cases hlen : b.idx r c < b.cells.length
  · have : (none : Option Nat) = (b.cells.map Cell.value).getD (b.idx r c) none := by
      rw [← Board.val_eq_mapGetD, h]
    rw [this, set_getD_self]
    simpa using hlen
  · rw [List.set_eq_of_length_le]
    simpa using Nat.le_of_not_lt hlen

/-! ## Position and unit lists -/

theorem Board.mem_positionsList (b : Board) (p : Nat × Nat) :
    p ∈ b.positionsList ↔ p.1 < b.size ∧ p.2 < b.size := by
  unfold Board.positionsList
  cases p with
  | mk r c =>
    simp only [List.mem_flatMap, List.mem_range, List.mem_map]
    constructor
    · rintro ⟨x, hx, y, hy, hh⟩
      cases hh
      exact ⟨hx, hy⟩
    · rintro ⟨h1, h2⟩
      exact ⟨r, h1, c, h2, rfl⟩

theorem Board.nodup_positionsList (b : Board) : b.positionsList.Nodup := by
  unfold Board.positionsList
  rw [List.nodup_flatMap]
  constructor
  · intro r _
    exact (List.nodup_range _).map (fun x y h => by
      simpa using congrArg Prod.snd h)
  · apply (List.nodup_range _).imp
    intro x y hxy
    intro s hs1 hs2
    simp only [List.mem_map] at hs1 hs2
    rcases hs1 with ⟨c1, _, h1⟩
    rcases hs2 with ⟨c2, _, h2⟩
    apply hxy
    rw [← h1] at h2
    simpa using (congrArg Prod.fst h2).symm

theorem Board.mem_subgridPositions (b : Board) (sr sc : Nat) (p : Nat × Nat) :
    p ∈ b.subgridPositions sr sc ↔
      sr ≤ p.1 ∧ p.1 < sr + b.subgridSize ∧ sc ≤ p.2 ∧ p.2 < sc + b.subgridSize := by
  unfold Board.subgridPositions
  cases p with
  | mk r c =>
    simp only [List.mem_flatMap, List.mem_range, List.mem_map]
    constructor
    · rintro ⟨i, hi, j, hj, hh⟩
      cases hh
      omega
    · rintro ⟨h1, h2, h3, h4⟩
      exact ⟨r - sr, by omega, c - sc, by omega, by simp; omega⟩

theorem Board.nodup_subgridPositions (b : Board) (sr sc : Nat) :
    (b.subgridPositions sr sc).Nodup := by
  unfold Board.subgridPositions
  rw [List.nodup_flatMap]
  constructor
  · intro i _
    exact (List.nodup_range _).map (fun x y h => by
      have := congrArg Prod.snd h
      simpa using this)
  · apply (List.nodup_range _).imp
    intro x y hxy
    intro s hs1 hs2
    simp only [List.mem_map] at hs1 hs2
    rcases hs1 with ⟨c1, _, h1⟩
    rcases hs2 with ⟨c2, _, h2⟩
    apply hxy
    rw [← h1] at h2
    have := congrArg Prod.fst h2
    simp at this
    omega

theorem Board.mem_emptyPositions (b : Board) (p : Nat × Nat) :
    p ∈ b.emptyPositions ↔ p.1 < b.size ∧ p.2 < b.size ∧ b.val p.1 p.2 = none := by
  unfold Board.emptyPositions
  rw [List.mem_filter, Board.mem_positionsList]
  unfold Board.isEmptyAt
  cases h : b.val p.1 p.2 <;> simp [h] <;> tauto

theorem Board.nodup_emptyPositions (b : Board) : b.emptyPositions.Nodup :=
  b.nodup_positionsList.filter _

theorem Board.mem_filledPositions (b : Board) (p : Nat × Nat) :
    p ∈ b.filledPositions ↔
      p.1 < b.size ∧ p.2 < b.size ∧ (b.val p.1 p.2).isSome = true := by
  unfold Board.filledPositions
  rw [List.mem_filter, Board.mem_positionsList]
  unfold Board.isEmptyAt
  cases h : b.val p.1 p.2 <;> simp [h] <;> tauto

theorem Board.nodup_filledPositions (b : Board) : b.filledPositions.Nodup :=
  b.nodup_positionsList.filter _

theorem vEq.positionsList_eq {a b : Board} (h : vEq a b) :
    a.positionsList = b.positionsList := by
  unfold Board.positionsList
  rw [h.1]

theorem vEq.isEmptyAt_eq {a b : Board} (h : vEq a b) (r c : Nat) :
    a.isEmptyAt r c = b.isEmptyAt r c := by
  unfold Board.isEmptyAt
  rw [h.val_eq]

theorem vEq.emptyPositions_eq {a b : Board} (h : vEq a b) :
    a.emptyPositions = b.emptyPositions := by
  unfold Board.emptyPositions
  rw [h.positionsList_eq]
  apply List.filter_congr
  intro p _
  rw [h.isEmptyAt_eq]

theorem vEq.filledPositions_eq {a b : Board} (h : vEq a b) :
    a.filledPositions = b.filledPositions := by
  unfold Board.filledPositions
  rw [h.positionsList_eq]
  apply List.filter_congr
  intro p _
  rw [h.isEmptyAt_eq]

theorem vEq.filledCount_eq {a b : Board} (h : vEq a b) :
    a.filledCount = b.filledCount := by
  unfold Board.filledCount
  rw [h.filledPositions_eq]

theorem vEq.rowVals_eq {a b : Board} (h : vEq a b) (r : Nat) :
    a.rowVals r = b.rowVals r := by
  unfold Board.rowVals
  rw [h.1]
  exact List.filterMap_congr (fun c _ => h.val_eq r c)

theorem vEq.colVals_eq {a b : Board} (h : vEq a b) (c : Nat) :
    a.colVals c = b.colVals c := by
  unfold Board.colVals
  rw [h.1]
  exact List.filterMap_congr (fun r _ => h.val_eq r c)

theorem vEq.subgridPositions_eq {a b : Board} (h : vEq a b) (sr sc : Nat) :
    a.subgridPositions sr sc = b.subgridPositions sr sc := by
  unfold Board.subgridPositions
  rw [h.2.1]

theorem vEq.subgridValsAt_eq {a b : Board} (h : vEq a b) (sr sc : Nat) :
    a.subgridValsAt sr sc = b.subgridValsAt sr sc := by
  unfold Board.subgridValsAt
  rw [h.subgridPositions_eq]
  exact List.filterMap_congr (fun p _ => h.val_eq p.1 p.2)

theorem vEq.subTop_eq {a b : Board} (h : vEq a b) (x : Nat) :
    a.subTop x = b.subTop x := by
  unfold Board.subTop
  rw [h.2.1]

theorem vEq.subgridVals_eq {a b : Board} (h : vEq a b) (r c : Nat) :
    a.subgridVals r c = b.subgridVals r c := by
  unfold Board.subgridVals
  rw [h.subTop_eq, h.subTop_eq, h.subgridValsAt_eq]

theorem vEq.subgridStarts_eq {a b : Board} (h : vEq a b) :
    a.subgridStarts = b.subgridStarts := by
  unfold Board.subgridStarts
  rw [h.1, h.2.1]

theorem list_all_congr {α} (l : List α) (f g : α → Bool)
    (h : ∀ x ∈ l, f x = g x) : l.all f = l.all g := by
  induction l with
  | nil => rfl
  | cons x xs ih =>
    simp only [List.all_cons]
    rw [h x (List.mem_cons_self _ _), ih (fun y hy => h y (List.mem_cons_of_mem _ hy))]

theorem vEq.isValid_eq {a b : Board} (h : vEq a b) : a.isValid = b.isValid := by
  unfold Board.isValid
  rw [h.1, h.subgridStarts_eq]
  congr 1
  congr 1
  · apply list_all_congr
    intro r _
    rw [h.rowVals_eq]
  · apply list_all_congr
    intro c _
    rw [h.colVals_eq]
  · apply list_all_congr
    intro sr _
    apply list_all_congr
    intro sc _
    rw [h.subgridValsAt_eq]

theorem vEq.restrictedValues_eq {a b : Board} (h : vEq a b) (r c : Nat) :
    a.restrictedValues r c = b.restrictedValues r c := by
  unfold Board.restrictedValues
  rw [h.rowVals_eq, h.colVals_eq, h.subgridVals_eq]

theorem vEq.possCanon_eq {a b : Board} (h : vEq a b) (r c : Nat) :
    a.possCanon r c = b.possCanon r c := by
  unfold Board.possCanon
  rw [h.val_eq, h.1, h.restrictedValues_eq]

/-! ## How placing a value changes the unit value lists -/

theorem Board.idx_lt (b : Board) (hWF : b.WF) {r c : Nat} (hr : r < b.size)
    (hc : c < b.size) : b.idx r c < b.cells.length := by
  rw [hWF.2]
  unfold Board.idx
  calc r * b.size + c < r * b.size + b.size := by omega
  _ = (r + 1) * b.size := by ring
  _ ≤ b.size * b.size := by
      have : r + 1 ≤ b.size := hr
      calc (r + 1) * b.size ≤ b.size * b.size := Nat.mul_le_mul_right _ this
  _ = b.size * b.size := rfl

/-- If a function is pointwise equal to another or none, its filterMap
is a sublist. -/
theorem filterMap_sublist_of_pointwise {α} (l : List α) (f g : α → Option Nat)
    (h : ∀ x ∈ l, f x = g x ∨ f x = none) :
    (l.filterMap f).Sublist (l.filterMap g) := by
  induction l with
  | nil => simp
  | cons x t ih =>
    have hx := h x (List.mem_cons_self _ _)
    have iht := ih (fun y hy => h y (List.mem_cons_of_mem _ hy))
    rcases hx with hx | hx
    · rw [List.filterMap_cons, List.filterMap_cons, hx]
      cases g x with
      | none => exact iht
      | some y => exact iht.cons₂ y
    · rw [List.filterMap_cons, List.filterMap_cons, hx]
      cases g x with
      | none => exact iht
      | some y => exact iht.cons y

/-- Splitting lemma: turning one none of f into some v (and changing
nothing else) inserts v at one place of the filterMap. -/
theorem filterMap_split {α} [DecidableEq α] {l : List α} {f g : α → Option Nat}
    {c : α} {v : Nat} (hnd : l.Nodup) (hm : c ∈ l)
    (hfg : ∀ x ∈ l, x ≠ c → f x = g x) (hf : f c = none) (hg : g c = some v) :
    ∃ l1 l2, l.filterMap f = l1 ++ l2 ∧ l.filterMap g = l1 ++ v :: l2 := by
  induction l with
  | nil => cases hm
  | cons x t ih =>
    by_cases hxc : x = c
    · subst hxc
      have hnotmem : x ∉ t := (List.nodup_cons.mp hnd).1
      have heq : t.filterMap f = t.filterMap g := by
        apply List.filterMap_congr
        intro y hy
        exact hfg y (List.mem_cons_of_mem _ hy) (fun hyx => hnotmem (hyx ▸ hy))
      refine ⟨[], t.filterMap g, ?_, ?_⟩
      · rw [List.filterMap_cons, hf, heq]
        rfl
      · rw [List.filterMap_cons, hg]
        rfl
    · have hmt : c ∈ t := by
        rcases List.mem_cons.mp hm with h | h
        · exact absurd h.symm hxc
        · exact h
      have hx : f x = g x := hfg x (List.mem_cons_self _ _) hxc
      rcases ih (List.nodup_cons.mp hnd).2 hmt
          (fun y hy hyc => hfg y (List.mem_cons_of_mem _ hy) hyc) with
        ⟨l1, l2, h1, h2⟩
      rw [List.filterMap_cons, List.filterMap_cons, hx]
      cases hgx : g x with
      | none => exact ⟨l1, l2, h1, h2⟩
      | some y =>
        exact ⟨y :: l1, l2, by rw [h1]; rfl, by rw [h2]; rfl⟩

/-- Placing any value at a cell whose stored value is None touches the
value list pointwise only at that cell (where it was none). -/
theorem Board.val_place_pointwise (b : Board) (r c : Nat) (v : Option Nat)
    (hEmpty : b.val r c = none) (x y : Nat) :
    b.val x y = (b.place r c v).val x y ∨ b.val x y = none := by
  by_cases h : b.idx x y = b.idx r c
  · right
    unfold Board.val Board.getCell at hEmpty ⊢
    rw [h]
    exact hEmpty
  · left
    exact (b.val_place_ne r c v x y h).symm

/-- Each unit value list of the base board is a sublist of the
corresponding unit value list after placing a value at an empty cell. -/
theorem Board.rowVals_sublist_place (b : Board) (r c : Nat) (v : Option Nat)
    (hEmpty : b.val r c = none) (x : Nat) :
    (b.rowVals x).Sublist ((b.place r c v).rowVals x) := by
  unfold Board.rowVals
  rw [Board.size_place]
  exact filterMap_sublist_of_pointwise _ _ _
    (fun y _ => b.val_place_pointwise r c v hEmpty x y)

theorem Board.colVals_sublist_place (b : Board) (r c : Nat) (v : Option Nat)
    (hEmpty : b.val r c = none) (y : Nat) :
    (b.colVals y).Sublist ((b.place r c v).colVals y) := by
  unfold Board.colVals
  rw [Board.size_place]
  exact filterMap_sublist_of_pointwise _ _ _
    (fun x _ => b.val_place_pointwise r c v hEmpty x y)

theorem Board.subgridValsAt_sublist_place (b : Board) (r c : Nat)
    (v : Option Nat) (hEmpty : b.val r c = none) (sr sc : Nat) :
    (b.subgridValsAt sr sc).Sublist ((b.place r c v).subgridValsAt sr sc) := by
  unfold Board.subgridValsAt
  rw [show (b.place r c v).subgridPositions sr sc = b.subgridPositions sr sc
    from rfl]
  exact filterMap_sublist_of_pointwise _ _ _
    (fun p _ => b.val_place_pointwise r c v hEmpty p.1 p.2)

/-- Unfolding is_valid into the three unit families. -/
theorem Board.isValid_iff (b : Board) :
    b.isValid = true ↔
      (∀ r < b.size, (b.rowVals r).Nodup) ∧ (∀ c < b.size, (b.colVals c).Nodup) ∧
      (∀ sr ∈ b.subgridStarts, ∀ sc ∈ b.subgridStarts,
        (b.subgridValsAt sr sc).Nodup) := by
  unfold Board.isValid
  simp only [Bool.and_eq_true, List.all_eq_true, List.mem_range,
    decide_eq_true_eq]
  tauto

/-- If the board after placing a value at an empty cell is valid, so was
the board before (the units only lose elements going back). -/
theorem Board.isValid_of_place (b : Board) (r c : Nat) (v : Option Nat)
    (hEmpty : b.val r c = none)
    (h : (b.place r c v).isValid = true) : b.isValid = true := by
  rw [Board.isValid_iff] at h ⊢
  have hsz : (b.place r c v).size = b.size := rfl
  have hst : (b.place r c v).subgridStarts = b.subgridStarts := rfl
  refine ⟨?_, ?_, ?_⟩
  · intro x hx
    exact ((h.1 x (hsz ▸ hx)).sublist (b.rowVals_sublist_place r c v hEmpty x))
  · intro y hy
    exact ((h.2.1 y (hsz ▸ hy)).sublist (b.colVals_sublist_place r c v hEmpty y))
  · intro sr hsr sc hsc
    exact ((h.2.2 sr (hst ▸ hsr) sc (hst ▸ hsc)).sublist
      (b.subgridValsAt_sublist_place r c v hEmpty sr sc))

theorem nodup_insert_middle {l1 l2 : List Nat} {v : Nat} :
    (l1 ++ v :: l2).Nodup ↔ v ∉ (l1 ++ l2) ∧ (l1 ++ l2).Nodup := by
  rw [List.nodup_middle, List.nodup_cons]

theorem Board.mem_subgridStarts (b : Board) {x : Nat} :
    x ∈ b.subgridStarts ↔ x < b.size ∧ x % b.subgridSize = 0 := by
  unfold Board.subgridStarts
  rw [List.mem_filter, List.mem_range]
  simp

theorem Board.subgridSize_pos (b : Board) (hWF : b.WF) (hpos : 0 < b.size) :
    0 < b.subgridSize := by
  rcases Nat.eq_zero_or_pos b.subgridSize with h | h
  · rw [← hWF.1, h] at hpos
    simp at hpos
  · exact h

theorem Board.subTop_mem_starts (b : Board) (hWF : b.WF) {x : Nat}
    (hx : x < b.size) : b.subTop x ∈ b.subgridStarts := by
  rw [Board.mem_subgridStarts]
  unfold Board.subTop
  constructor
  · exact Nat.lt_of_le_of_lt (Nat.div_mul_le_self _ _) hx
  · exact Nat.mul_mod_left _ _

theorem Board.start_add_le (b : Board) (hWF : b.WF) {s : Nat}
    (hs : s ∈ b.subgridStarts) : s + b.subgridSize ≤ b.size := by
  rw [Board.mem_subgridStarts] at hs
  rcases Nat.dvd_of_mod_eq_zero hs.2 with ⟨q, hq⟩
  have hqlt : q < b.subgridSize := by
    by_contra hge
    have h1 : b.subgridSize * b.subgridSize ≤ b.subgridSize * q :=
      Nat.mul_le_mul_left _ (Nat.le_of_not_lt hge)
    rw [← hq, hWF.1] at h1
    omega
  have h2 : b.subgridSize * (q + 1) ≤ b.subgridSize * b.subgridSize :=
    Nat.mul_le_mul_left _ hqlt
  calc s + b.subgridSize = b.subgridSize * (q + 1) := by rw [hq]; ring
  _ ≤ b.subgridSize * b.subgridSize := h2
  _ = b.size := hWF.1

theorem Board.subTop_le (b : Board) (x : Nat) : b.subTop x ≤ x :=
  Nat.div_mul_le_self _ _

theorem Board.lt_subTop_add (b : Board) (hpos : 0 < b.subgridSize) (x : Nat) :
    x < b.subTop x + b.subgridSize := by
  unfold Board.subTop
  have h1 := Nat.mod_lt x hpos
  have hdm := Nat.div_add_mod x b.subgridSize
  have hcomm : x / b.subgridSize * b.subgridSize =
      b.subgridSize * (x / b.subgridSize) := Nat.mul_comm _ _
  omega

theorem Board.mem_subgridPositions_self (b : Board) (hWF : b.WF) {r c : Nat}
    (hr : r < b.size) (hc : c < b.size) :
    (r, c) ∈ b.subgridPositions (b.subTop r) (b.subTop c) := by
  have hpos : 0 < b.subgridSize := b.subgridSize_pos hWF
    (Nat.lt_of_le_of_lt (Nat.zero_le _) hr)
  rw [Board.mem_subgridPositions]
  exact ⟨b.subTop_le r, b.lt_subTop_add hpos r, b.subTop_le c,
    b.lt_subTop_add hpos c⟩

theorem Board.start_eq_subTop (b : Board) (hWF : b.WF) {s x : Nat}
    (hs : s ∈ b.subgridStarts) (h1 : s ≤ x) (h2 : x < s + b.subgridSize) :
    s = b.subTop x := by
  rw [Board.mem_subgridStarts] at hs
  rcases Nat.dvd_of_mod_eq_zero hs.2 with ⟨q, hq⟩
  have hqs : q * b.subgridSize = s := by rw [hq, Nat.mul_comm]
  unfold Board.subTop
  have hdiv : x / b.subgridSize = q := by
    apply Nat.div_eq_of_lt_le
    · omega
    · have hsucc : (q + 1) * b.subgridSize = s + b.subgridSize := by
        rw [← hqs]; ring
      simpa [hsucc] using h2
  rw [hdiv, hqs]

/-- Bounds of a position inside a subgrid whose start is legal. -/
theorem Board.subgridPositions_bounds (b : Board) (hWF : b.WF) {sr sc : Nat}
    (hsr : sr ∈ b.subgridStarts) (hsc : sc ∈ b.subgridStarts) {p : Nat × Nat}
    (hp : p ∈ b.subgridPositions sr sc) : p.1 < b.size ∧ p.2 < b.size := by
  rw [Board.mem_subgridPositions] at hp
  have h1 := b.start_add_le hWF hsr
  have h2 := b.start_add_le hWF hsc
  omega

/-- After placing v at the empty in-bounds cell (r, c), row r's values
gain exactly one occurrence of v. -/
theorem Board.rowVals_place_split (b : Board) (hWF : b.WF) {r c : Nat}
    (hr : r < b.size) (hc : c < b.size) (hEmpty : b.val r c = none) (v : Nat) :
    ∃ l1 l2, b.rowVals r = l1 ++ l2 ∧
      (b.place r c (some v)).rowVals r = l1 ++ v :: l2 := by
  unfold Board.rowVals
  rw [Board.size_place]
  apply filterMap_split (List.nodup_range _) (List.mem_range.mpr hc)
  · intro x _ hx
    apply (b.val_place_ne r c (some v) r x _).symm
    unfold Board.idx
    omega
  · exact hEmpty
  · exact b.val_place_self r c (some v) (b.idx_lt hWF hr hc)

theorem Board.rowVals_place_other (b : Board) {r c : Nat} (hc : c < b.size)
    (v : Option Nat) {x : Nat} (hx : x ≠ r) :
    (b.place r c v).rowVals x = b.rowVals x := by
  unfold Board.rowVals
  rw [Board.size_place]
  apply List.filterMap_congr
  intro y hy
  apply b.val_place_ne r c v x y
  intro hidx
  rcases b.idx_inj (List.mem_range.mp hy) hc hidx with ⟨h1, _⟩
  exact hx h1

theorem Board.colVals_place_split (b : Board) (hWF : b.WF) {r c : Nat}
    (hr : r < b.size) (hc : c < b.size) (hEmpty : b.val r c = none) (v : Nat) :
    ∃ l1 l2, b.colVals c = l1 ++ l2 ∧
      (b.place r c (some v)).colVals c = l1 ++ v :: l2 := by
  unfold Board.colVals
  rw [Board.size_place]
  apply filterMap_split (List.nodup_range _) (List.mem_range.mpr hr)
  · intro x _ hx
    apply (b.val_place_ne r c (some v) x c _).symm
    intro hidx
    exact hx (b.idx_inj hc hc hidx).1
  · exact hEmpty
  · exact b.val_place_self r c (some v) (b.idx_lt hWF hr hc)

theorem Board.colVals_place_other (b : Board) {r c : Nat} (hc : c < b.size)
    (v : Option Nat) {y : Nat} (hy : y ≠ c) (hysz : y < b.size) :
    (b.place r c v).colVals y = b.colVals y := by
  unfold Board.colVals
  rw [Board.size_place]
  apply List.filterMap_congr
  intro x _
  apply b.val_place_ne r c v x y
  intro hidx
  exact hy (b.idx_inj hysz hc hidx).2

theorem Board.subgridValsAt_place_split (b : Board) (hWF : b.WF) {r c : Nat}
    (hr : r < b.size) (hc : c < b.size) (hEmpty : b.val r c = none) (v : Nat) :
    ∃ l1 l2, b.subgridVals r c = l1 ++ l2 ∧
      (b.place r c (some v)).subgridVals r c = l1 ++ v :: l2 := by
  unfold Board.subgridVals Board.subgridValsAt
  rw [show (b.place r c (some v)).subTop r = b.subTop r from rfl,
    show (b.place r c (some v)).subTop c = b.subTop c from rfl,
    show (b.place r c (some v)).subgridPositions (b.subTop r) (b.subTop c) =
      b.subgridPositions (b.subTop r) (b.subTop c) from rfl]
  apply filterMap_split (b.nodup_subgridPositions _ _)
    (b.mem_subgridPositions_self hWF hr hc)
  · intro p hp hpne
    apply (b.val_place_ne r c (some v) p.1 p.2 _).symm
    intro hidx
    have hb := b.subgridPositions_bounds hWF
      (b.subTop_mem_starts hWF hr) (b.subTop_mem_starts hWF hc) hp
    rcases b.idx_inj hb.2 hc hidx with ⟨h1, h2⟩
    exact hpne (Prod.ext h1 h2)
  · exact hEmpty
  · exact b.val_place_self r c (some v) (b.idx_lt hWF hr hc)

theorem Board.subgridValsAt_place_other (b : Board) (hWF : b.WF) {r c : Nat}
    (hr : r < b.size) (hc : c < b.size) (v : Option Nat) {sr sc : Nat}
    (hsr : sr ∈ b.subgridStarts) (hsc : sc ∈ b.subgridStarts)
    (hne : ¬ (sr = b.subTop r ∧ sc = b.subTop c)) :
    (b.place r c v).subgridValsAt sr sc = b.subgridValsAt sr sc := by
  unfold Board.subgridValsAt
  rw [show (b.place r c v).subgridPositions sr sc = b.subgridPositions sr sc
    from rfl]
  apply List.filterMap_congr
  intro p hp
  apply b.val_place_ne r c v p.1 p.2
  intro hidx
  have hb := b.subgridPositions_bounds hWF hsr hsc hp
  rcases b.idx_inj hb.2 hc hidx with ⟨h1, h2⟩
  rw [Board.mem_subgridPositions] at hp
  apply hne
  constructor
  · exact b.start_eq_subTop hWF hsr (h1 ▸ hp.1) (h1 ▸ hp.2.1)
  · exact b.start_eq_subTop hWF hsc (h2 ▸ hp.2.2.1) (h2 ▸ hp.2.2.2)

theorem Board.mem_restrictedValues (b : Board) (r c : Nat) (v : Nat) :
    v ∈ b.restrictedValues r c ↔
      v ∈ b.rowVals r ∨ v ∈ b.colVals c ∨ v ∈ b.subgridVals r c := by
  unfold Board.restrictedValues
  simp [Finset.mem_union, List.mem_toFinset, or_assoc]

/-- The central validity lemma: placing v at an empty in-bounds cell of
a valid board stays valid exactly when v is not already in the cell's
row, column, or subgrid. -/
theorem Board.isValid_place_iff (b : Board) (hWF : b.WF) {r c : Nat}
    (hr : r < b.size) (hc : c < b.size) (hEmpty : b.val r c = none)
    (hValid : b.isValid = true) (v : Nat) :
    (b.place r c (some v)).isValid = true ↔ v ∉ b.restrictedValues r c := by
  rcases b.rowVals_place_split hWF hr hc hEmpty v with ⟨r1, r2, hrow1, hrow2⟩
  rcases b.colVals_place_split hWF hr hc hEmpty v with ⟨c1, c2, hcol1, hcol2⟩
  rcases b.subgridValsAt_place_split hWF hr hc hEmpty v with ⟨s1, s2, hsub1, hsub2⟩
  rw [Board.isValid_iff] at hValid
  rw [Board.isValid_iff, Board.mem_restrictedValues]
  have hsz : (b.place r c (some v)).size = b.size := rfl
  have hst : (b.place r c (some v)).subgridStarts = b.subgridStarts := rfl
  constructor
  · intro h
    push_neg
    refine ⟨?_, ?_, ?_⟩
    · have := h.1 r (hsz ▸ hr)
      rw [hrow2, nodup_insert_middle, ← hrow1] at this
      exact this.1
    · have := h.2.1 c (hsz ▸ hc)
      rw [hcol2, nodup_insert_middle, ← hcol1] at this
      exact this.1
    · have := h.2.2 (b.subTop r) (hst ▸ b.subTop_mem_starts hWF hr)
        (b.subTop c) (hst ▸ b.subTop_mem_starts hWF hc)
      unfold Board.subgridVals at hsub2
      rw [show (b.place r c (some v)).subTop r = b.subTop r from rfl,
        show (b.place r c (some v)).subTop c = b.subTop c from rfl] at hsub2
      rw [hsub2, nodup_insert_middle] at this
      unfold Board.subgridVals at hsub1
      rw [← hsub1] at this
      exact this.1
  · intro h
    push_neg at h
    refine ⟨?_, ?_, ?_⟩
    · intro x hx
      by_cases hxr : x = r
      · subst hxr
        rw [hrow2, nodup_insert_middle, ← hrow1]
        exact ⟨h.1, hrow1 ▸ hValid.1 x (hsz ▸ hx)⟩
      · rw [b.rowVals_place_other hc (some v) hxr]
        exact hValid.1 x (hsz ▸ hx)
    · intro y hy
      by_cases hyc : y = c
      · subst hyc
        rw [hcol2, nodup_insert_middle, ← hcol1]
        exact ⟨h.2.1, hcol1 ▸ hValid.2.1 y (hsz ▸ hy)⟩
      · rw [b.colVals_place_other hc (some v) hyc (hsz ▸ hy)]
        exact hValid.2.1 y (hsz ▸ hy)
    · intro sr hsr sc hsc
      rw [hst] at hsr hsc
      by_cases hss : sr = b.subTop r ∧ sc = b.subTop c
      · rcases hss with ⟨h1, h2⟩
        subst h1
        subst h2
        unfold Board.subgridVals at hsub2 hsub1
        rw [show (b.place r c (some v)).subTop r = b.subTop r from rfl,
          show (b.place r c (some v)).subTop c = b.subTop c from rfl] at hsub2
        rw [hsub2, nodup_insert_middle, ← hsub1]
        exact ⟨h.2.2, hsub1 ▸ hValid.2.2 _ (b.subTop_mem_starts hWF hr) _
          (b.subTop_mem_starts hWF hc)⟩
      · rw [b.subgridValsAt_place_other hWF hr hc (some v) hsr hsc hss]
        exact hValid.2.2 sr hsr sc hsc

/-! ## Candidate refresh: updateCellPoss and fullRefresh -/

theorem mem_allValues (n v : Nat) : v ∈ allValues n ↔ 1 ≤ v ∧ v ≤ n := by
  unfold allValues
  simp only [Finset.mem_image, Finset.mem_range]
  constructor
  · rintro ⟨x, hx, hh⟩
    omega
  · rintro ⟨h1, h2⟩
    exact ⟨v - 1, by omega, by omega⟩

theorem Board.mem_possCanon_of_empty (b : Board) {r c : Nat}
    (hEmpty : b.val r c = none) (v : Nat) :
    v ∈ b.possCanon r c ↔ (1 ≤ v ∧ v ≤ b.size) ∧ v ∉ b.restrictedValues r c := by
  unfold Board.possCanon
  rw [hEmpty]
  simp [Finset.mem_sdiff, mem_allValues]

theorem Board.WF_place (b : Board) (r c : Nat) (v : Option Nat) (h : b.WF) :
    (b.place r c v).WF := by
  unfold Board.WF at h ⊢
  rw [Board.length_place, Board.size_place, Board.subgridSize_place]
  exact h

theorem Board.WF_setPoss (b : Board) (r c : Nat) (s : Finset Nat) (h : b.WF) :
    (b.setPoss r c s).WF := by
  unfold Board.WF at h ⊢
  rw [Board.length_setPoss, Board.size_setPoss, Board.subgridSize_setPoss]
  exact h

theorem vEq.WF_of {a b : Board} (h : vEq a b) (hb : b.WF) : a.WF := by
  unfold Board.WF at hb ⊢
  rw [h.1, h.2.1, h.length_eq]
  exact hb

theorem vEq.updateCellPoss_left (b : Board) (r c : Nat) :
    vEq (b.updateCellPoss r c) b :=
  vEq.setPoss_left b r c _

theorem Board.WF_updateCellPoss (b : Board) (r c : Nat) (h : b.WF) :
    (b.updateCellPoss r c).WF :=
  b.WF_setPoss r c _ h

theorem Board.getCell_updateCellPoss_self (b : Board) {r c : Nat}
    (hlen : b.idx r c < b.cells.length) :
    (b.updateCellPoss r c).getCell r c = ⟨b.val r c, b.possCanon r c⟩ :=
  b.getCell_setPoss_self r c _ hlen

theorem Board.getCell_updateCellPoss_ne (b : Board) (r c : Nat) (x y : Nat)
    (h : b.idx x y ≠ b.idx r c) :
    (b.updateCellPoss r c).getCell x y = b.getCell x y :=
  b.getCell_setPoss_ne r c _ x y h

/-- The refresh fold behind update_possible_values() with no arguments:
values never change. -/
theorem vEq.foldUpd_left (ps : List (Nat × Nat)) (b : Board) :
    vEq (ps.foldl (fun bb p => bb.updateCellPoss p.1 p.2) b) b := by
  induction ps generalizing b with
  | nil => exact vEq.refl b
  | cons p ps ih =>
    exact (ih (b.updateCellPoss p.1 p.2)).trans (vEq.updateCellPoss_left b p.1 p.2)

theorem length_foldUpd (ps : List (Nat × Nat)) (b : Board) :
    (ps.foldl (fun bb p => bb.updateCellPoss p.1 p.2) b).cells.length =
      b.cells.length :=
  (vEq.foldUpd_left ps b).length_eq

/-- After the refresh fold over a list of in-bounds positions, a visited
in-bounds cell holds its canonical candidate set and an unvisited cell
is untouched. -/
theorem Board.getCell_foldUpd (ps : List (Nat × Nat)) (b : Board) (hWF : b.WF)
    (hps : ∀ p ∈ ps, p.1 < b.size ∧ p.2 < b.size) {x y : Nat}
    (hx : x < b.size) (hy : y < b.size) :
    (ps.foldl (fun bb p => bb.updateCellPoss p.1 p.2) b).getCell x y =
      if (x, y) ∈ ps then ⟨b.val x y, b.possCanon x y⟩ else b.getCell x y := by
  induction ps generalizing b with
  | nil => simp
  | cons p ps ih =>
    have hp := hps p (List.mem_cons_self _ _)
    have hveq : vEq (b.updateCellPoss p.1 p.2) b := vEq.updateCellPoss_left b p.1 p.2
    have hWF1 : (b.updateCellPoss p.1 p.2).WF := b.WF_updateCellPoss p.1 p.2 hWF
    have hsz : (b.updateCellPoss p.1 p.2).size = b.size := hveq.1
    rw [List.foldl_cons]
    rw [ih (b.updateCellPoss p.1 p.2) hWF1
      (fun q hq => hsz ▸ hps q (List.mem_cons_of_mem _ hq)) (hsz ▸ hx) (hsz ▸ hy)]
    by_cases hmem : (x, y) ∈ ps
    · rw [if_pos hmem, if_pos (List.mem_cons_of_mem _ hmem)]
      rw [hveq.val_eq, hveq.possCanon_eq]
    · rw [if_neg hmem]
      by_cases hqp : (x, y) = p
      · rw [if_pos (hqp ▸ List.mem_cons_self p ps)]
        have : p = (x, y) := hqp.symm
        subst this
        exact b.getCell_updateCellPoss_self (b.idx_lt hWF hx hy)
      · rw [if_neg (by
          intro hmem2
          rcases List.mem_cons.mp hmem2 with h | h
          · exact hqp h
          · exact hmem h)]
        apply b.getCell_updateCellPoss_ne
        intro hidx
        apply hqp
        rcases b.idx_inj hy hp.2 hidx with ⟨h1, h2⟩
        exact Prod.ext h1 h2

theorem vEq.fullRefresh_left (b : Board) : vEq b.fullRefresh b :=
  vEq.foldUpd_left _ b

theorem Board.WF_fullRefresh (b : Board) (h : b.WF) : b.fullRefresh.WF :=
  (vEq.fullRefresh_left b).WF_of h

theorem Board.getCell_fullRefresh (b : Board) (hWF : b.WF) {x y : Nat}
    (hx : x < b.size) (hy : y < b.size) :
    b.fullRefresh.getCell x y = ⟨b.val x y, b.possCanon x y⟩ := by
  unfold Board.fullRefresh
  rw [b.getCell_foldUpd b.positionsList hWF
    (fun p hp => (b.mem_positionsList p).mp hp) hx hy]
  rw [if_pos ((b.mem_positionsList (x, y)).mpr ⟨hx, hy⟩)]

theorem Board.getElem_eq_getCell (b : Board) (hWF : b.WF) {i : Nat}
    (hi : i < b.cells.length) :
    b.cells[i] = b.getCell (i / b.size) (i % b.size) := by
  have hsz : 0 < b.size := by
    by_contra h
    have : b.size = 0 := by omega
    rw [hWF.2, this] at hi
    simp at hi
  have hidx : b.idx (i / b.size) (i % b.size) = i := by
    unfold Board.idx
    rw [Nat.mul_comm]
    exact Nat.div_add_mod i b.size
  unfold Board.getCell
  rw [hidx, List.getD_eq_getElem?_getD, List.getElem?_eq_getElem hi]
  rfl

theorem Board.eq_of_fields {a b : Board} (h1 : a.size = b.size)
    (h2 : a.subgridSize = b.subgridSize) (h3 : a.cells = b.cells) : a = b := by
  cases a
  cases b
  simp_all

/-- Full refresh is a function of the cell values only: vEq boards
refresh to the same board. -/
theorem Board.fullRefresh_eq_of_vEq {a b : Board} (hWF : a.WF) (h : vEq a b) :
    a.fullRefresh = b.fullRefresh := by
  have hWFb : b.WF := h.symm.WF_of hWF
  have hWFra : a.fullRefresh.WF := a.WF_fullRefresh hWF
  have hWFrb : b.fullRefresh.WF := b.WF_fullRefresh hWFb
  have hsza : a.fullRefresh.size = a.size := (vEq.fullRefresh_left a).1
  have hszb : b.fullRefresh.size = b.size := (vEq.fullRefresh_left b).1
  apply Board.eq_of_fields
  · rw [hsza, hszb, h.1]
  · rw [(vEq.fullRefresh_left a).2.1, (vEq.fullRefresh_left b).2.1, h.2.1]
  · apply List.ext_getElem
    · rw [(vEq.fullRefresh_left a).length_eq, (vEq.fullRefresh_left b).length_eq,
        h.length_eq]
    · intro i hia hib
      have hga := a.fullRefresh.getElem_eq_getCell hWFra hia
      have hgb := b.fullRefresh.getElem_eq_getCell hWFrb hib
      rw [hsza] at hga
      rw [hszb, ← h.1] at hgb
      have hilt : i < a.size * a.size := by
        rw [← hWF.2, ← (vEq.fullRefresh_left a).length_eq]
        exact hia
      have hszpos : 0 < a.size := by
        by_contra hz
        have hzz : a.size = 0 := by omega
        rw [hzz] at hilt
        simp at hilt
      have hdiva : i / a.size < a.size := Nat.div_lt_of_lt_mul hilt
      have hmoda : i % a.size < a.size := Nat.mod_lt _ hszpos
      rw [hga, hgb]
      rw [a.getCell_fullRefresh hWF (hsza ▸ hdiva) (hsza ▸ hmoda),
        b.getCell_fullRefresh hWFb (by rw [← h.1]; exact hdiva)
          (by rw [← h.1]; exact hmoda),
        h.val_eq, h.possCanon_eq]

/-- The full candidate refresh is idempotent. -/
theorem Board.fullRefresh_idem (b : Board) (hWF : b.WF) :
    b.fullRefresh.fullRefresh = b.fullRefresh :=
  Board.fullRefresh_eq_of_vEq (b.WF_fullRefresh hWF) (vEq.fullRefresh_left b)

/-! ## Counting completions -/

theorem sum_map_add (l : List Nat) (f g : Nat → Nat) :
    (l.map (fun v => f v + g v)).sum = (l.map f).sum + (l.map g).sum := by
  induction l with
  | nil => rfl
  | cons x t ih =>
    simp only [List.map_cons, List.sum_cons, ih]
    omega

theorem sum_map_zero (l : List Nat) : (l.map (fun _ => 0)).sum = 0 := by
  induction l with
  | nil => rfl
  | cons x t ih => simpa using ih

theorem sum_map_swap (l1 l2 : List Nat) (f : Nat → Nat → Nat) :
    (l1.map (fun v => (l2.map (fun w => f v w)).sum)).sum =
      (l2.map (fun w => (l1.map (fun v => f v w)).sum)).sum := by
  induction l1 with
  | nil => simp [sum_map_zero]
  | cons x t ih =>
    simp only [List.map_cons, List.sum_cons, ih]
    rw [← sum_map_add]

theorem Board.place_place_same (b : Board) (r c : Nat) (v w : Nat) :
    (b.place r c (some v)).place r c (some w) = b.place r c (some w) := by
  refine Board.eq_of_fields rfl rfl ?_
  show (b.place r c (some v)).cells.set ((b.place r c (some v)).idx r c)
      (((b.place r c (some v)).getCell r c).setValue (some w)) =
    b.cells.set (b.idx r c) ((b.getCell r c).setValue (some w))
  have h1 : ∀ cl : Cell, cl.setValue (some w) = ⟨some w, {w}⟩ := fun _ => rfl
  rw [h1, h1, Board.idx_place]
  show (b.cells.set (b.idx r c) _).set (b.idx r c) _ = _
  rw [List.set_set]

theorem Board.place_comm (b : Board) {p q : Nat × Nat} (hp : p.2 < b.size)
    (hq : q.2 < b.size) (hne : p ≠ q) (v w : Option Nat) :
    (b.place p.1 p.2 v).place q.1 q.2 w = (b.place q.1 q.2 w).place p.1 p.2 v := by
  have hidx : b.idx p.1 p.2 ≠ b.idx q.1 q.2 := by
    intro h
    rcases b.idx_inj hp hq h with ⟨h1, h2⟩
    exact hne (Prod.ext h1 h2)
  refine Board.eq_of_fields rfl rfl ?_
  show ((b.place p.1 p.2 v).cells.set ((b.place p.1 p.2 v).idx q.1 q.2)
      (((b.place p.1 p.2 v).getCell q.1 q.2).setValue w)) =
    ((b.place q.1 q.2 w).cells.set ((b.place q.1 q.2 w).idx p.1 p.2)
      (((b.place q.1 q.2 w).getCell p.1 p.2).setValue v))
  rw [Board.idx_place, Board.idx_place,
    b.getCell_place_ne p.1 p.2 v q.1 q.2 (fun h => hidx h.symm),
    b.getCell_place_ne q.1 q.2 w p.1 p.2 hidx]
  show (b.cells.set (b.idx p.1 p.2) _).set (b.idx q.1 q.2) _ =
    (b.cells.set (b.idx q.1 q.2) _).set (b.idx p.1 p.2) _
  exact List.set_comm _ _ _ hidx

theorem vEq.countAssign_eq {a b : Board} (h : vEq a b) (ps : List (Nat × Nat)) :
    countAssign ps a = countAssign ps b := by
  induction ps generalizing a b with
  | nil =>
    unfold countAssign
    rw [h.isValid_eq, h.emptyPositions_eq]
  | cons p ps ih =>
    unfold countAssign
    rw [h.1]
    congr 1
    apply List.map_congr_left
    intro v _
    exact ih (h.place p.1 p.2 (some v))

theorem countAssign_perm {ps qs : List (Nat × Nat)} (hperm : List.Perm ps qs) :
    ∀ b : Board, (∀ p ∈ ps, p.2 < b.size) → countAssign ps b = countAssign qs b := by
  induction hperm with
  | nil => intro b _; rfl
  | cons x h ih =>
    intro b hb
    unfold countAssign
    congr 1
    apply List.map_congr_left
    intro v _
    exact ih _ (fun p hp => hb p (List.mem_cons_of_mem _ hp))
  | swap x y l =>
    intro b hb
    by_cases hxy : x = y
    · subst hxy
      rfl
    · show countAssign (y :: x :: l) b = countAssign (x :: y :: l) b
      unfold countAssign
      unfold countAssign
      have hsz : ∀ (rr cc : Nat) (v : Option Nat),
          (b.place rr cc v).size = b.size := fun _ _ _ => rfl
      simp only [hsz]
      rw [sum_map_swap ((List.range b.size).map (· + 1))
        ((List.range b.size).map (· + 1))
        (fun v w => countAssign l ((b.place y.1 y.2 (some v)).place x.1 x.2 (some w)))]
      congr 1
      apply List.map_congr_left
      intro w _
      congr 1
      apply List.map_congr_left
      intro v _
      congr 1
      exact b.place_comm (hb y (List.mem_cons_self _ _))
        (hb x (List.mem_cons_of_mem _ (List.mem_cons_self _ _)))
        (fun h => hxy h.symm) (some v) (some w)
  | trans h1 h2 ih1 ih2 =>
    intro b hb
    rw [ih1 b hb]
    apply ih2 b
    intro p hp
    exact hb p (h1.mem_iff.mpr hp)

/-- Clearing nothing: placing some value at an in-bounds cell removes
exactly that position from the empty list. -/
theorem Board.emptyPositions_place (b : Board) (hWF : b.WF) {r c : Nat}
    (hr : r < b.size) (hc : c < b.size) (v : Nat) :
    (b.place r c (some v)).emptyPositions =
      b.emptyPositions.filter (fun q => decide (q ≠ (r, c))) := by
  unfold Board.emptyPositions
  rw [show (b.place r c (some v)).positionsList = b.positionsList from rfl]
  rw [List.filter_filter]
  apply List.filter_congr
  intro q hq
  have hqb := (b.mem_positionsList q).mp hq
  by_cases hqrc : q = (r, c)
  · subst hqrc
    unfold Board.isEmptyAt
    rw [b.val_place_self r c (some v) (b.idx_lt hWF hr hc)]
    simp
  · unfold Board.isEmptyAt
    rw [b.val_place_ne r c (some v) q.1 q.2 (by
      intro hidx
      rcases b.idx_inj hqb.2 hc hidx with ⟨h1, h2⟩
      exact hqrc (Prod.ext h1 h2))]
    simp [hqrc]

/-- Invalidity persists when filling an empty cell (Bool form of
isValid_of_place). -/
theorem Board.isValid_place_false (b : Board) (r c : Nat) (v : Option Nat)
    (hEmpty : b.val r c = none) (h : b.isValid = false) :
    (b.place r c v).isValid = false := by
  cases hp : (b.place r c v).isValid
  · rfl
  · rw [b.isValid_of_place r c v hEmpty hp] at h
    cases h

/-- An invalid board admits no completion however its listed empty
cells are filled. -/
theorem countAssign_of_invalid (ps : List (Nat × Nat)) : ∀ b : Board,
    (∀ p ∈ ps, p.1 < b.size ∧ p.2 < b.size ∧ b.val p.1 p.2 = none) →
    ps.Nodup → b.isValid = false → countAssign ps b = 0 := by
  induction ps with
  | nil =>
    intro b _ _ hinv
    unfold countAssign
    rw [hinv]
    rfl
  | cons p ps ih =>
    intro b hps hnd hinv
    unfold countAssign
    have hz : ∀ v ∈ (List.range b.size).map (· + 1),
        countAssign ps (b.place p.1 p.2 (some v)) = 0 := by
      intro v _
      have hp := hps p (List.mem_cons_self _ _)
      apply ih
      · intro q hq
        have hqb := hps q (List.mem_cons_of_mem _ hq)
        refine ⟨hqb.1, hqb.2.1, ?_⟩
        rw [b.val_place_ne p.1 p.2 (some v) q.1 q.2 (by
          intro hidx
          rcases b.idx_inj hqb.2.1 hp.2.1 hidx with ⟨h1, h2⟩
          exact (List.nodup_cons.mp hnd).1 (Prod.ext h1.symm h2.symm ▸ hq))]
        exact hqb.2.2
      · exact (List.nodup_cons.mp hnd).2
      · exact b.isValid_place_false p.1 p.2 (some v) hp.2.2 hinv
    rw [List.map_congr_left hz, sum_map_zero]

theorem Board.countCompletions_of_invalid (b : Board)
    (h : b.isValid = false) : b.countCompletions = 0 := by
  apply countAssign_of_invalid b.emptyPositions b _ b.nodup_emptyPositions h
  intro p hp
  exact (b.mem_emptyPositions p).mp hp

theorem Board.countCompletions_of_full (b : Board) (hv : b.isValid = true)
    (he : b.emptyPositions = []) : b.countCompletions = 1 := by
  unfold Board.countCompletions
  rw [he]
  unfold countAssign
  rw [hv, he]
  rfl

/-- The partition identity: the completions of a board with an empty
in-bounds cell split by the value that cell takes. -/
theorem Board.countCompletions_place_sum (b : Board) (hWF : b.WF) {r c : Nat}
    (hr : r < b.size) (hc : c < b.size) (hEmpty : b.val r c = none) :
    b.countCompletions =
      (((List.range b.size).map (· + 1)).map
        (fun v => (b.place r c (some v)).countCompletions)).sum := by
  have hmem : (r, c) ∈ b.emptyPositions :=
    (b.mem_emptyPositions (r, c)).mpr ⟨hr, hc, hEmpty⟩
  have hperm : List.Perm b.emptyPositions
      ((r, c) :: b.emptyPositions.filter (fun q => decide (q ≠ (r, c)))) := by
    apply (List.perm_ext_iff_of_nodup b.nodup_emptyPositions _).mpr
    · intro q
      rw [List.mem_cons, List.mem_filter]
      constructor
      · intro hq
        by_cases hqrc : q = (r, c)
        · exact Or.inl hqrc
        · exact Or.inr ⟨hq, by simpa using hqrc⟩
      · intro hq
        rcases hq with hq | hq
        · exact hq ▸ hmem
        · exact hq.1
    · rw [List.nodup_cons]
      refine ⟨?_, b.nodup_emptyPositions.filter _⟩
      intro hmem2
      rw [List.mem_filter] at hmem2
      simpa using hmem2.2
  unfold Board.countCompletions
  rw [countAssign_perm hperm b
    (fun p hp => ((b.mem_emptyPositions p).mp hp).2.1)]
  have hcons : countAssign
      ((r, c) :: b.emptyPositions.filter (fun q => decide (q ≠ (r, c)))) b =
      (((List.range b.size).map (· + 1)).map (fun v =>
        countAssign (b.emptyPositions.filter (fun q => decide (q ≠ (r, c))))
          (b.place r c (some v)))).sum := rfl
  rw [hcons]
  congr 1
  apply List.map_congr_left
  intro v _
  rw [b.emptyPositions_place hWF hr hc v]

theorem mem_possSorted (s : Finset Nat) (v : Nat) :
    v ∈ possSorted s ↔ v ∈ s := by
  rcases s with ⟨m, hnd⟩
  revert hnd
  refine Quot.inductionOn m ?_
  intro l hnd
  show v ∈ l.insertionSort (· ≤ ·) ↔ _
  rw [(l.perm_insertionSort (· ≤ ·)).mem_iff]
  simp [Finset.mem_mk]

theorem nodup_possSorted (s : Finset Nat) : (possSorted s).Nodup := by
  rcases s with ⟨m, hnd⟩
  revert hnd
  refine Quot.inductionOn m ?_
  intro l hnd
  show (l.insertionSort (· ≤ ·)).Nodup
  exact (l.perm_insertionSort (· ≤ ·)).nodup_iff.mpr hnd

theorem sum_filter_zero (l : List Nat) (p : Nat → Bool) (f : Nat → Nat)
    (h : ∀ x ∈ l, p x = false → f x = 0) :
    (l.map f).sum = ((l.filter p).map f).sum := by
  induction l with
  | nil => rfl
  | cons x t ih =>
    have iht := ih (fun y hy => h y (List.mem_cons_of_mem _ hy))
    cases hp : p x
    · rw [List.map_cons, List.sum_cons, h x (List.mem_cons_self _ _) hp,
        List.filter_cons_of_neg (by simp [hp]), iht]
      omega
    · rw [List.map_cons, List.sum_cons, List.filter_cons_of_pos (by simp [hp]),
        List.map_cons, List.sum_cons, iht]

/-- Values outside the canonical candidate set of an empty cell give no
completions when placed there. -/
theorem Board.countCompletions_place_zero (b : Board) (hWF : b.WF) {r c : Nat}
    (hr : r < b.size) (hc : c < b.size) (hEmpty : b.val r c = none) {v : Nat}
    (hv1 : 1 ≤ v) (hv2 : v ≤ b.size) (hvnot : v ∉ b.possCanon r c) :
    (b.place r c (some v)).countCompletions = 0 := by
  apply Board.countCompletions_of_invalid
  cases hval : b.isValid
  · exact b.isValid_place_false r c (some v) hEmpty hval
  · have hres : v ∈ b.restrictedValues r c := by
      by_contra hnot
      exact hvnot ((b.mem_possCanon_of_empty hEmpty v).mpr ⟨⟨hv1, hv2⟩, hnot⟩)
    cases hpl : (b.place r c (some v)).isValid
    · rfl
    · exact absurd hres ((b.isValid_place_iff hWF hr hc hEmpty hval v).mp hpl)

/-- The partition identity restricted to the candidate list actually
iterated by the search loops. -/
theorem Board.countCompletions_candidates (b : Board) (hWF : b.WF) {r c : Nat}
    (hr : r < b.size) (hc : c < b.size) (hEmpty : b.val r c = none) :
    b.countCompletions =
      ((possSorted (b.possCanon r c)).map
        (fun v => (b.place r c (some v)).countCompletions)).sum := by
  rw [b.countCompletions_place_sum hWF hr hc hEmpty]
  rw [sum_filter_zero _ (fun v => decide (v ∈ b.possCanon r c)) _ (by
    intro x hx hpx
    simp only [List.mem_map, List.mem_range] at hx
    rcases hx with ⟨y, hy, hyx⟩
    have hyx2 : y + 1 = x := by simpa using hyx
    apply b.countCompletions_place_zero hWF hr hc hEmpty (by omega) (by omega)
    simpa using hpx)]
  apply List.Perm.sum_eq
  apply List.Perm.map
  apply (List.perm_ext_iff_of_nodup _ (nodup_possSorted _)).mpr
  · intro v
    rw [List.mem_filter, mem_possSorted]
    constructor
    · intro h
      simpa using h.2
    · intro h
      refine ⟨?_, by simpa using h⟩
      have := (b.mem_possCanon_of_empty hEmpty v).mp h
      simp only [List.mem_map, List.mem_range]
      exact ⟨v - 1, by omega, by omega⟩
  · apply List.Nodup.filter
    apply (List.nodup_range b.size).map
    intro x y h
    have h2 : x + 1 = y + 1 := by simpa using h
    omega

/-! ## The MRV scan -/

theorem mrvGo_vEq (ps : List (Nat × Nat)) : ∀ (b : Board)
    (best : Option ((Nat × Nat) × Nat)), vEq (mrvGo ps b best).1 b := by
  induction ps with
  | nil => intro b best; exact vEq.refl b
  | cons p ps ih =>
    intro b best
    show vEq (mrvGo (p :: ps) b best).1 b
    unfold mrvGo
    by_cases hemp : b.isEmptyAt p.1 p.2
    · simp only [hemp, Bool.not_true, Bool.false_eq_true, if_false]
      have hupd : vEq (b.updateCellPoss p.1 p.2) b := vEq.updateCellPoss_left b p.1 p.2
      split
      · split
        · exact hupd
        · exact (ih _ _).trans hupd
      · exact (ih _ _).trans hupd
    · simp only [hemp, Bool.not_false, if_true]
      exact ih b best

theorem mrvGo_isSome_of_best (ps : List (Nat × Nat)) :
    ∀ (b : Board) (q : (Nat × Nat) × Nat),
      (mrvGo ps b (some q)).2.isSome = true := by
  induction ps with
  | nil => intro b q; rfl
  | cons p ps ih =>
    intro b q
    show (mrvGo (p :: ps) b (some q)).2.isSome = true
    unfold mrvGo
    by_cases hemp : b.isEmptyAt p.1 p.2
    · simp only [hemp, Bool.not_true, Bool.false_eq_true, if_false]
      split
      · split
        · rfl
        · exact ih _ _
      · exact ih _ _
    · simp only [hemp, Bool.not_false, if_true]
      exact ih b q

theorem mrvGo_none (ps : List (Nat × Nat)) : ∀ (b : Board)
    (best : Option ((Nat × Nat) × Nat)), (mrvGo ps b best).2 = none →
    best = none ∧ ∀ p ∈ ps, b.isEmptyAt p.1 p.2 = false := by
  induction ps with
  | nil =>
    intro b best h
    refine ⟨?_, by simp⟩
    cases best with
    | none => rfl
    | some q => simp [mrvGo] at h
  | cons p ps ih =>
    intro b best h
    by_cases hemp : b.isEmptyAt p.1 p.2
    · exfalso
      unfold mrvGo at h
      simp only [hemp, Bool.not_true, Bool.false_eq_true, if_false] at h
      cases best with
      | none =>
        simp only at h
        by_cases hnp : ((b.updateCellPoss p.1 p.2).getCell p.1 p.2).possibleValues.card = 1
        · rw [if_pos trivial, if_pos hnp] at h
          simp at h
        · rw [if_pos trivial, if_neg hnp] at h
          have := mrvGo_isSome_of_best ps (b.updateCellPoss p.1 p.2)
            (p, ((b.updateCellPoss p.1 p.2).getCell p.1 p.2).possibleValues.card)
          rw [h] at this
          simp at this
      | some q =>
        simp only at h
        by_cases hlt : ((b.updateCellPoss p.1 p.2).getCell p.1 p.2).possibleValues.card < q.2
        · rw [if_pos (by simpa using hlt)] at h
          by_cases hnp : ((b.updateCellPoss p.1 p.2).getCell p.1 p.2).possibleValues.card = 1
          · rw [if_pos hnp] at h
            simp at h
          · rw [if_neg hnp] at h
            have := mrvGo_isSome_of_best ps (b.updateCellPoss p.1 p.2)
              (p, ((b.updateCellPoss p.1 p.2).getCell p.1 p.2).possibleValues.card)
            rw [h] at this
            simp at this
        · rw [if_neg (by simpa using hlt)] at h
          have := mrvGo_isSome_of_best ps (b.updateCellPoss p.1 p.2) q
          rw [h] at this
          simp at this
    · have hemp2 : b.isEmptyAt p.1 p.2 = false := by
        cases hb : b.isEmptyAt p.1 p.2
        · rfl
        · exact absurd hb hemp
      unfold mrvGo at h
      simp only [hemp2, Bool.not_false, if_true] at h
      rcases ih b best h with ⟨h1, h2⟩
      refine ⟨h1, ?_⟩
      intro q hq
      rcases List.mem_cons.mp hq with hq | hq
      · subst hq
        exact hemp2
      · exact h2 q hq

theorem mrvGo_all_filled (ps : List (Nat × Nat)) : ∀ (b : Board)
    (best : Option ((Nat × Nat) × Nat)),
    (∀ p ∈ ps, b.isEmptyAt p.1 p.2 = false) →
    mrvGo ps b best = (b, best.map (fun q => q.1)) := by
  induction ps with
  | nil => intro b best _; rfl
  | cons p ps ih =>
    intro b best h
    unfold mrvGo
    rw [h p (List.mem_cons_self _ _)]
    simp only [Bool.not_false, if_true]
    exact ih b best (fun q hq => h q (List.mem_cons_of_mem _ hq))

/-- What a successful MRV scan guarantees: the returned position is an
in-bounds empty cell whose candidate cache in the returned board holds
exactly the canonical candidate set. -/
theorem mrvGo_some_spec (ps : List (Nat × Nat)) :
    ∀ (b : Board) (best : Option ((Nat × Nat) × Nat)) (b' : Board) (p : Nat × Nat),
    b.WF →
    (∀ q ∈ ps, q.1 < b.size ∧ q.2 < b.size) → ps.Nodup →
    (∀ q n, best = some (q, n) → q.1 < b.size ∧ q.2 < b.size ∧
      b.val q.1 q.2 = none ∧ q ∉ ps ∧
      b.getCell q.1 q.2 = ⟨none, b.possCanon q.1 q.2⟩) →
    mrvGo ps b best = (b', some p) →
    p.1 < b.size ∧ p.2 < b.size ∧ b.val p.1 p.2 = none ∧
      b'.getCell p.1 p.2 = ⟨none, b.possCanon p.1 p.2⟩ := by
  induction ps with
  | nil =>
    intro b best b' p hWF hps hnd hinv h
    cases best with
    | none => simp [mrvGo] at h
    | some q =>
      rw [show mrvGo [] b (some q) = (b, some q.1) from rfl] at h
      have hb : b = b' := congrArg Prod.fst h
      have hq1 : q.1 = p := by simpa using congrArg Prod.snd h
      have hq := hinv q.1 q.2 rfl
      subst hq1
      exact ⟨hq.1, hq.2.1, hq.2.2.1, hb ▸ hq.2.2.2.2⟩
  | cons p0 ps ih =>
    intro b best b' p hWF hps hnd hinv h
    have hp0 := hps p0 (List.mem_cons_self _ _)
    by_cases hemp : b.isEmptyAt p0.1 p0.2
    · have hval0 : b.val p0.1 p0.2 = none := by
        unfold Board.isEmptyAt at hemp
        exact Option.isNone_iff_eq_none.mp hemp
      set b1 := b.updateCellPoss p0.1 p0.2 with hb1def
      have hveq1 : vEq b1 b := vEq.updateCellPoss_left b p0.1 p0.2
      have hWF1 : b1.WF := b.WF_updateCellPoss p0.1 p0.2 hWF
      have hsz1 : b1.size = b.size := hveq1.1
      have hcell0 : b1.getCell p0.1 p0.2 = ⟨none, b.possCanon p0.1 p0.2⟩ := by
        rw [hb1def, b.getCell_updateCellPoss_self (b.idx_lt hWF hp0.1 hp0.2), hval0]
      have htail : ∀ q ∈ ps, q.1 < b1.size ∧ q.2 < b1.size := by
        intro q hq
        rw [hsz1]
        exact hps q (List.mem_cons_of_mem _ hq)
      have hndt := (List.nodup_cons.mp hnd).2
      have hp0nt := (List.nodup_cons.mp hnd).1
      have hinvNew : ∀ q n,
          (some (p0, (b1.getCell p0.1 p0.2).possibleValues.card) :
            Option ((Nat × Nat) × Nat)) = some (q, n) →
          q.1 < b1.size ∧ q.2 < b1.size ∧ b1.val q.1 q.2 = none ∧ q ∉ ps ∧
          b1.getCell q.1 q.2 = ⟨none, b1.possCanon q.1 q.2⟩ := by
        intro q n hqn
        have hq : q = p0 := by
          have := congrArg (fun o => Option.map (fun x : (Nat × Nat) × Nat => x.1) o) hqn
          simpa using this.symm
        subst hq
        refine ⟨hsz1 ▸ hp0.1, hsz1 ▸ hp0.2, ?_, hp0nt, ?_⟩
        · rw [hveq1.val_eq]
          exact hval0
        · rw [hcell0, hveq1.possCanon_eq]
      have hconcl1 : ∀ bb' pp, mrvGo ps b1
            (some (p0, (b1.getCell p0.1 p0.2).possibleValues.card)) = (bb', some pp) →
          pp.1 < b.size ∧ pp.2 < b.size ∧ b.val pp.1 pp.2 = none ∧
            bb'.getCell pp.1 pp.2 = ⟨none, b.possCanon pp.1 pp.2⟩ := by
        intro bb' pp hrec
        rcases ih b1 _ bb' pp hWF1 htail hndt hinvNew hrec with ⟨c1, c2, c3, c4⟩
        refine ⟨hsz1 ▸ c1, hsz1 ▸ c2, ?_, ?_⟩
        · rw [← hveq1.val_eq]
          exact c3
        · rw [c4, hveq1.possCanon_eq]
      have hinvOld : ∀ q n, best = some (q, n) →
          q.1 < b1.size ∧ q.2 < b1.size ∧ b1.val q.1 q.2 = none ∧ q ∉ ps ∧
          b1.getCell q.1 q.2 = ⟨none, b1.possCanon q.1 q.2⟩ := by
        intro q n hqn
        rcases hinv q n hqn with ⟨i1, i2, i3, i4, i5⟩
        have hqp0 : q ≠ p0 := fun hqq => i4 (hqq ▸ List.mem_cons_self _ _)
        refine ⟨hsz1 ▸ i1, hsz1 ▸ i2, ?_, fun hmm => i4 (List.mem_cons_of_mem _ hmm), ?_⟩
        · rw [hveq1.val_eq]
          exact i3
        · rw [hb1def, b.getCell_updateCellPoss_ne p0.1 p0.2 q.1 q.2 (by
            intro hidx
            rcases b.idx_inj i2 hp0.2 hidx with ⟨e1, e2⟩
            exact hqp0 (Prod.ext e1 e2)), i5, hveq1.possCanon_eq]
      have hconcl2 : ∀ bb' pp, mrvGo ps b1 best = (bb', some pp) →
          pp.1 < b.size ∧ pp.2 < b.size ∧ b.val pp.1 pp.2 = none ∧
            bb'.getCell pp.1 pp.2 = ⟨none, b.possCanon pp.1 pp.2⟩ := by
        intro bb' pp hrec
        rcases ih b1 best bb' pp hWF1 htail hndt hinvOld hrec with ⟨c1, c2, c3, c4⟩
        refine ⟨hsz1 ▸ c1, hsz1 ▸ c2, ?_, ?_⟩
        · rw [← hveq1.val_eq]
          exact c3
        · rw [c4, hveq1.possCanon_eq]
      unfold mrvGo at h
      rw [hemp] at h
      simp only [Bool.not_true, Bool.false_eq_true, if_false] at h
      cases best with
      | none =>
        simp only at h
        by_cases hnp : (b1.getCell p0.1 p0.2).possibleValues.card = 1
        · rw [if_pos trivial, if_pos hnp] at h
          have hb' : b' = b1 := (congrArg Prod.fst h).symm
          have hp' : p = p0 := by
            have := congrArg Prod.snd h
            simpa using this.symm
          subst hp'
          exact ⟨hp0.1, hp0.2, hval0, hb' ▸ hcell0⟩
        · rw [if_pos trivial, if_neg hnp] at h
          exact hconcl1 b' p h
      | some q =>
        simp only at h
        by_cases hlt : (b1.getCell p0.1 p0.2).possibleValues.card < q.2
        · rw [if_pos (by simpa using hlt)] at h
          by_cases hnp : (b1.getCell p0.1 p0.2).possibleValues.card = 1
          · rw [if_pos hnp] at h
            have hb' : b' = b1 := (congrArg Prod.fst h).symm
            have hp' : p = p0 := by
              have := congrArg Prod.snd h
              simpa using this.symm
            subst hp'
            exact ⟨hp0.1, hp0.2, hval0, hb' ▸ hcell0⟩
          · rw [if_neg hnp] at h
            exact hconcl1 b' p h
        · rw [if_neg (by simpa using hlt)] at h
          exact hconcl2 b' p h
    · have hemp2 : b.isEmptyAt p0.1 p0.2 = false := by
        cases hb : b.isEmptyAt p0.1 p0.2
        · rfl
        · exact absurd hb hemp
      unfold mrvGo at h
      rw [hemp2] at h
      simp only [Bool.not_false, if_true] at h
      apply ih b best b' p hWF (fun q hq => hps q (List.mem_cons_of_mem _ hq))
        (List.nodup_cons.mp hnd).2 _ h
      intro q n hqn
      rcases hinv q n hqn with ⟨i1, i2, i3, i4, i5⟩
      exact ⟨i1, i2, i3, fun hmm => i4 (List.mem_cons_of_mem _ hmm), i5⟩

theorem Board.getMrvCell_fst_vEq (b : Board) : vEq (b.getMrvCell).1 b :=
  mrvGo_vEq _ b none

theorem Board.getMrvCell_none_iff (b : Board) :
    (b.getMrvCell).2 = none ↔ b.emptyPositions = [] := by
  constructor
  · intro h
    rcases mrvGo_none _ b none h with ⟨_, h2⟩
    unfold Board.emptyPositions
    rw [List.filter_eq_nil_iff]
    intro p hp
    rw [h2 p hp]
    simp
  · intro h
    unfold Board.getMrvCell
    unfold Board.emptyPositions at h
    rw [List.filter_eq_nil_iff] at h
    rw [mrvGo_all_filled b.positionsList b none (by
      intro p hp
      have h2 := h p hp
      cases hb : b.isEmptyAt p.1 p.2
      · rfl
      · exact absurd hb h2)]
    rfl

theorem Board.getMrvCell_some_spec (b : Board) (hWF : b.WF) {b' : Board}
    {p : Nat × Nat} (h : b.getMrvCell = (b', some p)) :
    p.1 < b.size ∧ p.2 < b.size ∧ b.val p.1 p.2 = none ∧
      b'.getCell p.1 p.2 = ⟨none, b.possCanon p.1 p.2⟩ := by
  apply mrvGo_some_spec b.positionsList b none b' p hWF
    (fun q hq => (b.mem_positionsList q).mp hq) b.nodup_positionsList
    (by intro q n hqn; cases hqn) h

/-! ## The bounded solution counter -/

/-- Both unplace orders after a tentative placement restore the same
values. -/
theorem vEq_place_place_none (y : Board) (r c : Nat) (w : Option Nat) :
    vEq ((y.place r c w).place r c none) (y.place r c none) := by
  refine ⟨rfl, rfl, ?_⟩
  show List.map Cell.value (((y.place r c w).cells).set
      ((y.place r c w).idx r c) (((y.place r c w).getCell r c).setValue none)) =
    List.map Cell.value ((y.cells).set (y.idx r c) ((y.getCell r c).setValue none))
  rw [List.map_set, List.map_set, Cell.setValue_value, Cell.setValue_value,
    Board.idx_place]
  show ((y.cells.set (y.idx r c) _).map Cell.value).set (y.idx r c) none = _
  rw [List.map_set, List.set_set]

/-- The board a finished candidate step hands to the next iteration has
the same values as the board the branching started from. -/
theorem vEq_step_restore {x b0 : Board} (r c : Nat) (v : Nat)
    (hst : vEq x b0) (hEmpty : b0.val r c = none) {y : Board}
    (hy : vEq y (x.place r c (some v))) : vEq (y.place r c none) b0 := by
  have h1 : vEq (y.place r c none) ((x.place r c (some v)).place r c none) :=
    hy.place r c none
  have h2 : vEq ((x.place r c (some v)).place r c none) (x.place r c none) :=
    vEq_place_place_none x r c (some v)
  have h3 : vEq (x.place r c none) (b0.place r c none) := hst.place r c none
  have h4 : vEq (b0.place r c none) b0 := vEq.place_left_none b0 r c hEmpty
  exact ((h1.trans h2).trans h3).trans h4

/-- Once the cap is reached every remaining candidate step is skipped. -/
theorem btFold_skip (f : Board → Nat → Board × Nat) (maxC r c : Nat)
    (vs : List Nat) (st : Board × Nat) (h : maxC ≤ st.2) :
    vs.foldl (btStep f maxC r c) st = st := by
  induction vs with
  | nil => rfl
  | cons v vs ih =>
    rw [List.foldl_cons, show btStep f maxC r c st v = st from by
      unfold btStep
      rw [if_pos h]]
    exact ih

/-- Value restoration through the whole backtracking search: the board
btAux returns holds the same values as the board it received. -/
theorem btAux_vEq (fuel : Nat) : ∀ (maxC : Nat) (b : Board) (k : Nat),
    b.WF → vEq (btAux fuel maxC b k).1 b := by
  induction fuel with
  | zero => intro maxC b k _; exact vEq.refl b
  | succ fuel ih =>
    intro maxC b k hWF
    unfold btAux
    by_cases hk : maxC ≤ k
    · rw [if_pos hk]
      exact vEq.refl b
    · rw [if_neg hk]
      rcases hmrv : b.getMrvCell with ⟨b1, op⟩
      have hb1 : vEq b1 b := by
        have := b.getMrvCell_fst_vEq
        rw [hmrv] at this
        exact this
      cases op with
      | none =>
        simp only [hmrv]
        exact hb1
      | some p =>
        simp only [hmrv]
        have hspec := b.getMrvCell_some_spec hWF hmrv
        have hEmpty : b.val p.1 p.2 = none := hspec.2.2.1
        have hfold : ∀ (vs : List Nat) (st : Board × Nat), vEq st.1 b →
            vEq (vs.foldl (btStep (fun bb kk => btAux fuel maxC bb kk)
              maxC p.1 p.2) st).1 b := by
          intro vs
          induction vs with
          | nil => intro st hst; exact hst
          | cons v vs ihv =>
            intro st hst
            rw [List.foldl_cons]
            apply ihv
            unfold btStep
            by_cases hcap : maxC ≤ st.2
            · rw [if_pos hcap]
              exact hst
            · rw [if_neg hcap]
              by_cases hval : (st.1.place p.1 p.2 (some v)).isValid
              · rw [if_pos hval]
                simp only
                apply vEq_step_restore p.1 p.2 v hst hEmpty
                have hWFst : st.1.WF := hst.WF_of hWF
                have hWFpl : (st.1.place p.1 p.2 (some v)).WF :=
                  st.1.WF_place p.1 p.2 (some v) hWFst
                exact (ih maxC (st.1.place p.1 p.2 (some v)).fullRefresh st.2
                  (Board.WF_fullRefresh _ hWFpl)).trans
                  (vEq.fullRefresh_left _)
              · rw [if_neg hval]
                simp only
                exact vEq_step_restore p.1 p.2 v hst hEmpty (vEq.refl _)
        have hmain := hfold
          (possSorted ((b1.getCell p.1 p.2).possibleValues)) (b1, k) hb1
        set stf := (possSorted ((b1.getCell p.1 p.2).possibleValues)).foldl
          (btStep (fun bb kk => btAux fuel maxC bb kk) maxC p.1 p.2) (b1, k)
          with hstf
        by_cases hcap2 : maxC ≤ stf.2
        · rw [if_pos hcap2]
          exact hmain
        · rw [if_neg hcap2]
          exact (vEq.updateCellPoss_left stf.1 p.1 p.2).trans hmain

theorem length_filter_ne_of_mem {α} [DecidableEq α] {l : List α} {a : α}
    (hmem : a ∈ l) (hnd : l.Nodup) :
    (l.filter (fun x => decide (x ≠ a))).length + 1 = l.length := by
  induction l with
  | nil => cases hmem
  | cons q qs ihq =>
    rcases List.mem_cons.mp hmem with hq | hq
    · subst hq
      rw [List.filter_cons_of_neg (by simp)]
      have hself : qs.filter (fun x => decide (x ≠ a)) = qs := by
        apply List.filter_eq_self.mpr
        intro x hx
        simp only [decide_eq_true_eq]
        intro hxq
        exact (List.nodup_cons.mp hnd).1 (hxq ▸ hx)
      rw [hself]
      simp
    · rw [List.filter_cons_of_pos (by
        simp only [decide_eq_true_eq]
        intro hqq
        exact (List.nodup_cons.mp hnd).1 (hqq ▸ hq))]
      simp only [List.length_cons]
      rw [ihq hq (List.nodup_cons.mp hnd).2]

/-- The counting fold over the candidate list, for a valid base board:
each candidate contributes its completion count, capped at maxC. -/
theorem btFold_count (fuel maxC : Nat)
    (ih : ∀ (maxC2 : Nat) (b : Board) (k : Nat), b.WF →
      b.emptyPositions.length < fuel → k ≤ maxC2 →
      (b.isValid = true ∨ b.emptyPositions ≠ []) →
      (btAux fuel maxC2 b k).2 = min maxC2 (k + b.countCompletions))
    (b0 : Board) (r c : Nat) (hWF : b0.WF) (hval : b0.isValid = true)
    (hr : r < b0.size) (hc : c < b0.size) (hEmpty : b0.val r c = none)
    (hfuel : b0.emptyPositions.length ≤ fuel) :
    ∀ (vs : List Nat), (∀ v ∈ vs, v ∈ b0.possCanon r c) →
    ∀ (st : Board × Nat), vEq st.1 b0 → st.2 ≤ maxC →
    (vs.foldl (btStep (fun bb kk => btAux fuel maxC bb kk) maxC r c) st).2 =
      min maxC (st.2 +
        (vs.map (fun v => (b0.place r c (some v)).countCompletions)).sum) := by
  intro vs
  induction vs with
  | nil =>
    intro _ st _ hle
    simp only [List.foldl_nil, List.map_nil, List.sum_nil, Nat.add_zero]
    omega
  | cons v vs ihv =>
    intro hvs st hst hle
    by_cases hcap : maxC ≤ st.2
    · rw [btFold_skip _ _ _ _ _ _ hcap]
      omega
    · rw [List.foldl_cons]
      have hWFst : st.1.WF := hst.WF_of hWF
      have hvmem := hvs v (List.mem_cons_self _ _)
      have hplv : vEq (st.1.place r c (some v)) (b0.place r c (some v)) :=
        hst.place r c (some v)
      have hvalpl : (b0.place r c (some v)).isValid = true := by
        rw [b0.isValid_place_iff hWF hr hc hEmpty hval v]
        exact ((b0.mem_possCanon_of_empty hEmpty v).mp hvmem).2
      have hvalpl2 : (st.1.place r c (some v)).isValid = true := by
        rw [hplv.isValid_eq]
        exact hvalpl
      have hstep : btStep (fun bb kk => btAux fuel maxC bb kk) maxC r c st v =
          ((btAux fuel maxC (st.1.place r c (some v)).fullRefresh st.2).1.place
            r c none,
           (btAux fuel maxC (st.1.place r c (some v)).fullRefresh st.2).2) := by
        unfold btStep
        rw [if_neg hcap, if_pos hvalpl2]
      rw [hstep]
      have hWFpl : (st.1.place r c (some v)).WF :=
        st.1.WF_place r c (some v) hWFst
      have hfr : (st.1.place r c (some v)).fullRefresh =
          (b0.place r c (some v)).fullRefresh :=
        Board.fullRefresh_eq_of_vEq hWFpl hplv
      have hWFpl0 : (b0.place r c (some v)).WF := b0.WF_place r c (some v) hWF
      have hveqfr : vEq (b0.place r c (some v)).fullRefresh (b0.place r c (some v)) :=
        vEq.fullRefresh_left _
      have hlen : (b0.place r c (some v)).emptyPositions.length + 1 =
          b0.emptyPositions.length := by
        rw [b0.emptyPositions_place hWF hr hc v]
        exact length_filter_ne_of_mem
          ((b0.mem_emptyPositions (r, c)).mpr ⟨hr, hc, hEmpty⟩)
          b0.nodup_emptyPositions
      have hrec := ih maxC (b0.place r c (some v)).fullRefresh st.2
        (Board.WF_fullRefresh _ hWFpl0)
        (by rw [hveqfr.emptyPositions_eq]; omega)
        (Nat.le_of_lt (Nat.lt_of_not_le hcap))
        (Or.inl (by rw [hveqfr.isValid_eq]; exact hvalpl))
      rw [hfr]
      have hcc : (b0.place r c (some v)).fullRefresh.countCompletions =
          (b0.place r c (some v)).countCompletions := by
        unfold Board.countCompletions
        rw [hveqfr.emptyPositions_eq, hveqfr.countAssign_eq]
      rw [hcc] at hrec
      have hrest := ihv (fun w hw => hvs w (List.mem_cons_of_mem _ hw))
        ((btAux fuel maxC (b0.place r c (some v)).fullRefresh st.2).1.place
          r c none,
         (btAux fuel maxC (b0.place r c (some v)).fullRefresh st.2).2)
        (by
          apply vEq_step_restore r c v hst hEmpty
          rw [← hfr]
          exact (btAux_vEq fuel maxC (st.1.place r c (some v)).fullRefresh st.2
            (Board.WF_fullRefresh _ hWFpl)).trans (vEq.fullRefresh_left _))
        (by simp only [hrec]; omega)
      simp only at hrest
      rw [hrest]
      simp only [hrec, List.map_cons, List.sum_cons]
      omega

/-- The counting fold when the base board is invalid: every candidate is
rejected by the validity check and the count never moves. -/
theorem btFold_invalid (fuel maxC : Nat) (b0 : Board) (r c : Nat)
    (hEmpty : b0.val r c = none) (hinv : b0.isValid = false) :
    ∀ (vs : List Nat) (st : Board × Nat), vEq st.1 b0 →
    (vs.foldl (btStep (fun bb kk => btAux fuel maxC bb kk) maxC r c) st).2 =
      st.2 := by
  intro vs
  induction vs with
  | nil => intro st _; rfl
  | cons v vs ihv =>
    intro st hst
    rw [List.foldl_cons]
    by_cases hcap : maxC ≤ st.2
    · rw [show btStep (fun bb kk => btAux fuel maxC bb kk) maxC r c st v = st
        from by unfold btStep; rw [if_pos hcap]]
      exact ihv st hst
    · have hinvpl : (st.1.place r c (some v)).isValid = false := by
        rw [(hst.place r c (some v)).isValid_eq]
        exact b0.isValid_place_false r c (some v) hEmpty hinv
      rw [show btStep (fun bb kk => btAux fuel maxC bb kk) maxC r c st v =
          ((st.1.place r c (some v)).place r c none, st.2) from by
        unfold btStep
        rw [if_neg hcap, if_neg (by simp [hinvpl])]]
      apply ihv
      exact vEq_step_restore r c v hst hEmpty (vEq.refl _)

/-- Main counting theorem for the bounded backtracking counter: with
enough fuel and a board that is valid or has an empty cell, the search
returns the completion count capped at maxC. -/
theorem btAux_count (fuel : Nat) : ∀ (maxC : Nat) (b : Board) (k : Nat),
    b.WF → b.emptyPositions.length < fuel → k ≤ maxC →
    (b.isValid = true ∨ b.emptyPositions ≠ []) →
    (btAux fuel maxC b k).2 = min maxC (k + b.countCompletions) := by
  induction fuel with
  | zero =>
    intro maxC b k _ hlen _ _
    exact absurd hlen (Nat.not_lt_zero _)
  | succ fuel ih =>
    intro maxC b k hWF hlen hk hvb
    unfold btAux
    by_cases hkc : maxC ≤ k
    · rw [if_pos hkc]
      omega
    · rw [if_neg hkc]
      rcases hmrv : b.getMrvCell with ⟨b1, op⟩
      have hb1 : vEq b1 b := by
        have := b.getMrvCell_fst_vEq
        rw [hmrv] at this
        exact this
      cases op with
      | none =>
        simp only [hmrv]
        have hempt : b.emptyPositions = [] := by
          apply b.getMrvCell_none_iff.mp
          rw [hmrv]
        have hvalid : b.isValid = true := by
          rcases hvb with h | h
          · exact h
          · exact absurd hempt h
        rw [b.countCompletions_of_full hvalid hempt]
        omega
      | some p =>
        simp only [hmrv]
        have hspec := b.getMrvCell_some_spec hWF hmrv
        have hEmpty : b.val p.1 p.2 = none := hspec.2.2.1
        have hcand : (b1.getCell p.1 p.2).possibleValues = b.possCanon p.1 p.2 := by
          rw [hspec.2.2.2]
        cases hval : b.isValid with
        | true =>
          have hfold := btFold_count fuel maxC ih b p.1 p.2 hWF hval
            hspec.1 hspec.2.1 hEmpty (Nat.lt_succ_iff.mp hlen)
            (possSorted ((b1.getCell p.1 p.2).possibleValues))
            (by
              intro v hv
              rw [hcand] at hv
              exact (mem_possSorted _ v).mp hv)
            (b1, k) hb1 (Nat.le_of_lt (Nat.lt_of_not_le hkc))
          have hsum : ((possSorted ((b1.getCell p.1 p.2).possibleValues)).map
              (fun v => (b.place p.1 p.2 (some v)).countCompletions)).sum =
              b.countCompletions := by
            rw [hcand]
            exact (b.countCompletions_candidates hWF hspec.1 hspec.2.1 hEmpty).symm
          set stf := (possSorted ((b1.getCell p.1 p.2).possibleValues)).foldl
            (btStep (fun bb kk => btAux fuel maxC bb kk) maxC p.1 p.2) (b1, k)
            with hstf
          have hstf2 : stf.2 = min maxC (k + b.countCompletions) := by
            rw [hstf, hfold]
            simp only
            rw [hsum]
          by_cases hcap2 : maxC ≤ stf.2
          · rw [if_pos hcap2]
            exact hstf2
          · rw [if_neg hcap2]
            exact hstf2
        | false =>
          have hempne : b.emptyPositions ≠ [] := by
            rcases hvb with h | h
            · rw [hval] at h
              cases h
            · exact h
          have hfold := btFold_invalid fuel maxC b p.1 p.2 hEmpty hval
            (possSorted ((b1.getCell p.1 p.2).possibleValues)) (b1, k) hb1
          rw [b.countCompletions_of_invalid hval]
          set stf := (possSorted ((b1.getCell p.1 p.2).possibleValues)).foldl
            (btStep (fun bb kk => btAux fuel maxC bb kk) maxC p.1 p.2) (b1, k)
            with hstf
          have hstf2 : stf.2 = k := hfold
          by_cases hcap2 : maxC ≤ stf.2
          · rw [if_pos hcap2]
            omega
          · rw [if_neg hcap2]
            simp only
            omega

theorem sum_map_constant (n m : Nat) : ((List.range n).map (fun _ => m)).sum = n * m := by
  induction n with
  | zero => simp
  | succ k ihk =>
    rw [List.range_succ, List.map_append, List.sum_append, ihk]
    simp
    ring

theorem Board.length_positionsList (b : Board) :
    b.positionsList.length = b.size * b.size := by
  unfold Board.positionsList
  rw [List.length_flatMap]
  have hmap : (List.range b.size).map
      (List.length ∘ fun r => (List.range b.size).map (fun c => (r, c))) =
      (List.range b.size).map (fun _ => b.size) := by
    apply List.map_congr_left
    intro r _
    simp
  rw [hmap, sum_map_constant]

theorem Board.emptyPositions_length_le (b : Board) :
    b.emptyPositions.length ≤ b.size * b.size := by
  calc b.emptyPositions.length ≤ b.positionsList.length :=
    List.length_filter_le _ _
  _ = b.size * b.size := b.length_positionsList

/-- count_solutions returns the completion count capped at max_count,
for any well-formed board that is valid or has an empty cell. -/
theorem Board.countSolutions_spec (b : Board) (hWF : b.WF) (maxC : Nat)
    (hvb : b.isValid = true ∨ b.emptyPositions ≠ []) :
    b.countSolutions maxC = min maxC b.countCompletions := by
  unfold Board.countSolutions Board.copy
  have hfr := vEq.fullRefresh_left b
  rw [btAux_count (b.size * b.size + 1) maxC b.fullRefresh 0
    (b.WF_fullRefresh hWF)
    (by rw [hfr.emptyPositions_eq]; exact Nat.lt_succ_of_le b.emptyPositions_length_le)
    (Nat.zero_le _)
    (by
      rcases hvb with h | h
      · exact Or.inl (by rw [hfr.isValid_eq]; exact h)
      · exact Or.inr (by rw [hfr.emptyPositions_eq]; exact h))]
  rw [Nat.zero_add]
  congr 1
  unfold Board.countCompletions
  rw [hfr.emptyPositions_eq, hfr.countAssign_eq]

/-- A board with no empty cell always counts exactly one solution, with
no validity check whatsoever. -/
theorem Board.countSolutions_of_full (b : Board) (he : b.emptyPositions = [])
    {maxC : Nat} (hmax : 1 ≤ maxC) : b.countSolutions maxC = 1 := by
  unfold Board.countSolutions Board.copy
  have hfr := vEq.fullRefresh_left b
  rcases hmrv : b.fullRefresh.getMrvCell with ⟨b1, op⟩
  have hop : op = none := by
    have := b.fullRefresh.getMrvCell_none_iff.mpr
      (by rw [hfr.emptyPositions_eq]; exact he)
    rw [hmrv] at this
    exact this
  subst hop
  show (btAux (b.size * b.size + 1) maxC b.fullRefresh 0).2 = 1
  unfold btAux
  rw [if_neg (by omega)]
  simp only [hmrv]

/-! ## Solver correctness -/

theorem Board.Extends_of_vEq {s b : Board} (h : vEq s b) : s.Extends b := by
  intro r c v hv
  rw [h.val_eq]
  exact hv

theorem Board.Extends_trans_vEq {s b1 b : Board} (h1 : s.Extends b1)
    (h2 : vEq b1 b) : s.Extends b := by
  intro r c v hv
  apply h1
  rw [h2.val_eq]
  exact hv

/-- A board extending a tentative placement also extends the base board
when the placed cell was empty. -/
theorem Board.Extends_of_place {s b : Board} {r c v : Nat}
    (hEmpty : b.val r c = none) (h : s.Extends (b.place r c (some v))) :
    s.Extends b := by
  intro x y w hw
  apply h
  by_cases hidx : b.idx x y = b.idx r c
  · exfalso
    unfold Board.val Board.getCell at hw hEmpty
    rw [hidx, hEmpty] at hw
    cases hw
  · rw [b.val_place_ne r c (some v) x y hidx]
    exact hw

/-- Once a candidate succeeded the remaining loop iterations just
propagate the success. -/
theorem solveFold_skip (f : Board → Bool × Board) (r c : Nat)
    (vs : List Nat) (st : Bool × Board) (h : st.1 = true) :
    vs.foldl (solveStep f r c) st = st := by
  induction vs with
  | nil => rfl
  | cons v vs ih =>
    rw [List.foldl_cons, show solveStep f r c st v = st from by
      unfold solveStep
      rw [if_pos h]]
    exact ih

/-- Correctness of the solver's backtracking: on a well-formed valid
board with enough fuel, it succeeds iff a completion exists, the solved
board is then complete, valid and preserves every clue, and on failure
the board's values are restored. -/
theorem solveBT_spec (fuel : Nat) : ∀ (b : Board), b.WF →
    b.emptyPositions.length < fuel → b.isValid = true →
    (1 ≤ b.countCompletions →
      (solveBT fuel b).1 = true ∧ (solveBT fuel b).2.emptyPositions = [] ∧
      (solveBT fuel b).2.isValid = true ∧ (solveBT fuel b).2.Extends b) ∧
    (b.countCompletions = 0 →
      (solveBT fuel b).1 = false ∧ vEq (solveBT fuel b).2 b) := by
  induction fuel with
  | zero =>
    intro b _ hlen _
    exact absurd hlen (Nat.not_lt_zero _)
  | succ fuel ih =>
    intro b hWF hlen hval
    unfold solveBT
    rcases hmrv : b.getMrvCell with ⟨b1, op⟩
    have hb1 : vEq b1 b := by
      have := b.getMrvCell_fst_vEq
      rw [hmrv] at this
      exact this
    cases op with
    | none =>
      simp only [hmrv]
      have hempt : b.emptyPositions = [] := by
        apply b.getMrvCell_none_iff.mp
        rw [hmrv]
      constructor
      · intro _
        refine ⟨by trivial, by rw [hb1.emptyPositions_eq]; exact hempt,
          by rw [hb1.isValid_eq]; exact hval, Board.Extends_of_vEq hb1⟩
      · intro hcc
        rw [b.countCompletions_of_full hval hempt] at hcc
        cases hcc
    | some p =>
      simp only [hmrv]
      have hspec := b.getMrvCell_some_spec hWF hmrv
      have hEmpty : b.val p.1 p.2 = none := hspec.2.2.1
      have hcand : (b1.getCell p.1 p.2).possibleValues = b.possCanon p.1 p.2 := by
        rw [hspec.2.2.2]
      have hfuel2 : b.emptyPositions.length ≤ fuel := Nat.lt_succ_iff.mp hlen
      have hfold : ∀ (vs : List Nat), (∀ v ∈ vs, v ∈ b.possCanon p.1 p.2) →
          ∀ (st : Bool × Board), st.1 = false → vEq st.2 b →
          (1 ≤ (vs.map (fun v =>
              (b.place p.1 p.2 (some v)).countCompletions)).sum →
            (vs.foldl (solveStep (fun bb => solveBT fuel bb) p.1 p.2) st).1 = true ∧
            (vs.foldl (solveStep (fun bb => solveBT fuel bb) p.1 p.2)
              st).2.emptyPositions = [] ∧
            (vs.foldl (solveStep (fun bb => solveBT fuel bb) p.1 p.2)
              st).2.isValid = true ∧
            (vs.foldl (solveStep (fun bb => solveBT fuel bb) p.1 p.2)
              st).2.Extends b) ∧
          ((vs.map (fun v =>
              (b.place p.1 p.2 (some v)).countCompletions)).sum = 0 →
            (vs.foldl (solveStep (fun bb => solveBT fuel bb) p.1 p.2) st).1 = false ∧
            vEq (vs.foldl (solveStep (fun bb => solveBT fuel bb) p.1 p.2) st).2 b) := by
        intro vs
        induction vs with
        | nil =>
          intro _ st hst1 hst2
          constructor
          · intro habs
            simp at habs
          · intro _
            exact ⟨hst1, hst2⟩
        | cons v vs ihv =>
          intro hvs st hst1 hst2
          rw [List.foldl_cons]
          have hvmem := hvs v (List.mem_cons_self _ _)
          have hplv : vEq (st.2.place p.1 p.2 (some v)) (b.place p.1 p.2 (some v)) :=
            hst2.place p.1 p.2 (some v)
          have hWFst : st.2.WF := hst2.WF_of hWF
          have hWFpl : (st.2.place p.1 p.2 (some v)).WF :=
            st.2.WF_place p.1 p.2 (some v) hWFst
          have hWFpl0 : (b.place p.1 p.2 (some v)).WF :=
            b.WF_place p.1 p.2 (some v) hWF
          have hfr : (st.2.place p.1 p.2 (some v)).fullRefresh =
              (b.place p.1 p.2 (some v)).fullRefresh :=
            Board.fullRefresh_eq_of_vEq hWFpl hplv
          have hveqfr : vEq (b.place p.1 p.2 (some v)).fullRefresh
              (b.place p.1 p.2 (some v)) := vEq.fullRefresh_left _
          have hvalpl : (b.place p.1 p.2 (some v)).isValid = true := by
            rw [b.isValid_place_iff hWF hspec.1 hspec.2.1 hEmpty hval v]
            exact ((b.mem_possCanon_of_empty hEmpty v).mp hvmem).2
          have hlen2 : (b.place p.1 p.2 (some v)).emptyPositions.length + 1 =
              b.emptyPositions.length := by
            rw [b.emptyPositions_place hWF hspec.1 hspec.2.1 v]
            exact length_filter_ne_of_mem
              ((b.mem_emptyPositions (p.1, p.2)).mpr ⟨hspec.1, hspec.2.1, hEmpty⟩)
              b.nodup_emptyPositions
          have hcc : (b.place p.1 p.2 (some v)).fullRefresh.countCompletions =
              (b.place p.1 p.2 (some v)).countCompletions := by
            unfold Board.countCompletions
            rw [hveqfr.emptyPositions_eq, hveqfr.countAssign_eq]
          have hrec := ih (b.place p.1 p.2 (some v)).fullRefresh
            (Board.WF_fullRefresh _ hWFpl0)
            (by rw [hveqfr.emptyPositions_eq]; omega)
            (by rw [hveqfr.isValid_eq]; exact hvalpl)
          have hstep : solveStep (fun bb => solveBT fuel bb) p.1 p.2 st v =
              (let res := solveBT fuel ((st.2.place p.1 p.2 (some v)).fullRefresh)
               if res.1 then res
               else (false, (res.2.place p.1 p.2 none).fullRefresh)) := by
            unfold solveStep
            rw [if_neg (by rw [hst1]; simp)]
          rcases Nat.eq_zero_or_pos
              (b.place p.1 p.2 (some v)).countCompletions with hz | hpos
          · have hfail := hrec.2 (by rw [hcc]; exact hz)
            have hres1 : (solveBT fuel
                ((st.2.place p.1 p.2 (some v)).fullRefresh)).1 = false := by
              rw [hfr]
              exact hfail.1
            have hresb : vEq (solveBT fuel
                ((st.2.place p.1 p.2 (some v)).fullRefresh)).2
                (b.place p.1 p.2 (some v)) := by
              rw [hfr]
              exact hfail.2.trans hveqfr
            rw [hstep]
            simp only [hres1, Bool.false_eq_true, if_false]
            have hnext : vEq ((solveBT fuel
                ((st.2.place p.1 p.2 (some v)).fullRefresh)).2.place
                  p.1 p.2 none).fullRefresh b := by
              have h1 : vEq ((solveBT fuel
                  ((st.2.place p.1 p.2 (some v)).fullRefresh)).2.place
                    p.1 p.2 none) b := by
                apply vEq_step_restore p.1 p.2 v hst2 hEmpty
                exact hresb.trans (hst2.place p.1 p.2 (some v)).symm
              exact (vEq.fullRefresh_left _).trans h1
            have := ihv (fun w hw => hvs w (List.mem_cons_of_mem _ hw))
              (false, ((solveBT fuel
                ((st.2.place p.1 p.2 (some v)).fullRefresh)).2.place
                  p.1 p.2 none).fullRefresh) rfl hnext
            constructor
            · intro hsum
              apply this.1
              simp only [List.map_cons, List.sum_cons] at hsum
              omega
            · intro hsum
              apply this.2
              simp only [List.map_cons, List.sum_cons] at hsum
              omega
          · have hok := hrec.1 (by rw [hcc]; omega)
            have hres1 : (solveBT fuel
                ((st.2.place p.1 p.2 (some v)).fullRefresh)).1 = true := by
              rw [hfr]
              exact hok.1
            rw [hstep]
            simp only [hres1, if_true]
            rw [solveFold_skip _ _ _ _ _ hres1]
            constructor
            · intro _
              refine ⟨hres1, ?_, ?_, ?_⟩
              · rw [hfr]
                exact hok.2.1
              · rw [hfr]
                exact hok.2.2.1
              · rw [hfr]
                apply Board.Extends_of_place hEmpty
                exact Board.Extends_trans_vEq hok.2.2.2 hveqfr
            · intro hsum
              simp only [List.map_cons, List.sum_cons] at hsum
              omega
      have hfold2 := hfold (possSorted ((b1.getCell p.1 p.2).possibleValues))
        (by
          intro v hv
          rw [hcand] at hv
          exact (mem_possSorted _ v).mp hv)
        (false, b1) rfl hb1
      have hsum : ((possSorted ((b1.getCell p.1 p.2).possibleValues)).map
          (fun v => (b.place p.1 p.2 (some v)).countCompletions)).sum =
          b.countCompletions := by
        rw [hcand]
        exact (b.countCompletions_candidates hWF hspec.1 hspec.2.1 hEmpty).symm
      constructor
      · intro hcc
        exact hfold2.1 (by rw [hsum]; exact hcc)
      · intro hcc
        exact hfold2.2 (by rw [hsum]; exact hcc)

/-- SudokuSolver.solve on a well-formed valid solvable board: success,
and the solver's board is complete, valid and preserves the clues.  The
caller's board is untouched: solve works on the deep copy set_board
makes (in this embedding, the input board value itself is unchanged by
construction). -/
theorem solverSolve_spec (b : Board) (hWF : b.WF) (hval : b.isValid = true)
    (hcc : 1 ≤ b.countCompletions) :
    (solverSolve b).1 = true ∧ (solverSolve b).2.emptyPositions = [] ∧
    (solverSolve b).2.isValid = true ∧ (solverSolve b).2.Extends b := by
  unfold solverSolve Board.copy
  exact (solveBT_spec (b.size * b.size + 1) b hWF
    (Nat.lt_succ_of_le b.emptyPositions_length_le) hval).1 hcc

/-! ## Generator: clue removal and recovery -/

theorem Board.val_place (b : Board) (r c : Nat) (v : Option Nat) (x y : Nat) :
    (b.place r c v).val x y =
      if b.idx x y = b.idx r c ∧ b.idx r c < b.cells.length then v
      else b.val x y := by
  by_cases h1 : b.idx x y = b.idx r c
  · by_cases h2 : b.idx r c < b.cells.length
    · rw [if_pos ⟨h1, h2⟩]
      have hxy : (b.place r c v).val x y = (b.place r c v).val r c := by
        unfold Board.val Board.getCell
        rw [show (b.place r c v).idx x y = b.idx x y from rfl,
          show (b.place r c v).idx r c = b.idx r c from rfl, h1]
      rw [hxy, b.val_place_self r c v h2]
    · rw [if_neg (fun hh => h2 hh.2)]
      unfold Board.val Board.getCell Board.place
      simp only
      rw [getD_set_oob _ _ _ _ _ h2]
      rfl
  · rw [if_neg (fun hh => h1 hh.1)]
    exact b.val_place_ne r c v x y h1

theorem length_filter_mono {α} (l : List α) (p q : α → Bool)
    (h : ∀ x ∈ l, p x = true → q x = true) :
    (l.filter p).length ≤ (l.filter q).length := by
  induction l with
  | nil => simp
  | cons x t ih =>
    have iht := ih (fun y hy => h y (List.mem_cons_of_mem _ hy))
    cases hp : p x
    · rw [List.filter_cons_of_neg (by simp [hp])]
      cases hq : q x
      · rw [List.filter_cons_of_neg (by simp [hq])]
        exact iht
      · rw [List.filter_cons_of_pos (by simp [hq])]
        exact Nat.le_succ_of_le iht
    · rw [List.filter_cons_of_pos (by simp [hp]),
        List.filter_cons_of_pos (by simp [h x (List.mem_cons_self _ _) hp])]
      simpa using iht

/-- Restoring a clue (placing some value) never decreases the number of
filled cells. -/
theorem Board.filledCount_place_some_ge (b : Board) (r c v : Nat) :
    b.filledCount ≤ (b.place r c (some v)).filledCount := by
  unfold Board.filledCount Board.filledPositions
  rw [show (b.place r c (some v)).positionsList = b.positionsList from rfl]
  apply length_filter_mono
  intro q _ hq
  rw [Bool.not_eq_true'] at hq ⊢
  unfold Board.isEmptyAt at hq ⊢
  rw [Board.val_place]
  split
  · simp
  · exact hq

theorem Board.filledPositions_place_none (b : Board) (hWF : b.WF) {r c : Nat}
    (hr : r < b.size) (hc : c < b.size) :
    (b.place r c none).filledPositions =
      b.filledPositions.filter (fun q => decide (q ≠ (r, c))) := by
  unfold Board.filledPositions
  rw [show (b.place r c none).positionsList = b.positionsList from rfl,
    List.filter_filter]
  apply List.filter_congr
  intro q hq
  have hqb := (b.mem_positionsList q).mp hq
  by_cases hqrc : q = (r, c)
  · subst hqrc
    unfold Board.isEmptyAt
    rw [b.val_place_self r c none (b.idx_lt hWF hr hc)]
    simp
  · unfold Board.isEmptyAt
    rw [b.val_place_ne r c none q.1 q.2 (by
      intro hidx
      rcases b.idx_inj hqb.2 hc hidx with ⟨h1, h2⟩
      exact hqrc (Prod.ext h1 h2))]
    simp [hqrc]

theorem Board.filledCount_place_none (b : Board) (hWF : b.WF) {r c : Nat}
    (hr : r < b.size) (hc : c < b.size) (hfill : b.isEmptyAt r c = false) :
    (b.place r c none).filledCount + 1 = b.filledCount := by
  unfold Board.filledCount
  rw [b.filledPositions_place_none hWF hr hc]
  apply length_filter_ne_of_mem _ b.nodup_filledPositions
  rw [Board.mem_filledPositions]
  refine ⟨hr, hc, ?_⟩
  unfold Board.isEmptyAt at hfill
  cases hv : b.val r c
  · rw [hv] at hfill
    cases hfill
  · rfl

theorem vEq.foldErase_left (ps : List (Nat × Nat)) : ∀ (b : Board) (v : Nat),
    vEq (ps.foldl (erasePossAt v) b) b := by
  induction ps with
  | nil => intro b v; exact vEq.refl b
  | cons p ps ih =>
    intro b v
    have hstep : vEq (erasePossAt v b p) b := by
      unfold erasePossAt
      split
      · exact vEq.setPoss_left b p.1 p.2 _
      · exact vEq.refl b
    exact (ih (erasePossAt v b p) v).trans hstep

/-- _update_affected_cells never changes any cell value. -/
theorem vEq.updateAffectedCells_left (b : Board) (r c : Nat) :
    vEq (b.updateAffectedCells r c) b := by
  unfold Board.updateAffectedCells
  split
  · exact vEq.updateCellPoss_left b r c
  · exact ((vEq.foldErase_left _ _ _).trans (vEq.foldErase_left _ _ _)).trans
      (vEq.foldErase_left _ _ _)

/-- The removal phase: removes exactly as many clues as the quota allows
(one per listed position, all distinct and filled), and every recorded
value is non-None. -/
theorem removePhaseGo_spec (ps : List (Nat × Nat)) :
    ∀ (b : Board) (acc : List ((Nat × Nat) × Option Nat)) (target : Nat),
    b.WF → ps.Nodup →
    (∀ p ∈ ps, p.1 < b.size ∧ p.2 < b.size ∧ b.isEmptyAt p.1 p.2 = false) →
    acc.length ≤ target → (∀ e ∈ acc, e.2.isSome = true) →
    (removePhaseGo target ps b acc).2.length = min target (acc.length + ps.length) ∧
    (removePhaseGo target ps b acc).1.filledCount +
      ((removePhaseGo target ps b acc).2.length - acc.length) = b.filledCount ∧
    (∀ e ∈ (removePhaseGo target ps b acc).2, e.2.isSome = true) := by
  induction ps with
  | nil =>
    intro b acc target _ _ _ hle hsome
    refine ⟨?_, ?_, hsome⟩
    · show acc.length = min target (acc.length + 0)
      omega
    · show b.filledCount + (acc.length - acc.length) = b.filledCount
      omega
  | cons p ps ih =>
    intro b acc target hWF hnd hps hle hsome
    have hp := hps p (List.mem_cons_self _ _)
    by_cases hcap : target ≤ acc.length
    · rw [show removePhaseGo target (p :: ps) b acc = (b, acc) from by
        unfold removePhaseGo
        rw [if_pos hcap]]
      refine ⟨by simp only; omega, by simp only; omega, hsome⟩
    · have hstep : removePhaseGo target (p :: ps) b acc =
          removePhaseGo target ps ((b.place p.1 p.2 none).updateAffectedCells p.1 p.2)
            (acc ++ [(p, b.val p.1 p.2)]) := by
        conv_lhs => unfold removePhaseGo
        rw [if_neg hcap, if_neg (by rw [hp.2.2]; simp)]
      rw [hstep]
      set b1 := (b.place p.1 p.2 none).updateAffectedCells p.1 p.2 with hb1
      have hveq : vEq b1 (b.place p.1 p.2 none) :=
        vEq.updateAffectedCells_left _ p.1 p.2
      have hWF1 : b1.WF := hveq.WF_of (b.WF_place p.1 p.2 none hWF)
      have hsz1 : b1.size = b.size := hveq.1
      have hfc1 : b1.filledCount + 1 = b.filledCount := by
        rw [hveq.filledCount_eq]
        exact b.filledCount_place_none hWF hp.1 hp.2.1 hp.2.2
      have hvsome : (b.val p.1 p.2).isSome = true := by
        have := hp.2.2
        unfold Board.isEmptyAt at this
        cases hv : b.val p.1 p.2
        · rw [hv] at this
          cases this
        · rfl
      have hrec := ih b1 (acc ++ [(p, b.val p.1 p.2)]) target hWF1
        (List.nodup_cons.mp hnd).2
        (by
          intro q hq
          have hqb := hps q (List.mem_cons_of_mem _ hq)
          refine ⟨hsz1 ▸ hqb.1, hsz1 ▸ hqb.2.1, ?_⟩
          rw [hveq.isEmptyAt_eq]
          unfold Board.isEmptyAt
          rw [b.val_place_ne p.1 p.2 none q.1 q.2 (by
            intro hidx
            rcases b.idx_inj hqb.2.1 hp.2.1 hidx with ⟨h1, h2⟩
            exact (List.nodup_cons.mp hnd).1 (Prod.ext h1.symm h2.symm ▸ hq))]
          exact hqb.2.2)
        (by rw [List.length_append]; simpa using Nat.lt_of_not_le hcap)
        (by
          intro e he
          rcases List.mem_append.mp he with he | he
          · exact hsome e he
          · rw [List.mem_singleton.mp he]
            exact hvsome)
      rcases hrec with ⟨h1, h2, h3⟩
      rw [List.length_append] at h1 h2
      simp only [List.length_singleton] at h1 h2
      refine ⟨?_, ?_, h3⟩
      · rw [h1]
        simp only [List.length_cons]
        omega
      · have hlenge : acc.length + 1 ≤
            (removePhaseGo target ps b1 (acc ++ [(p, b.val p.1 p.2)])).2.length := by
          rw [h1]
          have : acc.length + 1 ≤ target := Nat.lt_of_not_le hcap
          omega
        omega

/-- Each recovery step restores one clue; success never loses filled
cells relative to the board recovery started from. -/
theorem recoverGo_mono (rl : List ((Nat × Nat) × Option Nat)) :
    ∀ (b : Board), (∀ e ∈ rl, e.2.isSome = true) →
    (recoverGo rl b).2 = true → b.filledCount ≤ (recoverGo rl b).1.filledCount := by
  induction rl with
  | nil =>
    intro b _ h
    cases h
  | cons e rl ih =>
    intro b hsome h
    rcases e with ⟨p, v⟩
    rcases Option.isSome_iff_exists.mp (hsome (p, v) (List.mem_cons_self _ _))
      with ⟨w, hw⟩
    subst hw
    have hveq : vEq ((b.place p.1 p.2 (some w)).updateAffectedCells p.1 p.2)
        (b.place p.1 p.2 (some w)) := vEq.updateAffectedCells_left _ p.1 p.2
    have hmono : b.filledCount ≤
        ((b.place p.1 p.2 (some w)).updateAffectedCells p.1 p.2).filledCount := by
      rw [hveq.filledCount_eq]
      exact b.filledCount_place_some_ge p.1 p.2 w
    by_cases hcond : ((b.place p.1 p.2 (some w)).updateAffectedCells
        p.1 p.2).countSolutions 2 = 1
    · rw [show recoverGo ((p, some w) :: rl) b =
          ((b.place p.1 p.2 (some w)).updateAffectedCells p.1 p.2, true) from by
        conv_lhs => unfold recoverGo
        rw [if_pos hcond]]
      exact hmono
    · rw [show recoverGo ((p, some w) :: rl) b =
          recoverGo rl ((b.place p.1 p.2 (some w)).updateAffectedCells p.1 p.2) from by
        conv_lhs => unfold recoverGo
        rw [if_neg hcond]] at h ⊢
      exact Nat.le_trans hmono
        (ih _ (fun x hx => hsome x (List.mem_cons_of_mem _ hx)) h)

theorem length_filter_add_length_not {α} (l : List α) (p : α → Bool) :
    (l.filter p).length + (l.filter (fun x => !(p x))).length = l.length := by
  induction l with
  | nil => rfl
  | cons x t ih =>
    cases hp : p x
    · rw [List.filter_cons_of_neg (by simp [hp]),
        List.filter_cons_of_pos (by simp [hp])]
      simp only [List.length_cons]
      omega
    · rw [List.filter_cons_of_pos (by simp [hp]),
        List.filter_cons_of_neg (by simp [hp])]
      simp only [List.length_cons]
      omega

/-- A completely filled board has size * size filled cells. -/
theorem Board.filledCount_of_full (b : Board) (hfull : b.emptyPositions = []) :
    b.filledCount = b.size * b.size := by
  have h := length_filter_add_length_not b.positionsList
    (fun p => b.isEmptyAt p.1 p.2)
  have he : (b.positionsList.filter (fun p => b.isEmptyAt p.1 p.2)).length = 0 := by
    rw [show b.positionsList.filter (fun p => b.isEmptyAt p.1 p.2) =
      b.emptyPositions from rfl, hfull]
    rfl
  unfold Board.filledCount Board.filledPositions
  rw [← b.length_positionsList]
  omega

theorem insertByKeyDesc_perm (key : (Nat × Nat) → Nat) (x : Nat × Nat) :
    ∀ l : List (Nat × Nat), List.Perm (insertByKeyDesc key x l) (x :: l) := by
  intro l
  induction l with
  | nil => exact List.Perm.refl _
  | cons y ys ih =>
    unfold insertByKeyDesc
    split
    · exact List.Perm.refl _
    · exact (ih.cons y).trans (List.Perm.swap x y ys)

theorem sortFold_perm (key : (Nat × Nat) → Nat) :
    ∀ (l acc : List (Nat × Nat)),
    List.Perm (l.foldl (fun a x => insertByKeyDesc key x a) acc) (acc ++ l) := by
  intro l
  induction l with
  | nil => intro acc; simp
  | cons x xs ih =>
    intro acc
    rw [List.foldl_cons]
    refine (ih (insertByKeyDesc key x acc)).trans ?_
    refine (List.Perm.append_right xs (insertByKeyDesc_perm key x acc)).trans ?_
    show List.Perm (x :: (acc ++ xs)) (acc ++ x :: xs)
    exact List.perm_middle.symm

theorem sortByKeyDesc_perm (key : (Nat × Nat) → Nat) (l : List (Nat × Nat)) :
    List.Perm (sortByKeyDesc key l) l := by
  unfold sortByKeyDesc
  simpa using sortFold_perm key l []

/-- What _remove_clues_optimized guarantees when it reports success on a
completely filled well-formed board: at least min(num_clues, size²)
clues remain (exactly num_clues when no recovery was needed; recovery
only adds clues back). -/
theorem removeCluesOptimized_spec (b : Board) (hWF : b.WF)
    (hfull : b.emptyPositions = []) (n : Nat) :
    (removeCluesOptimized b n).2 = true →
    min n (b.size * b.size) ≤ (removeCluesOptimized b n).1.filledCount := by
  intro hok
  have hfc : b.filledCount = b.size * b.size := b.filledCount_of_full hfull
  have hlenfp : b.filledPositions.length = b.size * b.size := hfc
  unfold removeCluesOptimized at hok ⊢
  by_cases hle : b.filledPositions.length ≤ n
  · rw [if_pos hle]
    simp only
    rw [hfc]
    omega
  · rw [if_neg hle] at hok ⊢
    simp only at hok ⊢
    set sorted := sortByKeyDesc (fun p => scoreRemovalSafety b p) b.filledPositions
      with hsorted
    have hperm : List.Perm sorted b.filledPositions := sortByKeyDesc_perm _ _
    have hspec := removePhaseGo_spec sorted b [] (b.filledPositions.length - n)
      hWF (hperm.nodup_iff.mpr b.nodup_filledPositions)
      (by
        intro p hp
        have hpm := (b.mem_filledPositions p).mp (hperm.mem_iff.mp hp)
        refine ⟨hpm.1, hpm.2.1, ?_⟩
        unfold Board.isEmptyAt
        cases hv : b.val p.1 p.2
        · rw [hv] at hpm
          cases hpm.2.2
        · rfl)
      (Nat.zero_le _) (by intro e he; cases he)
    rcases hspec with ⟨hlen, hcount, hsome⟩
    have hlensorted : sorted.length = b.filledPositions.length := hperm.length_eq
    rw [List.length_nil, Nat.zero_add, hlensorted] at hlen
    have hlen2 : (removePhaseGo (b.filledPositions.length - n) sorted b []).2.length
        = b.filledPositions.length - n := by
      rw [hlen]
      omega
    have hfc2 : (removePhaseGo (b.filledPositions.length - n) sorted b
        []).1.filledCount = n := by
      rw [List.length_nil] at hcount
      omega
    split at hok
    · rename (removePhaseGo _ _ _ _).1.countSolutions 2 = 1 => hone
      rw [if_pos hone]
      simp only
      omega
    · rename ¬ (removePhaseGo _ _ _ _).1.countSolutions 2 = 1 => hone
      rw [if_neg hone]
      have hmono := recoverGo_mono
        (removePhaseGo (b.filledPositions.length - n) sorted b []).2.reverse
        (removePhaseGo (b.filledPositions.length - n) sorted b []).1
        (by
          intro e he
          exact hsome e (List.mem_reverse.mp he))
        hok
      rw [hfc2] at hmono
      omega

/-- One generate_puzzle attempt, amended: when an attempt starting from
a complete well-formed solution board accepts, the returned puzzle has
exactly one solution and at least num_clues filled cells (exactly
num_clues unless the recovery step put clues back). -/
theorem generatePuzzleAttempt_spec (s : Board) (hWF : s.WF)
    (hfull : s.emptyPositions = []) (n : Nat) (hn2 : n ≤ s.size * s.size)
    {b : Board} (h : generatePuzzleAttempt s n = some b) :
    b.countSolutions 2 = 1 ∧ n ≤ b.filledCount := by
  unfold generatePuzzleAttempt Board.copy at h
  by_cases hg : (removeCluesOptimized s n).2 &&
      decide ((removeCluesOptimized s n).1.countSolutions 2 = 1)
  · rw [if_pos hg] at h
    have hb : (removeCluesOptimized s n).1 = b := Option.some.inj h
    rcases Bool.and_eq_true_iff.mp hg with ⟨h1, h2⟩
    refine ⟨?_, ?_⟩
    · rw [← hb]
      exact of_decide_eq_true h2
    · rw [← hb]
      have := removeCluesOptimized_spec s hWF hfull n h1
      omega
  · rw [if_neg hg] at h
    cases h

/-! ## Board.remove_clues -/

/-- count_solutions only looks at cell values. -/
theorem vEq.countSolutions_eq {x y : Board} (hWF : x.WF) (h : vEq x y)
    (m : Nat) : x.countSolutions m = y.countSolutions m := by
  unfold Board.countSolutions Board.copy
  rw [Board.fullRefresh_eq_of_vEq hWF h, h.1]

theorem vEq_place_place (y : Board) (r c : Nat) (w1 w2 : Option Nat) :
    vEq ((y.place r c w1).place r c w2) (y.place r c w2) := by
  refine ⟨rfl, rfl, ?_⟩
  show List.map Cell.value (((y.place r c w1).cells).set
      ((y.place r c w1).idx r c) (((y.place r c w1).getCell r c).setValue w2)) =
    List.map Cell.value ((y.cells).set (y.idx r c) ((y.getCell r c).setValue w2))
  rw [List.map_set, List.map_set, Cell.setValue_value, Cell.setValue_value,
    Board.idx_place]
  show ((y.cells.set (y.idx r c) _).map Cell.value).set (y.idx r c) w2 = _
  rw [List.map_set, List.set_set]

/-- Putting a cell's own value back does not change the values. -/
theorem vEq.place_val_left (y : Board) (r c : Nat) :
    vEq (y.place r c (y.val r c)) y := by
  refine ⟨rfl, rfl, ?_⟩
  show List.map Cell.value ((y.cells).set (y.idx r c)
      ((y.getCell r c).setValue (y.val r c))) = List.map Cell.value y.cells
  rw [List.map_set, Cell.setValue_value]
  by_cases hlen : y.idx r c < y.cells.length
  · have : y.val r c = (y.cells.map Cell.value).getD (y.idx r c) none :=
      y.val_eq_mapGetD r c
    rw [this, set_getD_self]
    simpa using hlen
  · rw [List.set_eq_of_length_le]
    simpa using Nat.le_of_not_lt hlen

/-- The removal loop of remove_clues: the self board tracks the working
copy's values, never removes more than the quota, loses exactly one
filled cell per recorded removal, every state recorded right after a
committed removal has exactly one solution, and the final self board is
either untouched or itself has exactly one solution. -/
theorem removeCluesGo_spec (ps : List (Nat × Nat)) :
    ∀ (selfB copyB : Board) (removed : List (Nat × Nat)) (trace : List Board)
      (target : Nat),
    selfB.WF → vEq selfB copyB → ps.Nodup →
    (∀ p ∈ ps, p.1 < selfB.size ∧ p.2 < selfB.size ∧
      selfB.isEmptyAt p.1 p.2 = false) →
    removed.length ≤ target → (∀ x ∈ trace, x.countSolutions 2 = 1) →
    (removeCluesGo target ps selfB copyB removed trace).2.2.1.length ≤ target ∧
    removed.length ≤ (removeCluesGo target ps selfB copyB removed trace).2.2.1.length ∧
    (removeCluesGo target ps selfB copyB removed trace).1.filledCount +
      ((removeCluesGo target ps selfB copyB removed trace).2.2.1.length -
        removed.length) = selfB.filledCount ∧
    (∀ x ∈ (removeCluesGo target ps selfB copyB removed trace).2.2.2,
      x.countSolutions 2 = 1) ∧
    ((removeCluesGo target ps selfB copyB removed trace).1 = selfB ∨
      (removeCluesGo target ps selfB copyB removed trace).1.countSolutions 2 = 1) := by
  induction ps with
  | nil =>
    intro selfB copyB removed trace target _ _ _ _ hle htr
    rw [show removeCluesGo target [] selfB copyB removed trace =
      (selfB, copyB, removed, trace) from rfl]
    exact ⟨hle, Nat.le_refl _, by simp, htr, Or.inl rfl⟩
  | cons p ps ih =>
    intro selfB copyB removed trace target hWF hveq hnd hps hle htr
    have hp := hps p (List.mem_cons_self _ _)
    by_cases hcap : target ≤ removed.length
    · rw [show removeCluesGo target (p :: ps) selfB copyB removed trace =
          (selfB, copyB, removed, trace) from by
        conv_lhs => unfold removeCluesGo
        rw [if_pos hcap]]
      exact ⟨hle, Nat.le_refl _, by simp, htr, Or.inl rfl⟩
    · have hfillp : copyB.isEmptyAt p.1 p.2 = false := by
        rw [← hveq.isEmptyAt_eq]
        exact hp.2.2
      by_cases hone : ((copyB.place p.1 p.2 none).fullRefresh).countSolutions 2 = 1
      · rw [show removeCluesGo target (p :: ps) selfB copyB removed trace =
            removeCluesGo target ps
              ((selfB.place p.1 p.2 none).updateCellPoss p.1 p.2)
              ((copyB.place p.1 p.2 none).fullRefresh) (removed ++ [p])
              (trace ++ [(selfB.place p.1 p.2 none).updateCellPoss p.1 p.2]) from by
          conv_lhs => unfold removeCluesGo
          rw [if_neg hcap, if_pos hone]]
        set s1 := (selfB.place p.1 p.2 none).updateCellPoss p.1 p.2 with hs1
        set c1 := (copyB.place p.1 p.2 none).fullRefresh with hc1
        have hveqs1 : vEq s1 (selfB.place p.1 p.2 none) :=
          vEq.updateCellPoss_left _ p.1 p.2
        have hveqc1 : vEq c1 (copyB.place p.1 p.2 none) := vEq.fullRefresh_left _
        have hveq1 : vEq s1 c1 :=
          (hveqs1.trans (hveq.place p.1 p.2 none)).trans hveqc1.symm
        have hWF1 : s1.WF := hveqs1.WF_of (selfB.WF_place p.1 p.2 none hWF)
        have hsz1 : s1.size = selfB.size := hveqs1.1
        have hfc1 : s1.filledCount + 1 = selfB.filledCount := by
          rw [hveqs1.filledCount_eq]
          exact selfB.filledCount_place_none hWF hp.1 hp.2.1 hp.2.2
        have hs1one : s1.countSolutions 2 = 1 := by
          rw [hveq1.countSolutions_eq hWF1]
          exact hone
        have hrec := ih s1 c1 (removed ++ [p])
          (trace ++ [s1]) target hWF1 hveq1 (List.nodup_cons.mp hnd).2
          (by
            intro q hq
            have hqb := hps q (List.mem_cons_of_mem _ hq)
            refine ⟨hsz1 ▸ hqb.1, hsz1 ▸ hqb.2.1, ?_⟩
            rw [hveqs1.isEmptyAt_eq]
            unfold Board.isEmptyAt
            rw [selfB.val_place_ne p.1 p.2 none q.1 q.2 (by
              intro hidx
              rcases selfB.idx_inj hqb.2.1 hp.2.1 hidx with ⟨h1, h2⟩
              exact (List.nodup_cons.mp hnd).1 (Prod.ext h1.symm h2.symm ▸ hq))]
            exact hqb.2.2)
          (by rw [List.length_append]; simpa using Nat.lt_of_not_le hcap)
          (by
            intro x hx
            rcases List.mem_append.mp hx with hx | hx
            · exact htr x hx
            · rw [List.mem_singleton.mp hx]
              exact hs1one)
        rcases hrec with ⟨r1, r2, r3, r4, r5⟩
        rw [List.length_append] at r2 r3
        simp only [List.length_singleton] at r2 r3
        refine ⟨r1, by omega, by omega, r4, ?_⟩
        rcases r5 with r5 | r5
        · right
          rw [r5]
          exact hs1one
        · right
          exact r5
      · rw [show removeCluesGo target (p :: ps) selfB copyB removed trace =
            removeCluesGo target ps selfB
              ((((copyB.place p.1 p.2 none).fullRefresh).place p.1 p.2
                (copyB.val p.1 p.2)).updateCellPoss p.1 p.2) removed trace from by
          conv_lhs => unfold removeCluesGo
          rw [if_neg hcap, if_neg hone]]
        apply ih selfB _ removed trace target hWF _ (List.nodup_cons.mp hnd).2
          (fun q hq => hps q (List.mem_cons_of_mem _ hq)) hle htr
        have h1 : vEq ((((copyB.place p.1 p.2 none).fullRefresh).place p.1 p.2
            (copyB.val p.1 p.2)).updateCellPoss p.1 p.2)
            (((copyB.place p.1 p.2 none).fullRefresh).place p.1 p.2
              (copyB.val p.1 p.2)) := vEq.updateCellPoss_left _ p.1 p.2
        have h2 : vEq (((copyB.place p.1 p.2 none).fullRefresh).place p.1 p.2
            (copyB.val p.1 p.2))
            ((copyB.place p.1 p.2 none).place p.1 p.2 (copyB.val p.1 p.2)) :=
          (vEq.fullRefresh_left _).place p.1 p.2 (copyB.val p.1 p.2)
        have h3 : vEq ((copyB.place p.1 p.2 none).place p.1 p.2
            (copyB.val p.1 p.2)) (copyB.place p.1 p.2 (copyB.val p.1 p.2)) :=
          vEq_place_place copyB p.1 p.2 none (copyB.val p.1 p.2)
        have h4 : vEq (copyB.place p.1 p.2 (copyB.val p.1 p.2)) copyB :=
          vEq.place_val_left copyB p.1 p.2
        exact hveq.trans (((h1.trans h2).trans h3).trans h4).symm

/-- Board.remove_clues with a successful outcome: the board ends with
exactly num_clues filled cells; when removals were actually needed the
final board has exactly one solution; and every intermediate state
recorded right after a committed removal has exactly one solution. -/
theorem Board.removeClues_spec (b : Board) (hWF : b.WF) (n : Nat)
    (shuffled : List (Nat × Nat))
    (hperm : List.Perm shuffled b.filledPositions) {b' : Board}
    (h : b.removeClues n shuffled = .ok (b', true)) :
    b'.filledCount = n ∧
    (n < b.filledCount → b'.countSolutions 2 = 1) ∧
    (∀ x ∈ (removeCluesGo (b.filledPositions.length - n) shuffled b b.copy
      [] []).2.2.2, x.countSolutions 2 = 1) := by
  have hgo := removeCluesGo_spec shuffled b b.copy [] []
    (b.filledPositions.length - n) hWF (vEq.refl b)
    (hperm.nodup_iff.mpr b.nodup_filledPositions)
    (by
      intro p hp
      have hpm := (b.mem_filledPositions p).mp (hperm.mem_iff.mp hp)
      refine ⟨hpm.1, hpm.2.1, ?_⟩
      unfold Board.isEmptyAt
      cases hv : b.val p.1 p.2
      · rw [hv] at hpm
        cases hpm.2.2
      · rfl)
    (Nat.zero_le _) (by intro x hx; cases hx)
  rcases hgo with ⟨g1, g2, g3, g4, g5⟩
  simp only [List.length_nil, Nat.sub_zero] at g2 g3
  unfold Board.removeClues at h
  by_cases hz : n = 0
  · rw [if_pos hz] at h
    cases h
  · rw [if_neg hz] at h
    by_cases hbig : b.size * b.size < n
    · rw [if_pos hbig] at h
      cases h
    · rw [if_neg hbig] at h
      by_cases hle : b.filledPositions.length ≤ n
      · rw [if_pos hle] at h
        have hb : b = b' ∧ decide (b.filledPositions.length = n) = true := by
          have := Except.ok.inj h
          exact ⟨congrArg Prod.fst this, congrArg Prod.snd this⟩
        have hn : b.filledPositions.length = n := of_decide_eq_true hb.2
        refine ⟨?_, ?_, g4⟩
        · rw [← hb.1]
          exact hn
        · intro habs
          have hfc : b.filledCount = b.filledPositions.length := rfl
          omega
      · rw [if_neg hle] at h
        simp only at h
        have hb := Except.ok.inj h
        have hb1 : (removeCluesGo (b.filledPositions.length - n) shuffled b
            b.copy [] []).1 = b' := congrArg Prod.fst hb
        have hb2 : decide ((removeCluesGo (b.filledPositions.length - n) shuffled b
            b.copy [] []).2.2.1.length = b.filledPositions.length - n) = true :=
          congrArg Prod.snd hb
        have hlen : (removeCluesGo (b.filledPositions.length - n) shuffled b
            b.copy [] []).2.2.1.length = b.filledPositions.length - n :=
          of_decide_eq_true hb2
        have hfc : b.filledCount = b.filledPositions.length := rfl
        refine ⟨?_, ?_, g4⟩
        · rw [← hb1]
          omega
        · intro _
          rcases g5 with g5 | g5
          · exfalso
            have : (removeCluesGo (b.filledPositions.length - n) shuffled b
                b.copy [] []).1.filledCount = b.filledCount := by
              rw [g5]
            omega
          · rw [← hb1]
            exact g5

/-! ## Membership in the unit value lists -/

theorem Board.mem_rowVals (b : Board) (r w : Nat) :
    w ∈ b.rowVals r ↔ ∃ t, t < b.size ∧ b.val r t = some w := by
  unfold Board.rowVals
  simp only [List.mem_filterMap, List.mem_range]

theorem Board.mem_colVals (b : Board) (c w : Nat) :
    w ∈ b.colVals c ↔ ∃ t, t < b.size ∧ b.val t c = some w := by
  unfold Board.colVals
  simp only [List.mem_filterMap, List.mem_range]

theorem Board.mem_subgridValsAt_iff (b : Board) (sr sc w : Nat) :
    w ∈ b.subgridValsAt sr sc ↔
      ∃ p, p ∈ b.subgridPositions sr sc ∧ b.val p.1 p.2 = some w := by
  unfold Board.subgridValsAt
  simp only [List.mem_filterMap]

/-! ## The affected-cells-only candidate update (C3) -/

theorem erasePossAt_getCell_ne (b : Board) (v : Nat) (p : Nat × Nat)
    {x y : Nat} (h : b.idx x y ≠ b.idx p.1 p.2) :
    (erasePossAt v b p).getCell x y = b.getCell x y := by
  unfold erasePossAt
  split
  · exact b.getCell_setPoss_ne p.1 p.2 _ x y h
  · rfl

theorem erasePossAt_getCell_self (b : Board) (v : Nat) (p : Nat × Nat)
    (hlen : b.idx p.1 p.2 < b.cells.length)
    (hemp : b.isEmptyAt p.1 p.2 = true) :
    (erasePossAt v b p).getCell p.1 p.2 =
      ⟨b.val p.1 p.2, (b.getCell p.1 p.2).possibleValues.erase v⟩ := by
  unfold erasePossAt
  rw [if_pos hemp]
  exact b.getCell_setPoss_self p.1 p.2 _ hlen

theorem erasePossAt_vEq (b : Board) (v : Nat) (p : Nat × Nat) :
    vEq (erasePossAt v b p) b := by
  unfold erasePossAt
  split
  · exact vEq.setPoss_left b p.1 p.2 _
  · exact vEq.refl b

/-- One erase pass over a list of in-bounds positions: a visited empty
cell loses v from its candidate set, every other cell is untouched, no
value changes. -/
theorem Board.getCell_foldErase (v : Nat) (ps : List (Nat × Nat)) :
    ∀ (b : Board), b.WF → (∀ p ∈ ps, p.1 < b.size ∧ p.2 < b.size) →
    ∀ x y, x < b.size → y < b.size →
    (ps.foldl (erasePossAt v) b).getCell x y =
      if (x, y) ∈ ps ∧ b.isEmptyAt x y = true then
        ⟨b.val x y, (b.getCell x y).possibleValues.erase v⟩
      else b.getCell x y := by
  induction ps with
  | nil =>
    intro b _ _ x y _ _
    simp
  | cons p ps ih =>
    intro b hWF hps x y hx hy
    have hp := hps p (List.mem_cons_self _ _)
    have hstep : vEq (erasePossAt v b p) b := erasePossAt_vEq b v p
    have hWF1 : (erasePossAt v b p).WF := hstep.WF_of hWF
    have hsz1 : (erasePossAt v b p).size = b.size := hstep.1
    rw [List.foldl_cons]
    rw [ih (erasePossAt v b p) hWF1
      (fun q hq => by
        have hqb := hps q (List.mem_cons_of_mem _ hq)
        exact ⟨hsz1 ▸ hqb.1, hsz1 ▸ hqb.2⟩)
      x y (hsz1 ▸ hx) (hsz1 ▸ hy)]
    have hv1 : (erasePossAt v b p).val x y = b.val x y := hstep.val_eq x y
    have he1 : (erasePossAt v b p).isEmptyAt x y = b.isEmptyAt x y :=
      hstep.isEmptyAt_eq x y
    by_cases hxyp : (x, y) = p
    · have hpx : p = (x, y) := hxyp.symm
      subst hpx
      by_cases hemp : b.isEmptyAt x y = true
      · have hself : (erasePossAt v b (x, y)).getCell x y =
            ⟨b.val x y, (b.getCell x y).possibleValues.erase v⟩ :=
          erasePossAt_getCell_self b v (x, y) (b.idx_lt hWF hx hy) hemp
        by_cases hmem : (x, y) ∈ ps
        · rw [if_pos ⟨hmem, by rw [he1]; exact hemp⟩,
            if_pos ⟨List.mem_cons_self _ _, hemp⟩, hv1, hself]
          simp [Finset.erase_idem]
        · rw [if_neg (fun hh => hmem hh.1),
            if_pos ⟨List.mem_cons_self _ _, hemp⟩, hself]
      · have hid : erasePossAt v b (x, y) = b := by
          unfold erasePossAt
          rw [if_neg (by simpa using hemp)]
        rw [hid, if_neg (fun hh => hemp hh.2), if_neg (fun hh => hemp hh.2)]
    · have hne_idx : b.idx x y ≠ b.idx p.1 p.2 := by
        intro hidx
        rcases b.idx_inj hy hp.2 hidx with ⟨h1, h2⟩
        exact hxyp (Prod.ext h1 h2)
      have hgc : (erasePossAt v b p).getCell x y = b.getCell x y :=
        erasePossAt_getCell_ne b v p hne_idx
      rw [hgc, hv1, he1]
      have hmemiff : ((x, y) ∈ p :: ps) ↔ ((x, y) ∈ ps) := by
        constructor
        · intro h
          rcases List.mem_cons.mp h with h | h
          · exact absurd h hxyp
          · exact h
        · exact List.mem_cons_of_mem _
      by_cases hmem : (x, y) ∈ ps ∧ b.isEmptyAt x y = true
      · rw [if_pos hmem, if_pos ⟨hmemiff.mpr hmem.1, hmem.2⟩]
      · rw [if_neg hmem, if_neg (fun hh => hmem ⟨hmemiff.mp hh.1, hh.2⟩)]

/-- The three scan lists of _update_affected_cells cover exactly the
peers of (r, c). -/
theorem Board.mem_affectedList (b : Board) (hWF : b.WF) {r c : Nat}
    (hr : r < b.size) (hc : c < b.size) {x y : Nat} (hx : x < b.size)
    (hy : y < b.size) :
    ((x, y) ∈
      ((List.range b.size).filter (fun t => t != c)).map (fun t => (r, t)) ++
      ((List.range b.size).filter (fun t => t != r)).map (fun t => (t, c)) ++
      (b.subgridPositions (b.subTop r) (b.subTop c)).filter
        (fun q => q != (r, c))) ↔ b.isPeer r c x y := by
  unfold Board.isPeer
  simp only [List.mem_append, List.mem_map, List.mem_filter, List.mem_range,
    bne_iff_ne, ne_eq]
  constructor
  · rintro ((⟨t, ⟨ht, htc⟩, hteq⟩ | ⟨t, ⟨ht, htr⟩, hteq⟩) | ⟨hmem, hne⟩)
    · cases hteq
      refine ⟨Or.inl rfl, ?_⟩
      intro hcon
      cases hcon
      exact htc rfl
    · cases hteq
      refine ⟨Or.inr (Or.inl rfl), ?_⟩
      intro hcon
      cases hcon
      exact htr rfl
    · exact ⟨Or.inr (Or.inr hmem), hne⟩
  · rintro ⟨hor, hne⟩
    rcases hor with hxr | hyc | hmem
    · subst hxr
      left
      left
      refine ⟨y, ⟨hy, ?_⟩, rfl⟩
      intro hcon
      exact hne (by rw [hcon])
    · subst hyc
      left
      right
      refine ⟨x, ⟨hx, ?_⟩, rfl⟩
      intro hcon
      exact hne (by rw [hcon])
    · right
      exact ⟨hmem, hne⟩

/-- _update_affected_cells on a filled cell, pointwise: every empty peer
loses the cell's value from its candidate set, everything else is
untouched. -/
theorem Board.getCell_updateAffectedCells_some (b : Board) (hWF : b.WF)
    {r c v : Nat} (hr : r < b.size) (hc : c < b.size)
    (hval : b.val r c = some v) {x y : Nat} (hx : x < b.size)
    (hy : y < b.size) :
    (b.updateAffectedCells r c).getCell x y =
      if b.isPeer r c x y ∧ b.isEmptyAt x y = true then
        ⟨b.val x y, (b.getCell x y).possibleValues.erase v⟩
      else b.getCell x y := by
  have hL : b.updateAffectedCells r c =
      ((((List.range b.size).filter (fun t => t != c)).map (fun t => (r, t)) ++
        ((List.range b.size).filter (fun t => t != r)).map (fun t => (t, c)) ++
        (b.subgridPositions (b.subTop r) (b.subTop c)).filter
          (fun q => q != (r, c))).foldl (erasePossAt v) b) := by
    unfold Board.updateAffectedCells
    rw [hval]
    simp only [List.foldl_append]
  rw [hL]
  rw [b.getCell_foldErase v _ hWF
    (by
      intro p hp
      rcases List.mem_append.mp hp with hp | hp
      · rcases List.mem_append.mp hp with hp | hp
        · rcases List.mem_map.mp hp with ⟨t, htmem, hteq⟩
          have ht := List.mem_range.mp (List.mem_filter.mp htmem).1
          rw [← hteq]
          exact ⟨hr, ht⟩
        · rcases List.mem_map.mp hp with ⟨t, htmem, hteq⟩
          have ht := List.mem_range.mp (List.mem_filter.mp htmem).1
          rw [← hteq]
          exact ⟨ht, hc⟩
      · exact b.subgridPositions_bounds hWF (b.subTop_mem_starts hWF hr)
          (b.subTop_mem_starts hWF hc) (List.mem_filter.mp hp).1)
    x y hx hy]
  by_cases hcond : b.isPeer r c x y ∧ b.isEmptyAt x y = true
  · rw [if_pos ⟨(b.mem_affectedList hWF hr hc hx hy).mpr hcond.1, hcond.2⟩,
      if_pos hcond]
  · rw [if_neg (fun hh =>
      hcond ⟨(b.mem_affectedList hWF hr hc hx hy).mp hh.1, hh.2⟩),
      if_neg hcond]

theorem sdiff_insert_erase (a s : Finset Nat) (v : Nat) :
    a \ insert v s = (a \ s).erase v := by
  ext w
  simp only [Finset.mem_sdiff, Finset.mem_insert, Finset.mem_erase]
  tauto

/-- Placing v at the empty cell (r, c) adds exactly v to the restricted
value set of every peer. -/
theorem Board.restrictedValues_place_peer (b : Board) (hWF : b.WF)
    {r c : Nat} (hr : r < b.size) (hc : c < b.size)
    (hEmpty : b.val r c = none) (v : Nat) {x y : Nat} (hx : x < b.size)
    (hy : y < b.size) (hpeer : b.isPeer r c x y) :
    (b.place r c (some v)).restrictedValues x y =
      insert v (b.restrictedValues x y) := by
  have hlen := b.idx_lt hWF hr hc
  have hplace : ∀ a d : Nat, a < b.size → d < b.size →
      (b.place r c (some v)).val a d =
        if (a, d) = (r, c) then some v else b.val a d := by
    intro a d ha hd
    by_cases hq : (a, d) = (r, c)
    · have h1 : a = r := congrArg Prod.fst hq
      have h2 : d = c := congrArg Prod.snd hq
      rw [if_pos hq, h1, h2]
      exact b.val_place_self r c (some v) hlen
    · rw [if_neg hq]
      apply b.val_place_ne
      intro hidx
      rcases b.idx_inj hd hc hidx with ⟨h1, h2⟩
      exact hq (Prod.ext h1 h2)
  apply Finset.ext
  intro w
  rw [Finset.mem_insert, Board.mem_restrictedValues, Board.mem_restrictedValues]
  have hsz : (b.place r c (some v)).size = b.size := rfl
  have hsub : ∀ a d : Nat, (b.place r c (some v)).subgridPositions a d =
      b.subgridPositions a d := fun a d => rfl
  have hsubtop : ∀ a : Nat, (b.place r c (some v)).subTop a = b.subTop a :=
    fun a => rfl
  unfold Board.subgridVals
  rw [Board.mem_rowVals, Board.mem_colVals, Board.mem_subgridValsAt_iff,
    Board.mem_rowVals, Board.mem_colVals, Board.mem_subgridValsAt_iff,
    hsz, hsub, hsubtop, hsubtop]
  constructor
  · rintro (⟨t, ht, hvt⟩ | ⟨t, ht, hvt⟩ | ⟨p, hpmem, hvp⟩)
    · rw [hplace x t hx ht] at hvt
      by_cases hq : (x, t) = (r, c)
      · rw [if_pos hq] at hvt
        exact Or.inl (Option.some.inj hvt).symm
      · rw [if_neg hq] at hvt
        exact Or.inr (Or.inl ⟨t, ht, hvt⟩)
    · rw [hplace t y ht hy] at hvt
      by_cases hq : (t, y) = (r, c)
      · rw [if_pos hq] at hvt
        exact Or.inl (Option.some.inj hvt).symm
      · rw [if_neg hq] at hvt
        exact Or.inr (Or.inr (Or.inl ⟨t, ht, hvt⟩))
    · have hpb := b.subgridPositions_bounds hWF (b.subTop_mem_starts hWF hx)
        (b.subTop_mem_starts hWF hy) hpmem
      rw [hplace p.1 p.2 hpb.1 hpb.2] at hvp
      by_cases hq : (p.1, p.2) = (r, c)
      · rw [if_pos hq] at hvp
        exact Or.inl (Option.some.inj hvp).symm
      · rw [if_neg hq] at hvp
        exact Or.inr (Or.inr (Or.inr ⟨p, hpmem, hvp⟩))
  · rintro (hw | ⟨t, ht, hvt⟩ | ⟨t, ht, hvt⟩ | ⟨p, hpmem, hvp⟩)
    · subst hw
      rcases hpeer with ⟨hor, _⟩
      rcases hor with hxr | hyc | hmem
      · subst hxr
        left
        refine ⟨c, hc, ?_⟩
        rw [hplace x c hx hc, if_pos rfl]
      · subst hyc
        right
        left
        refine ⟨r, hr, ?_⟩
        rw [hplace r y hr hy, if_pos rfl]
      · right
        right
        have hstx : b.subTop r = b.subTop x := by
          apply b.start_eq_subTop hWF (b.subTop_mem_starts hWF hr)
          · exact ((b.mem_subgridPositions _ _ _).mp hmem).1
          · exact ((b.mem_subgridPositions _ _ _).mp hmem).2.1
        have hsty : b.subTop c = b.subTop y := by
          apply b.start_eq_subTop hWF (b.subTop_mem_starts hWF hc)
          · exact ((b.mem_subgridPositions _ _ _).mp hmem).2.2.1
          · exact ((b.mem_subgridPositions _ _ _).mp hmem).2.2.2
        refine ⟨(r, c), ?_, ?_⟩
        · rw [← hstx, ← hsty]
          exact b.mem_subgridPositions_self hWF hr hc
        · rw [hplace r c hr hc, if_pos rfl]
    · left
      refine ⟨t, ht, ?_⟩
      rw [hplace x t hx ht, if_neg (by
        intro hq
        cases hq
        rw [hEmpty] at hvt
        cases hvt)]
      exact hvt
    · right
      left
      refine ⟨t, ht, ?_⟩
      rw [hplace t y ht hy, if_neg (by
        intro hq
        cases hq
        rw [hEmpty] at hvt
        cases hvt)]
      exact hvt
    · right
      right
      have hpb := b.subgridPositions_bounds hWF (b.subTop_mem_starts hWF hx)
        (b.subTop_mem_starts hWF hy) hpmem
      refine ⟨p, hpmem, ?_⟩
      rw [hplace p.1 p.2 hpb.1 hpb.2, if_neg (by
        intro hq
        cases hq
        rw [hEmpty] at hvp
        cases hvp)]
      exact hvp

/-- Placing a value at (r, c) leaves the restricted value set of a
non-peer cell unchanged. -/
theorem Board.restrictedValues_place_nonpeer (b : Board) (hWF : b.WF)
    {r c : Nat} (hr : r < b.size) (hc : c < b.size) (v : Option Nat)
    {x y : Nat} (hx : x < b.size) (hy : y < b.size)
    (hne : (x, y) ≠ (r, c)) (hnp : ¬ b.isPeer r c x y) :
    (b.place r c v).restrictedValues x y = b.restrictedValues x y := by
  unfold Board.isPeer at hnp
  have hnor : ¬ (x = r ∨ y = c ∨
      (x, y) ∈ b.subgridPositions (b.subTop r) (b.subTop c)) := by
    intro hor
    exact hnp ⟨hor, hne⟩
  push_neg at hnor
  unfold Board.restrictedValues Board.subgridVals
  have hsubtop : ∀ a : Nat, (b.place r c v).subTop a = b.subTop a :=
    fun a => rfl
  rw [hsubtop, hsubtop, b.rowVals_place_other hc v hnor.1,
    b.colVals_place_other hc v hnor.2.1 hy,
    b.subgridValsAt_place_other hWF hr hc v (b.subTop_mem_starts hWF hx)
      (b.subTop_mem_starts hWF hy) (by
        rintro ⟨h1, h2⟩
        apply hnor.2.2
        rw [← h1, ← h2]
        exact b.mem_subgridPositions_self hWF hx hy)]

/-- C3 core, amended to the assignment case: on a fully refreshed board,
after placing a value into an empty cell, the affected-cells-only update
of that cell produces exactly the board a full recomputation produces. -/
theorem Board.updateAffected_place_eq_fullRefresh (b : Board) (hWF : b.WF)
    (hrf : b.refreshed) {r c : Nat} (hr : r < b.size) (hc : c < b.size)
    (hEmpty : b.val r c = none) (v : Nat) :
    (b.place r c (some v)).updateAffectedCells r c =
      (b.place r c (some v)).fullRefresh := by
  have hWFp : (b.place r c (some v)).WF := b.WF_place r c (some v) hWF
  have hlen := b.idx_lt hWF hr hc
  have hvalp : (b.place r c (some v)).val r c = some v :=
    b.val_place_self r c (some v) hlen
  have hua : vEq ((b.place r c (some v)).updateAffectedCells r c)
      (b.place r c (some v)) := vEq.updateAffectedCells_left _ r c
  have hfr : vEq (b.place r c (some v)).fullRefresh (b.place r c (some v)) :=
    vEq.fullRefresh_left _
  have hWFa : ((b.place r c (some v)).updateAffectedCells r c).WF :=
    hua.WF_of hWFp
  have hWFr : (b.place r c (some v)).fullRefresh.WF :=
    Board.WF_fullRefresh _ hWFp
  have hszp : (b.place r c (some v)).size = b.size := rfl
  apply Board.eq_of_fields
  · rw [hua.1, hfr.1]
  · rw [hua.2.1, hfr.2.1]
  · apply List.ext_getElem
    · rw [hua.length_eq, hfr.length_eq]
    · intro i hia hib
      rw [Board.getElem_eq_getCell _ hWFa hia, Board.getElem_eq_getCell _ hWFr hib]
      have hsza : ((b.place r c (some v)).updateAffectedCells r c).size = b.size :=
        hua.1
      have hszr : (b.place r c (some v)).fullRefresh.size = b.size := hfr.1
      rw [hsza, hszr]
      have hlenp : (b.place r c (some v)).cells.length = b.size * b.size := by
        rw [hWFp.2, hszp]
      have hilt : i < b.size * b.size := by
        rw [hua.length_eq, hlenp] at hia
        exact hia
      have hszpos : 0 < b.size := by
        by_contra hz
        have hzz : b.size = 0 := by omega
        rw [hzz] at hilt
        simp at hilt
      have hx : i / b.size < b.size := Nat.div_lt_of_lt_mul hilt
      have hy : i % b.size < b.size := Nat.mod_lt _ hszpos
      set x := i / b.size
      set y := i % b.size
      rw [Board.getCell_fullRefresh _ hWFp (hszp ▸ hx) (hszp ▸ hy)]
      rw [Board.getCell_updateAffectedCells_some _ hWFp (hszp ▸ hr) (hszp ▸ hc)
        hvalp (hszp ▸ hx) (hszp ▸ hy)]
      have hvne : ∀ a d : Nat, (a, d) ≠ (r, c) →  d < b.size →
          (b.place r c (some v)).val a d = b.val a d := by
        intro a d hq hd
        apply b.val_place_ne
        intro hidx
        rcases b.idx_inj hd hc hidx with ⟨h1, h2⟩
        exact hq (Prod.ext h1 h2)
      have hgne : ∀ a d : Nat, (a, d) ≠ (r, c) → d < b.size →
          (b.place r c (some v)).getCell a d = b.getCell a d := by
        intro a d hq hd
        apply b.getCell_place_ne
        intro hidx
        rcases b.idx_inj hd hc hidx with ⟨h1, h2⟩
        exact hq (Prod.ext h1 h2)
      by_cases hcond : (b.place r c (some v)).isPeer r c x y ∧
          (b.place r c (some v)).isEmptyAt x y = true
      · rw [if_pos hcond]
        have hne : (x, y) ≠ (r, c) := hcond.1.2
        have hvxy : (b.place r c (some v)).val x y = b.val x y := hvne x y hne hy
        have hgxy : (b.place r c (some v)).getCell x y = b.getCell x y :=
          hgne x y hne hy
        have hempty_xy : b.val x y = none := by
          have := hcond.2
          unfold Board.isEmptyAt at this
          rw [hvxy] at this
          cases hvv : b.val x y
          · rfl
          · rw [hvv] at this
            cases this
        have hpeerb : b.isPeer r c x y := by
          rcases hcond.1 with ⟨hor, hne2⟩
          exact ⟨hor, hne2⟩
        have hposs : (b.getCell x y).possibleValues = b.possCanon x y :=
          hrf x hx y hy
        have hcanon : b.possCanon x y =
            allValues b.size \ b.restrictedValues x y := by
          unfold Board.possCanon
          rw [hempty_xy]
        have hcanonp : (b.place r c (some v)).possCanon x y =
            (allValues b.size \ b.restrictedValues x y).erase v := by
          unfold Board.possCanon
          rw [hvxy, hempty_xy, hszp,
            b.restrictedValues_place_peer hWF hr hc hEmpty v hx hy hpeerb,
            sdiff_insert_erase]
        rw [hgxy, hposs, hcanon, hcanonp]
      · rw [if_neg hcond]
        by_cases hq : (x, y) = (r, c)
        · have h1 : x = r := congrArg Prod.fst hq
          have h2 : y = c := congrArg Prod.snd hq
          rw [h1, h2, b.getCell_place_self r c (some v) hlen]
          have hcanonp : (b.place r c (some v)).possCanon r c = {v} := by
            unfold Board.possCanon
            rw [hvalp]
          rw [hvalp, hcanonp]
          rfl
        · have hvxy : (b.place r c (some v)).val x y = b.val x y := hvne x y hq hy
          have hgxy : (b.place r c (some v)).getCell x y = b.getCell x y :=
            hgne x y hq hy
          have hposs : (b.getCell x y).possibleValues = b.possCanon x y :=
            hrf x hx y hy
          have hcanonp : (b.place r c (some v)).possCanon x y =
              b.possCanon x y := by
            unfold Board.possCanon
            rw [hvxy]
            cases hvv : b.val x y with
            | some w => rfl
            | none =>
              have hnp : ¬ b.isPeer r c x y := by
                intro hpb
                apply hcond
                refine ⟨⟨hpb.1, hpb.2⟩, ?_⟩
                unfold Board.isEmptyAt
                rw [hvxy, hvv]
                rfl
              rw [hszp, b.restrictedValues_place_nonpeer hWF hr hc (some v)
                hx hy hq hnp]
          rw [hgxy, hvxy, hcanonp, ← hposs]
          rfl

/-! ## The claims -/

/-- C1, amended: for every requested clue count n and every complete
well-formed solution board, when a generate_puzzle attempt returns a
puzzle, the puzzle passes count_solutions(max_count=2) == 1 but has AT
LEAST n filled cells rather than exactly n: the recovery step restores
clues until uniqueness returns, with no check that the clue count is
still exact, and generate_puzzle only verifies the solution count. -/
theorem claim_C1 (s : Board) (hWF : s.WF) (hfull : s.emptyPositions = [])
    (n : Nat) (hn2 : n ≤ s.size * s.size) {b : Board}
    (h : generatePuzzleAttempt s n = some b) :
    b.countSolutions 2 = 1 ∧ n ≤ b.filledCount :=
  generatePuzzleAttempt_spec s hWF hfull n hn2 h

theorem claim_C1_witness :
    classic4.WF ∧ classic4.emptyPositions = [] ∧
    generatePuzzleAttempt classic4 14 =
      some ((removeCluesOptimized classic4 14).1) ∧
    (((removeCluesOptimized classic4 14).1).countSolutions 2 = 1 ∧
      14 ≤ ((removeCluesOptimized classic4 14).1).filledCount) :=
  ⟨by decide, by decide, by decide,
    claim_C1 classic4 (by decide) (by decide) 14 (by decide) (by decide)⟩

/-- C1 counterexample to the original claim: an accepted
generate_puzzle attempt for num_clues = 8 returns a board with 10
filled cells -- the recovery loop put two clues back and stopped at the
first uniqueness success, never re-checking the clue count. -/
theorem claim_C1_counterexample :
    (generatePuzzleAttempt classic4 8).map Board.filledCount = some 10 ∧
    (10 : Nat) ≠ 8 := by
  constructor
  · decide
  · decide

/-- C2, amended: when Board.remove_clues succeeds on a board with more
than num_clues filled cells, the board ends with exactly num_clues
filled cells and exactly one solution, and every intermediate state
recorded right after a committed removal has exactly one solution.
When the board starts at or below num_clues the call returns
immediately (success iff the count is already exact) with no
uniqueness guarantee at all. -/
theorem claim_C2 (b : Board) (hWF : b.WF) (n : Nat)
    (shuffled : List (Nat × Nat))
    (hperm : List.Perm shuffled b.filledPositions) {b' : Board}
    (h : b.removeClues n shuffled = .ok (b', true)) :
    b'.filledCount = n ∧
    (n < b.filledCount → b'.countSolutions 2 = 1) ∧
    (∀ x ∈ (removeCluesGo (b.filledPositions.length - n) shuffled b b.copy
      [] []).2.2.2, x.countSolutions 2 = 1) :=
  Board.removeClues_spec b hWF n shuffled hperm h

theorem claim_C2_witness :
    classic4.WF ∧
    ((removeCluesGo (classic4.filledPositions.length - 14)
        classic4.filledPositions classic4 classic4.copy [] []).1).filledCount
        = 14 ∧
    (14 < classic4.filledCount →
      ((removeCluesGo (classic4.filledPositions.length - 14)
        classic4.filledPositions classic4 classic4.copy [] []).1).countSolutions 2
        = 1) ∧
    (∀ x ∈ (removeCluesGo (classic4.filledPositions.length - 14)
        classic4.filledPositions classic4 classic4.copy [] []).2.2.2,
      x.countSolutions 2 = 1) :=
  ⟨by decide, claim_C2 classic4 (by decide) 14 classic4.filledPositions
    (List.Perm.refl _) rfl⟩

/-- C2 counterexample to the original claim: on a one-clue board,
remove_clues(1) takes the early-return path (filled count already at
the target), reports success, and never checks uniqueness -- yet the
board has 2 solutions when capped at 2, not 1. -/
theorem claim_C2_counterexample :
    oneClue4.removeClues 1 oneClue4.filledPositions = .ok (oneClue4, true)
      ∧ oneClue4.countSolutions 2 = 2 := by
  constructor
  · rfl
  · decide

/-- C3, amended: the affected-cells-only fast path matches the full
recomputation only for the assignment direction: on a fully refreshed
board, after placing a value into a previously empty in-bounds cell,
update_possible_values(row, col, affected_only=True) returns exactly
the board that the full update_possible_values() recomputation
returns. -/
theorem claim_C3 (b : Board) (hWF : b.WF) (hrf : b.refreshed) {r c : Nat}
    (hr : r < b.size) (hc : c < b.size) (hEmpty : b.val r c = none)
    (v : Nat) :
    (b.place r c (some v)).updatePossibleValues (some r) (some c) true =
      (b.place r c (some v)).updatePossibleValues none none false := by
  have h1 : (b.place r c (some v)).updatePossibleValues (some r) (some c) true
      = .ok ((b.place r c (some v)).updateAffectedCells r c) := by
    show (if r < (b.place r c (some v)).size ∧ c < (b.place r c (some v)).size
        then
          if true = true then
            Except.ok ((b.place r c (some v)).updateAffectedCells r c)
          else Except.ok ((b.place r c (some v)).updateCellPoss r c)
        else Except.error Err.outOfBounds) =
      Except.ok ((b.place r c (some v)).updateAffectedCells r c)
    rw [if_pos (show r < (b.place r c (some v)).size ∧
      c < (b.place r c (some v)).size from ⟨hr, hc⟩)]
    rfl
  have h2 : (b.place r c (some v)).updatePossibleValues none none false
      = .ok ((b.place r c (some v)).fullRefresh) := rfl
  rw [h1, h2,
    Board.updateAffected_place_eq_fullRefresh b hWF hrf hr hc hEmpty v]

theorem claim_C3_witness :
    puzzle4.fullRefresh.WF ∧ puzzle4.fullRefresh.refreshed ∧
    puzzle4.fullRefresh.val 0 0 = none ∧
    (puzzle4.fullRefresh.place 0 0 (some 1)).updatePossibleValues
        (some 0) (some 0) true =
      (puzzle4.fullRefresh.place 0 0 (some 1)).updatePossibleValues
        none none false :=
  ⟨by decide, by decide, by decide,
    claim_C3 puzzle4.fullRefresh (by decide) (by decide) (by decide)
      (by decide) (by decide) 1⟩

/-- C3 counterexample to the original claim: clearing a cell is the
other single-cell change, and there the affected-only path only
recomputes the cleared cell itself, leaving every peer's candidate set
stale.  On the refreshed one-clue board, after clearing (0, 0) the
affected-only update leaves cell (0, 1) with candidates {2, 3, 4}
while the full recomputation restores {1, 2, 3, 4}. -/
theorem claim_C3_counterexample :
    oneClue4.fullRefresh.refreshed ∧
    (oneClue4.fullRefresh.place 0 0 none).val 0 0 = none ∧
    (oneClue4.fullRefresh.place 0 0 none).updatePossibleValues
        (some 0) (some 0) true =
      .ok ((oneClue4.fullRefresh.place 0 0 none).updateAffectedCells 0 0) ∧
    ((((oneClue4.fullRefresh.place 0 0 none).updateAffectedCells 0
        0).getCell 0 1).possibleValues = {2, 3, 4} ∧
      ((((oneClue4.fullRefresh.place 0 0 none).fullRefresh).getCell 0
        1).possibleValues = {1, 2, 3, 4}) ∧
      (oneClue4.fullRefresh.place 0 0 none).updateAffectedCells 0 0 ≠
        ((oneClue4.fullRefresh.place 0 0 none).fullRefresh)) :=
  ⟨by decide, by decide, rfl, by decide, by decide, by decide⟩

/-- C4, amended: count_solutions(max_count) returns
min(max_count, S) -- S the number of complete valid fillings agreeing
with the current clues -- for every well-formed board that is valid or
has at least one empty cell.  (The remaining boards, completely filled
invalid ones, are counted as 1 instead of 0; see the counterexample.) -/
theorem claim_C4 (b : Board) (hWF : b.WF) (maxC : Nat)
    (hvb : b.isValid = true ∨ b.emptyPositions ≠ []) :
    b.countSolutions maxC = min maxC b.countCompletions :=
  Board.countSolutions_spec b hWF maxC hvb

theorem claim_C4_witness :
    oneClue4.WF ∧ oneClue4.isValid = true ∧
    oneClue4.countSolutions 5 = min 5 oneClue4.countCompletions :=
  ⟨by decide, by decide, claim_C4 oneClue4 (by decide) 5 (Or.inl (by decide))⟩

/-- C4 counterexample to the original claim: the all-ones 4 x 4 board
is completely filled and invalid, so it has no complete valid filling
agreeing with its clues (S = 0), yet count_solutions(2) returns 1
because the backtracking counts any board without empty cells as a
solution. -/
theorem claim_C4_counterexample :
    allOnes4.isValid = false ∧ allOnes4.countCompletions = 0 ∧
    allOnes4.countSolutions 2 = 1 := by
  refine ⟨?_, ?_, ?_⟩
  · decide
  · decide
  · decide

/-- C5: a board with no empty cell makes count_solutions return
exactly 1 for every max_count ≥ 1, with no validity check: get_mrv_cell
finds no empty cell, so the backtracking immediately counts the board
as one solution. -/
theorem claim_C5 (b : Board) (he : b.emptyPositions = []) {maxC : Nat}
    (hmax : 1 ≤ maxC) : b.countSolutions maxC = 1 :=
  Board.countSolutions_of_full b he hmax

theorem claim_C5_witness :
    allOnes4.emptyPositions = [] ∧ allOnes4.isValid = false ∧
    allOnes4.countSolutions 3 = 1 :=
  ⟨by decide, by decide, claim_C5 allOnes4 (by decide) (by decide)⟩

/-- C6, amended: with in-bounds position and num in [1, size],
is_safe(row, col, num) is true iff no cell of row row, column col, or
the subgrid of (row, col) holds num -- INCLUDING the cell (row, col)
itself, which the three scans of the source do not skip.  (The call is
a pure read; the embedding is a pure function of the board.) -/
theorem claim_C6 (b : Board) {r c num : Nat} (hr : r < b.size)
    (hc : c < b.size) (h1 : 1 ≤ num) (h2 : num ≤ b.size) :
    b.isSafe r c num = .ok true ↔
      (∀ t, t < b.size → b.val r t ≠ some num) ∧
      (∀ t, t < b.size → b.val t c ≠ some num) ∧
      (∀ p ∈ b.subgridPositions (b.subTop r) (b.subTop c),
        b.val p.1 p.2 ≠ some num) := by
  unfold Board.isSafe
  rw [if_pos ⟨hr, hc⟩, if_pos ⟨h1, h2⟩]
  constructor
  · intro h
    have hcore : b.isSafeCore r c num = true := Except.ok.inj h
    unfold Board.isSafeCore at hcore
    rw [Bool.and_eq_true, Bool.and_eq_true] at hcore
    rcases hcore with ⟨⟨hrow, hcol⟩, hsub⟩
    have hrow2 := of_decide_eq_true hrow
    have hcol2 := of_decide_eq_true hcol
    have hsub2 := of_decide_eq_true hsub
    rw [Board.mem_rowVals] at hrow2
    rw [Board.mem_colVals] at hcol2
    unfold Board.subgridVals at hsub2
    rw [Board.mem_subgridValsAt_iff] at hsub2
    push_neg at hrow2 hcol2 hsub2
    exact ⟨hrow2, hcol2, fun p hp => hsub2 p hp⟩
  · rintro ⟨hrow, hcol, hsub⟩
    have hcore : b.isSafeCore r c num = true := by
      unfold Board.isSafeCore
      rw [Bool.and_eq_true, Bool.and_eq_true]
      refine ⟨⟨decide_eq_true ?_, decide_eq_true ?_⟩, decide_eq_true ?_⟩
      · rw [Board.mem_rowVals]
        push_neg
        exact hrow
      · rw [Board.mem_colVals]
        push_neg
        exact hcol
      · unfold Board.subgridVals
        rw [Board.mem_subgridValsAt_iff]
        push_neg
        exact hsub
    rw [hcore]

theorem claim_C6_witness :
    puzzle4.isSafe 0 0 1 = .ok true :=
  (claim_C6 puzzle4 (by decide) (by decide) (by decide) (by decide)).mpr
    (by decide)

/-- C6 counterexample to the original claim: on the one-clue board the
cell (0, 0) itself holds 1 and no OTHER cell of its row, column or
subgrid does, so the claimed peers-only reading demands
is_safe(0, 0, 1) = true; the code returns false because its scans
include the cell itself. -/
theorem claim_C6_counterexample :
    oneClue4.val 0 0 = some 1 ∧
    (∀ t, t < oneClue4.size → t ≠ 0 → oneClue4.val 0 t ≠ some 1) ∧
    (∀ t, t < oneClue4.size → t ≠ 0 → oneClue4.val t 0 ≠ some 1) ∧
    (∀ p ∈ oneClue4.subgridPositions (oneClue4.subTop 0)
        (oneClue4.subTop 0), p ≠ (0, 0) → oneClue4.val p.1 p.2 ≠ some 1) ∧
    oneClue4.isSafe 0 0 1 = .ok false := by
  refine ⟨?_, ?_, ?_, ?_, ?_⟩
  · decide
  · decide
  · decide
  · decide
  · rfl

/-- C7: on a well-formed valid board with at least one complete valid
filling, Solver.solve returns true and the solver's board is
completely filled, valid, and extends every originally filled cell of
the input (clues are never overwritten); the input board itself is
only copied, never mutated (the embedding of solve reads the input
board and builds a new one). -/
theorem claim_C7 (b : Board) (hWF : b.WF) (hval : b.isValid = true)
    (hcc : 1 ≤ b.countCompletions) :
    (solverSolve b).1 = true ∧ (solverSolve b).2.emptyPositions = [] ∧
    (solverSolve b).2.isValid = true ∧ (solverSolve b).2.Extends b :=
  solverSolve_spec b hWF hval hcc

theorem claim_C7_witness :
    puzzle4.WF ∧ puzzle4.isValid = true ∧ 1 ≤ puzzle4.countCompletions ∧
    ((solverSolve puzzle4).1 = true ∧
      (solverSolve puzzle4).2.emptyPositions = [] ∧
      (solverSolve puzzle4).2.isValid = true ∧
      (solverSolve puzzle4).2.Extends puzzle4) :=
  ⟨by decide, by decide, by decide,
    claim_C7 puzzle4 (by decide) (by decide) (by decide)⟩

/-- C8: set_value(r, c, v) fails with OutOfBounds iff the position is
out of [0, size) x [0, size); in bounds it fails with InvalidValue iff
v is a number outside [1, size] (None is always accepted); and on
success get_value(r, c) returns exactly v. -/
theorem claim_C8 (b : Board) (hWF : b.WF) (r c : Nat) (v : Option Nat) :
    (b.setValue r c v = .error .outOfBounds ↔ ¬ (r < b.size ∧ c < b.size)) ∧
    (b.setValue r c v = .error .invalidValue ↔
      (r < b.size ∧ c < b.size) ∧ ∃ x, v = some x ∧ ¬ (1 ≤ x ∧ x ≤ b.size)) ∧
    (∀ b', b.setValue r c v = .ok b' → b'.getValue r c = .ok v) := by
  by_cases hb : r < b.size ∧ c < b.size
  · cases v with
    | none =>
      have hset : b.setValue r c none = .ok (b.place r c none) := by
        unfold Board.setValue
        rw [if_pos hb]
      refine ⟨?_, ?_, ?_⟩
      · rw [hset]
        constructor
        · intro h
          cases h
        · intro h
          exact absurd hb h
      · rw [hset]
        constructor
        · intro h
          cases h
        · rintro ⟨-, x, hx, -⟩
          cases hx
      · intro b' h
        rw [hset] at h
        have hb' : b.place r c none = b' := Except.ok.inj h
        have hbb' : r < b'.size ∧ c < b'.size := by
          rw [← hb']
          exact hb
        have hget : b'.getValue r c = .ok (b'.val r c) := by
          unfold Board.getValue
          rw [if_pos hbb']
        rw [hget, ← hb',
          b.val_place_self r c none (b.idx_lt hWF hb.1 hb.2)]
    | some x =>
      by_cases hx : 1 ≤ x ∧ x ≤ b.size
      · have hset : b.setValue r c (some x) = .ok (b.place r c (some x)) := by
          unfold Board.setValue
          rw [if_pos hb]
          show (if 1 ≤ x ∧ x ≤ b.size then Except.ok (b.place r c (some x))
            else Except.error Err.invalidValue) = Except.ok (b.place r c (some x))
          rw [if_pos hx]
        refine ⟨?_, ?_, ?_⟩
        · rw [hset]
          constructor
          · intro h
            cases h
          · intro h
            exact absurd hb h
        · rw [hset]
          constructor
          · intro h
            cases h
          · rintro ⟨-, t, ht, hbad⟩
            have hxt : x = t := Option.some.inj ht
            subst hxt
            exact absurd hx hbad
        · intro b' h
          rw [hset] at h
          have hb' : b.place r c (some x) = b' := Except.ok.inj h
          have hbb' : r < b'.size ∧ c < b'.size := by
            rw [← hb']
            exact hb
          have hget : b'.getValue r c = .ok (b'.val r c) := by
            unfold Board.getValue
            rw [if_pos hbb']
          rw [hget, ← hb',
            b.val_place_self r c (some x) (b.idx_lt hWF hb.1 hb.2)]
      · have hset : b.setValue r c (some x) = .error .invalidValue := by
          unfold Board.setValue
          rw [if_pos hb]
          show (if 1 ≤ x ∧ x ≤ b.size then Except.ok (b.place r c (some x))
            else Except.error Err.invalidValue) = Except.error Err.invalidValue
          rw [if_neg hx]
        refine ⟨?_, ?_, ?_⟩
        · rw [hset]
          constructor
          · intro h
            exact absurd (Except.error.inj h) (by decide)
          · intro h
            exact absurd hb h
        · rw [hset]
          constructor
          · intro _
            exact ⟨hb, x, rfl, hx⟩
          · intro _
            rfl
        · intro b' h
          rw [hset] at h
          cases h
  · have hset : b.setValue r c v = .error .outOfBounds := by
      unfold Board.setValue
      rw [if_neg hb]
    refine ⟨?_, ?_, ?_⟩
    · rw [hset]
      constructor
      · intro _
        exact hb
      · intro _
        rfl
    · rw [hset]
      constructor
      · intro h
        exact absurd (Except.error.inj h) (by decide)
      · rintro ⟨hbb, -⟩
        exact absurd hbb hb
    · intro b' h
      rw [hset] at h
      cases h

theorem claim_C8_witness :
    (mkBoard 4).WF ∧
    (((mkBoard 4).setValue 1 2 (some 3) = .error .outOfBounds ↔
        ¬ (1 < (mkBoard 4).size ∧ 2 < (mkBoard 4).size)) ∧
      ((mkBoard 4).setValue 1 2 (some 3) = .error .invalidValue ↔
        (1 < (mkBoard 4).size ∧ 2 < (mkBoard 4).size) ∧
          ∃ x, (some 3 : Option Nat) = some x ∧
            ¬ (1 ≤ x ∧ x ≤ (mkBoard 4).size)) ∧
      (∀ b', (mkBoard 4).setValue 1 2 (some 3) = .ok b' →
        b'.getValue 1 2 = .ok (some 3))) :=
  ⟨by decide, claim_C8 (mkBoard 4) (by decide) 1 2 (some 3)⟩

/-- C9: the full candidate refresh is idempotent: a second
update_possible_values() call with no arguments returns the refreshed
board unchanged. -/
theorem claim_C9 (b : Board) (hWF : b.WF) :
    b.updatePossibleValues none none false = .ok b.fullRefresh ∧
    b.fullRefresh.updatePossibleValues none none false =
      .ok b.fullRefresh := by
  refine ⟨rfl, ?_⟩
  show Except.ok b.fullRefresh.fullRefresh = Except.ok b.fullRefresh
  rw [Board.fullRefresh_idem b hWF]

theorem claim_C9_witness :
    classic4.WF ∧
    (classic4.updatePossibleValues none none false = .ok classic4.fullRefresh ∧
      classic4.fullRefresh.updatePossibleValues none none false =
        .ok classic4.fullRefresh) :=
  ⟨by decide, claim_C9 classic4 (by decide)⟩

/-- C10: set_value(r, c, None) on an in-bounds cell succeeds, clears
exactly that cell's value, leaves that cell's possible_values
completely unchanged (stale until an explicit refresh), and leaves
every other cell -- value and candidate set -- untouched. -/
theorem claim_C10 (b : Board) (hWF : b.WF) {r c : Nat} (hr : r < b.size)
    (hc : c < b.size) :
    b.setValue r c none = .ok (b.place r c none) ∧
    (b.place r c none).val r c = none ∧
    ((b.place r c none).getCell r c).possibleValues =
      (b.getCell r c).possibleValues ∧
    (∀ x y, x < b.size → y < b.size → (x, y) ≠ (r, c) →
      (b.place r c none).getCell x y = b.getCell x y) := by
  have hlen := b.idx_lt hWF hr hc
  refine ⟨?_, ?_, ?_, ?_⟩
  · unfold Board.setValue
    rw [if_pos ⟨hr, hc⟩]
  · exact b.val_place_self r c none hlen
  · rw [b.getCell_place_self r c none hlen]
    rfl
  · intro x y _ hy hne
    apply b.getCell_place_ne
    intro hidx
    rcases b.idx_inj hy hc hidx with ⟨h1, h2⟩
    exact hne (Prod.ext h1 h2)

theorem claim_C10_witness :
    classic4.WF ∧
    (classic4.setValue 0 0 none = .ok (classic4.place 0 0 none) ∧
      (classic4.place 0 0 none).val 0 0 = none ∧
      ((classic4.place 0 0 none).getCell 0 0).possibleValues =
        (classic4.getCell 0 0).possibleValues ∧
      (∀ x y, x < classic4.size → y < classic4.size → (x, y) ≠ (0, 0) →
        (classic4.place 0 0 none).getCell x y = classic4.getCell x y)) :=
  ⟨by decide, claim_C10 classic4 (by decide) (by decide) (by decide)⟩

end Sudoku
